import Mathlib

/-!
# bazel-differ: target hashing and impact analysis

A shallow embedding of `internal/target_hashing_client.go` and
`internal/bazel_sourcefile_target.go`, followed by theorems about the digest
propagation engine and the snapshot diff.

Conventions of the embedding

* A Go `string` is an immutable byte sequence and `[]byte(s)` keeps its
  content, so names are byte lists and `[]byte(name)` is the name itself.
* A `[]byte` that the code tests against `nil` is an `Option Bytes`
  (`none` is the nil slice).
* A Go `map[string]V` is an association list read by its first matching
  entry; writing a key puts a new entry in front.
* A function returning `(value, error)` returns `Exec.ret value err`; a nil
  dereference is `Exec.panic`; the recursion of `createDigestForRule` carries
  a depth budget and `Exec.timeout` says that the budget ran out.
* `crypto/sha256`, `path.Join`, the operating system and the collaborators
  behind the interfaces `BazelClient`, `RuleProvider` and `BazelRule` are
  parameters.
-/

namespace BazelDiffer

/-! ## Data model -/

/-- One byte. -/
abbrev Byte := Fin 256

/-- Content of a Go byte slice. -/
abbrev Bytes := List Byte

/-- Go string, a byte sequence. -/
abbrev GoString := List Byte

/-- Go error value; `nil` is `none : Option GoError`. -/
structure GoError where
  code : Nat
deriving DecidableEq, Repr

/-- The sentinel `os.ErrNotExist`. -/
def ErrNotExist : GoError := ⟨2⟩

/-- Result of running a Go function with results `(value, error)`. -/
inductive Exec (α : Type) where
  | ret (value : α) (err : Option GoError)
  | panic
  | timeout
deriving DecidableEq, Repr

/-- State of a `for` loop body: the enclosing function has returned, or the
loop goes on with the state `s`. -/
inductive Flow (ρ σ : Type) where
  | returned (r : Exec ρ)
  | running (s : σ)
deriving DecidableEq, Repr

/-- Go `map[string]V`. -/
structure GoMap (V : Type) where
  entries : List (GoString × V)
deriving DecidableEq, Repr

namespace GoMap

variable {V : Type}

/-- The map made by `make(map[string]V)`. -/
def empty : GoMap V := ⟨[]⟩

/-- The lookup `v, ok := m[k]`: `none` when the key is absent. -/
def get (m : GoMap V) (k : GoString) : Option V :=
  match m.entries.find? (fun p => decide (p.1 = k)) with
  | some p => some p.2
  | none => none

/-- The assignment `m[k] = v`. -/
def set (m : GoMap V) (k : GoString) (v : V) : GoMap V := ⟨(k, v) :: m.entries⟩

/-- First entry of every key, in list order. -/
def firstEntries : List (GoString × V) → List (GoString × V)
  | [] => []
  | p :: rest => p :: (firstEntries rest).filter (fun q => decide (q.1 ≠ p.1))

/-- The pairs visited by `for k, v := range m`, each key once. Go leaves the
order open; the embedding fixes the list order. -/
def range (m : GoMap V) : List (GoString × V) := firstEntries m.entries

end GoMap

/-- The `BazelRule` interface: `GetName`, `GetDigest` and `GetRuleInputList`
of a materialized rule. `GetDigest` returns `([]byte, error)`. -/
structure BazelRule where
  GetName : GoString
  GetDigest : Bytes × Option GoError
  GetRuleInputList : List GoString
deriving DecidableEq, Repr

/-- The protobuf message `Rule` of a query result. The digest code reads only
its name; the remaining content is kept as uninterpreted bytes that only the
rule provider reads. -/
structure Rule where
  Name : GoString
  Rest : Bytes
deriving DecidableEq, Repr

/-- The protobuf message `SourceFile`. -/
structure SourceFile where
  Name : GoString
deriving DecidableEq, Repr

/-- The protobuf message `GeneratedFile`. -/
structure GeneratedFile where
  Name : GoString
  GeneratingRule : GoString
deriving DecidableEq, Repr

/-- The protobuf message `Target`: three optional variants (`none` is a nil
pointer). -/
structure Target where
  Rule : Option Rule
  SourceFile : Option SourceFile
  GeneratedFile : Option GeneratedFile
deriving DecidableEq, Repr

/-- The struct `bazelSourceFileTarget` behind `BazelSourceFileTarget`. -/
structure BazelSourceFileTarget where
  name : GoString
  digest : Bytes
deriving DecidableEq, Repr

/-- The method `GetName` of `bazelSourceFileTarget`. -/
def BazelSourceFileTarget.GetName (b : BazelSourceFileTarget) : GoString := b.name

/-- The method `GetDigest` of `bazelSourceFileTarget`. -/
def BazelSourceFileTarget.GetDigest (b : BazelSourceFileTarget) : Option Bytes := some b.digest

/-- The `BazelClient` interface, as the answers of its two queries. -/
structure BazelClient where
  QueryAllTargets : List Target × Option GoError
  QueryAllSourceFileTargets : GoMap BazelSourceFileTarget × Option GoError

/-- The `RuleProvider` interface: `GetRule` takes a `*Rule` (possibly nil) and
returns a `BazelRule` interface value (possibly nil). -/
structure RuleProvider where
  GetRule : Option Rule → Option BazelRule

/-- The `fs.FS` handle: `fs.ReadFile(filesys, path)`. -/
structure FS where
  ReadFile : GoString → Bytes × Option GoError

/-- The host system calls of `bazel_sourcefile_target.go`: `os.Stat` (its
error result), `ioutil.ReadFile` and `path.Join` of two elements. -/
structure Host where
  Stat : GoString → Option GoError
  ReadFile : GoString → Bytes × Option GoError
  Join : GoString → GoString → GoString

/-- The struct `targetHashingClient`. -/
structure targetHashingClient where
  bazelClient : BazelClient
  filesystem : FS
  ruleProvider : RuleProvider

/-! ## Source: `bazel_sourcefile_target.go` -/

/-- Go `strings.HasPrefix`. -/
def hasPrefix : GoString → GoString → Bool
  | _, [] => true
  | [], _ :: _ => false
  | a :: s, b :: p => decide (a = b) && hasPrefix s p

/-- Go `strings.Replace(s, ":", "/", 1)`: the first colon becomes a slash. -/
def replaceFirstColon : GoString → GoString
  | [] => []
  | c :: s => if c = 58 then 47 :: s else c :: replaceFirstColon s

/-- Go `errors.Is(err, os.ErrNotExist)` on the error result of `os.Stat`. -/
def isNotExist (err : Option GoError) : Bool := decide (err = some ErrNotExist)

/-- The constructor `NewBazelSourceFileTarget`. The `filesystem` argument is
not read by the Go function, which goes to the host system directly. -/
def NewBazelSourceFileTarget (Sum256 : Bytes → Bytes) (host : Host) (name : GoString)
    (digest : Bytes) (_filesystem : FS) (workingDirectory : GoString) :
    Exec (Option BazelSourceFileTarget) :=
  let finish (finalDigest : Bytes) : Exec (Option BazelSourceFileTarget) :=
    .ret (some ⟨name, Sum256 (finalDigest ++ digest ++ name)⟩) none
  if workingDirectory ≠ [] ∧ hasPrefix name [47, 47] = true then
    let filenameSubstring := name.drop 2
    let filenamePath := replaceFirstColon filenameSubstring
    let sourceFile := host.Join workingDirectory filenamePath
    if !isNotExist (host.Stat sourceFile) then
      match host.ReadFile sourceFile with
      | (_, some err) => .ret none (some err)
      | (contents, none) => finish contents
    else finish []
  else finish []

/-! ## Source: `target_hashing_client.go` -/

/-- The table `HexArray`, the bytes of `"0123456789abcdef"`. -/
def HexArray : Bytes := [48, 49, 50, 51, 52, 53, 54, 55, 56, 57, 97, 98, 99, 100, 101, 102]

/-- The function `convertByteArrayToString`: two characters per byte. -/
def convertByteArrayToString : Bytes → GoString
  | [] => []
  | b :: rest =>
    let v := b.val &&& 0xFF
    HexArray.getD (v >>> 4) 0 :: HexArray.getD (v &&& 0x0F) 0 :: convertByteArrayToString rest

/-- The body of the loop of `GetImpactedTargets`, for the entry
`(target, endHashValue)` of `endHashes`. -/
def markImpacted (startHashes : GoMap GoString) (impactedTargets : GoMap Bool)
    (entry : GoString × GoString) : GoMap Bool :=
  match startHashes.get entry.1 with
  | none => impactedTargets.set entry.1 true
  | some startHashValue =>
    if startHashValue ≠ entry.2 then impactedTargets.set entry.1 true else impactedTargets

/-- The method `GetImpactedTargets`. -/
def GetImpactedTargets (startHashes endHashes : GoMap GoString) : Exec (GoMap Bool) :=
  .ret (endHashes.range.foldl (markImpacted startHashes) GoMap.empty) none

/-- The loop of `createSeedForFilepaths`: the buffer after reading every path,
or the first read error. -/
def readSeedFiles (filesys : FS) : List GoString → Bytes → Flow (Option Bytes) Bytes
  | [], buffer => .running buffer
  | path :: rest, buffer =>
    match filesys.ReadFile path with
    | (_, some err) => .returned (.ret (some []) (some err))
    | (data, none) => readSeedFiles filesys rest (buffer ++ data)

/-- The function `createSeedForFilepaths`. -/
def createSeedForFilepaths (Sum256 : Bytes → Bytes) (filesys : FS) (seedFilepaths : List GoString) :
    Exec (Option Bytes) :=
  if seedFilepaths.length = 0 then .ret (some []) none
  else
    match readSeedFiles filesys seedFilepaths [] with
    | .returned r => r
    | .running buffer => .ret (some (Sum256 buffer)) none

/-- The function `getNameForTarget`. -/
def getNameForTarget (target : Target) : GoString :=
  match target.Rule with
  | some r => r.Name
  | none =>
    match target.SourceFile with
    | some s => s.Name
    | none =>
      match target.GeneratedFile with
      | some g => g.Name
      | none => []

/-- The function `getDigestForSourceTargetName`; its error result is always nil. -/
def getDigestForSourceTargetName (sourceTargetName : GoString)
    (bazelSourcefileTargets : GoMap BazelSourceFileTarget) : Option Bytes × Option GoError :=
  match bazelSourcefileTargets.get sourceTargetName with
  | none => (none, none)
  | some target => (target.GetDigest, none)

/-- The guarded write `if p != nil { buffer.Write(p) }`. -/
def writeIfNotNil (buffer : Bytes) (p : Option Bytes) : Bytes :=
  match p with
  | some b => buffer ++ b
  | none => buffer

/-- The index lookup `allRulesMap[k]` of an interface-valued map: nil when the
key is absent or holds nil. -/
def ruleAt (allRulesMap : GoMap (Option BazelRule)) (k : GoString) : Option BazelRule :=
  (allRulesMap.get k).join

/-- The `for _, ruleInput := range rule.GetRuleInputList()` loop of
`createDigestForRule`; `recur` is the recursive call. -/
def foldRuleInputs (recur : Option BazelRule → GoMap Bytes → Exec (Option Bytes) × GoMap Bytes)
    (allRulesMap : GoMap (Option BazelRule))
    (bazelSourcefileTargets : GoMap BazelSourceFileTarget) (ruleName : GoString) :
    List GoString → Bytes → GoMap Bytes → Flow (Option Bytes) Bytes × GoMap Bytes
  | [], buffer, ruleHashes => (.running buffer, ruleHashes)
  | ruleInput :: rest, buffer, ruleHashes =>
    let buffer := buffer ++ ruleInput
    let inputRule := ruleAt allRulesMap ruleInput
    match getDigestForSourceTargetName ruleInput bazelSourcefileTargets with
    | (_, some err) => (.returned (.ret none (some err)), ruleHashes)
    | (sourceFileDigest, none) =>
      let otherwise :=
        foldRuleInputs recur allRulesMap bazelSourcefileTargets ruleName rest
          (writeIfNotNil buffer sourceFileDigest) ruleHashes
      match inputRule with
      | none => otherwise
      | some r =>
        if r.GetName ≠ [] ∧ ¬ (r.GetName = ruleName) then
          match recur inputRule ruleHashes with
          | (.ret _ (some err), ruleHashes) => (.returned (.ret none (some err)), ruleHashes)
          | (.ret inputRuleHash none, ruleHashes) =>
            foldRuleInputs recur allRulesMap bazelSourcefileTargets ruleName rest
              (writeIfNotNil buffer inputRuleHash) ruleHashes
          | (.panic, ruleHashes) => (.returned .panic, ruleHashes)
          | (.timeout, ruleHashes) => (.returned .timeout, ruleHashes)
        else otherwise

/-- The function `createDigestForRule`. The first argument bounds the depth of
the recursion; the result comes with the memoization cache it leaves. -/
def createDigestForRule (Sum256 : Bytes → Bytes) (allRulesMap : GoMap (Option BazelRule))
    (bazelSourcefileTargets : GoMap BazelSourceFileTarget) (seedHash : Option Bytes) :
    Nat → Option BazelRule → GoMap Bytes → Exec (Option Bytes) × GoMap Bytes
  | 0, _, ruleHashes => (.timeout, ruleHashes)
  | _ + 1, none, ruleHashes => (.panic, ruleHashes)
  | depth + 1, some rule, ruleHashes =>
    match ruleHashes.get rule.GetName with
    | some existingByteArray => (.ret (some existingByteArray) none, ruleHashes)
    | none =>
      match rule.GetDigest with
      | (_, some err) => (.ret none (some err), ruleHashes)
      | (ruleDigest, none) =>
        let buffer := writeIfNotNil ([] ++ ruleDigest) seedHash
        match foldRuleInputs
            (createDigestForRule Sum256 allRulesMap bazelSourcefileTargets seedHash depth)
            allRulesMap bazelSourcefileTargets rule.GetName rule.GetRuleInputList buffer
            ruleHashes with
        | (.returned r, ruleHashes) => (r, ruleHashes)
        | (.running buffer, ruleHashes) =>
          let finalHashValue := Sum256 buffer
          (.ret (some finalHashValue) none, ruleHashes.set rule.GetName finalHashValue)

/-- The method `createDigestForTarget`. -/
def createDigestForTarget (Sum256 : Bytes → Bytes) (t : targetHashingClient) (depth : Nat)
    (target : Target) (allRulesMap : GoMap (Option BazelRule))
    (bazelSourcefileTargets : GoMap BazelSourceFileTarget) (ruleHashes : GoMap Bytes)
    (seedHash : Option Bytes) : Exec (Option Bytes) × GoMap Bytes :=
  if target.SourceFile ≠ none ∧ getNameForTarget target ≠ [] then
    match getDigestForSourceTargetName (getNameForTarget target) bazelSourcefileTargets with
    | (_, some err) => (.ret none (some err), ruleHashes)
    | (sourceTargetDigestBytes, none) =>
      let buffer := writeIfNotNil (writeIfNotNil [] sourceTargetDigestBytes) seedHash
      (.ret (some (Sum256 buffer)) none, ruleHashes)
  else
    match target.GeneratedFile with
    | some g =>
      match ruleHashes.get g.GeneratingRule with
      | some _ =>
        createDigestForRule Sum256 allRulesMap bazelSourcefileTargets seedHash depth
          (ruleAt allRulesMap g.GeneratingRule) ruleHashes
      | none => (.ret none none, ruleHashes)
    | none =>
      createDigestForRule Sum256 allRulesMap bazelSourcefileTargets seedHash depth
        (t.ruleProvider.GetRule target.Rule) ruleHashes

/-- The body of the first loop of `hashAllTargets`. -/
def indexTarget (t : targetHashingClient) (allRulesMap : GoMap (Option BazelRule))
    (target : Target) : GoMap (Option BazelRule) :=
  let targetName := getNameForTarget target
  if targetName = [] then allRulesMap
  else
    let allRulesMap :=
      match target.Rule with
      | some r => allRulesMap.set targetName (t.ruleProvider.GetRule (some r))
      | none => allRulesMap
    match target.GeneratedFile with
    | some g => allRulesMap.set targetName (ruleAt allRulesMap g.GeneratingRule)
    | none => allRulesMap

/-- The first loop of `hashAllTargets`, which fills `allRulesMap`. -/
def indexTargets (t : targetHashingClient) (targets : List Target)
    (allRulesMap : GoMap (Option BazelRule)) : GoMap (Option BazelRule) :=
  targets.foldl (indexTarget t) allRulesMap

/-- The guarded store `if targetDigest != nil { targetHashes[targetName] =
convertByteArrayToString(targetDigest) }`. -/
def storeDigest (targetHashes : GoMap GoString) (targetName : GoString)
    (targetDigest : Option Bytes) : GoMap GoString :=
  match targetDigest with
  | some d => targetHashes.set targetName (convertByteArrayToString d)
  | none => targetHashes

/-- The second loop of `hashAllTargets`, on the state `(targetHashes,
ruleHashes)`. -/
def digestTargets (Sum256 : Bytes → Bytes) (t : targetHashingClient) (depth : Nat)
    (allRulesMap : GoMap (Option BazelRule))
    (bazelSourcefileTargets : GoMap BazelSourceFileTarget) (seedHash : Option Bytes) :
    List Target → GoMap GoString × GoMap Bytes →
      Flow (Option (GoMap GoString)) (GoMap GoString × GoMap Bytes)
  | [], state => .running state
  | target :: rest, (targetHashes, ruleHashes) =>
    let targetName := getNameForTarget target
    if targetName = [] then
      digestTargets Sum256 t depth allRulesMap bazelSourcefileTargets seedHash rest
        (targetHashes, ruleHashes)
    else
      match createDigestForTarget Sum256 t depth target allRulesMap bazelSourcefileTargets
          ruleHashes seedHash with
      | (.ret _ (some err), _) => .returned (.ret none (some err))
      | (.ret targetDigest none, ruleHashes) =>
        digestTargets Sum256 t depth allRulesMap bazelSourcefileTargets seedHash rest
          (storeDigest targetHashes targetName targetDigest, ruleHashes)
      | (.panic, _) => .returned .panic
      | (.timeout, _) => .returned .timeout

/-- The method `hashAllTargets`. -/
def hashAllTargets (Sum256 : Bytes → Bytes) (t : targetHashingClient) (depth : Nat)
    (seedHash : Option Bytes) (bazelSourcefileTargets : GoMap BazelSourceFileTarget) :
    Exec (Option (GoMap GoString)) :=
  match t.bazelClient.QueryAllTargets with
  | (_, some err) => .ret none (some err)
  | (allTargets, none) =>
    let allRulesMap := indexTargets t allTargets GoMap.empty
    match digestTargets Sum256 t depth allRulesMap bazelSourcefileTargets seedHash allTargets
        (GoMap.empty, GoMap.empty) with
    | .returned r => r
    | .running (targetHashes, _) => .ret (some targetHashes) none

/-! ## SHA-256

The hash `crypto/sha256.Sum256` (FIPS 180-4) on 32-bit words held as natural
numbers. The digest functions above take the hash as a parameter; this
instance serves to evaluate them on concrete inputs. -/

namespace SHA256

/-- The round constants. -/
def K : List Nat := [
  0x428a2f98, 0x71374491, 0xb5c0fbcf, 0xe9b5dba5, 0x3956c25b, 0x59f111f1, 0x923f82a4, 0xab1c5ed5,
  0xd807aa98, 0x12835b01, 0x243185be, 0x550c7dc3, 0x72be5d74, 0x80deb1fe, 0x9bdc06a7, 0xc19bf174,
  0xe49b69c1, 0xefbe4786, 0x0fc19dc6, 0x240ca1cc, 0x2de92c6f, 0x4a7484aa, 0x5cb0a9dc, 0x76f988da,
  0x983e5152, 0xa831c66d, 0xb00327c8, 0xbf597fc7, 0xc6e00bf3, 0xd5a79147, 0x06ca6351, 0x14292967,
  0x27b70a85, 0x2e1b2138, 0x4d2c6dfc, 0x53380d13, 0x650a7354, 0x766a0abb, 0x81c2c92e, 0x92722c85,
  0xa2bfe8a1, 0xa81a664b, 0xc24b8b70, 0xc76c51a3, 0xd192e819, 0xd6990624, 0xf40e3585, 0x106aa070,
  0x19a4c116, 0x1e376c08, 0x2748774c, 0x34b0bcb5, 0x391c0cb3, 0x4ed8aa4a, 0x5b9cca4f, 0x682e6ff3,
  0x748f82ee, 0x78a5636f, 0x84c87814, 0x8cc70208, 0x90befffa, 0xa4506ceb, 0xbef9a3f7, 0xc67178f2]

/-- Rotation of a 32-bit word to the right. -/
def rotr (x n : Nat) : Nat := ((x >>> n) ||| (x <<< (32 - n))) % 4294967296

/-- The padded message: a `0x80` byte, zero bytes, the bit length on 8 bytes. -/
def pad (msg : List Nat) : List Nat :=
  let bits := 8 * msg.length
  msg ++ 128 :: List.replicate ((119 - msg.length % 64) % 64) 0 ++
    (List.range 8).map (fun i => (bits >>> (8 * (7 - i))) % 256)

/-- Big-endian 32-bit words of a byte list. -/
def words : List Nat → List Nat
  | a :: b :: c :: d :: rest => (a * 16777216 + b * 65536 + c * 256 + d) :: words rest
  | _ => []

/-- Extension of the message schedule by `n` words; the list holds the latest
word first. -/
def schedule : Nat → List Nat → List Nat
  | 0, ws => ws
  | n + 1, ws =>
    let w2 := ws.getD 1 0
    let w15 := ws.getD 14 0
    let s0 := rotr w15 7 ^^^ rotr w15 18 ^^^ (w15 >>> 3)
    let s1 := rotr w2 17 ^^^ rotr w2 19 ^^^ (w2 >>> 10)
    schedule n (((ws.getD 15 0 + s0 + ws.getD 6 0 + s1) % 4294967296) :: ws)

/-- The eight working variables. -/
structure State where
  a : Nat
  b : Nat
  c : Nat
  d : Nat
  e : Nat
  f : Nat
  g : Nat
  h : Nat

/-- One round, on a round constant paired with a schedule word. -/
def round (s : State) (kw : Nat × Nat) : State :=
  let S1 := rotr s.e 6 ^^^ rotr s.e 11 ^^^ rotr s.e 25
  let ch := (s.e &&& s.f) ^^^ ((4294967295 - s.e) &&& s.g)
  let t1 := (s.h + S1 + ch + kw.1 + kw.2) % 4294967296
  let S0 := rotr s.a 2 ^^^ rotr s.a 13 ^^^ rotr s.a 22
  let maj := (s.a &&& s.b) ^^^ (s.a &&& s.c) ^^^ (s.b &&& s.c)
  let t2 := (S0 + maj) % 4294967296
  ⟨(t1 + t2) % 4294967296, s.a, s.b, s.c, (s.d + t1) % 4294967296, s.e, s.f, s.g⟩

/-- The compression of one 64-byte block. -/
def compress (s : State) (block : List Nat) : State :=
  let w := (schedule 48 (words block).reverse).reverse
  let r := (K.zip w).foldl round s
  ⟨(s.a + r.a) % 4294967296, (s.b + r.b) % 4294967296, (s.c + r.c) % 4294967296,
    (s.d + r.d) % 4294967296, (s.e + r.e) % 4294967296, (s.f + r.f) % 4294967296,
    (s.g + r.g) % 4294967296, (s.h + r.h) % 4294967296⟩

/-- Compression of the first `n` blocks of a padded message. -/
def blocks : Nat → List Nat → State → State
  | 0, _, s => s
  | n + 1, l, s => blocks n (l.drop 64) (compress s (l.take 64))

/-- Big-endian bytes of a 32-bit word. -/
def wordBytes (w : Nat) : List Nat := [w / 16777216 % 256, w / 65536 % 256, w / 256 % 256, w % 256]

/-- The digest of a message of byte values. -/
def sum (msg : List Nat) : List Nat :=
  let p := pad msg
  let s := blocks (p.length / 64) p
    ⟨0x6a09e667, 0xbb67ae85, 0x3c6ef372, 0xa54ff53a, 0x510e527f, 0x9b05688c, 0x1f83d9ab,
      0x5be0cd19⟩
  wordBytes s.a ++ wordBytes s.b ++ wordBytes s.c ++ wordBytes s.d ++ wordBytes s.e ++
    wordBytes s.f ++ wordBytes s.g ++ wordBytes s.h

end SHA256

/-- The function `sha256.Sum256` followed by the slicing `checksum[:]`. -/
def sha256 (data : Bytes) : Bytes := (SHA256.sum (data.map Fin.val)).map (Fin.ofNat)

/-! ## Reference definitions and well-formedness of a rule graph -/

/-- The source-table digest of a name, empty when the name is not in the
source table. -/
def sourceContribution (bazelSourcefileTargets : GoMap BazelSourceFileTarget)
    (i : GoString) : Bytes :=
  match bazelSourcefileTargets.get i with
  | some target => target.digest
  | none => []

/-- What the input `i` of a rule named `ruleName` adds after its name bytes:
the digest `digestOf r` of the rule `r` the index holds at `i`, when `r` has a
non-empty name other than `ruleName`; else the source-table digest of `i`. -/
def refContribution (digestOf : BazelRule → Bytes) (allRulesMap : GoMap (Option BazelRule))
    (bazelSourcefileTargets : GoMap BazelSourceFileTarget) (ruleName i : GoString) : Bytes :=
  match ruleAt allRulesMap i with
  | some r =>
    if r.GetName ≠ [] ∧ r.GetName ≠ ruleName then digestOf r
    else sourceContribution bazelSourcefileTargets i
  | none => sourceContribution bazelSourcefileTargets i

/-- The byte string hashed for a rule by the unmemoized recursive definition:
declared digest, seed, and for each input in declared order its name bytes and
its contribution. The first argument bounds the depth of the recursion. -/
def refPreimage (Sum256 : Bytes → Bytes) (allRulesMap : GoMap (Option BazelRule))
    (bazelSourcefileTargets : GoMap BazelSourceFileTarget) (seedHash : Option Bytes) :
    Nat → BazelRule → Bytes
  | 0, _ => []
  | depth + 1, rule =>
    rule.GetDigest.1 ++ seedHash.getD [] ++
      (rule.GetRuleInputList.map (fun i =>
        i ++ refContribution
          (fun r => Sum256 (refPreimage Sum256 allRulesMap bazelSourcefileTargets seedHash depth r))
          allRulesMap bazelSourcefileTargets rule.GetName i)).flatten

/-- The unmemoized recursive reference digest `D` of a rule. -/
def refDigest (Sum256 : Bytes → Bytes) (allRulesMap : GoMap (Option BazelRule))
    (bazelSourcefileTargets : GoMap BazelSourceFileTarget) (seedHash : Option Bytes)
    (depth : Nat) (rule : BazelRule) : Bytes :=
  Sum256 (refPreimage Sum256 allRulesMap bazelSourcefileTargets seedHash depth rule)

/-- The rule `r` is a rule of the graph: the index holds it under some name. -/
def InGraph (allRulesMap : GoMap (Option BazelRule)) (r : BazelRule) : Prop :=
  ∃ k, ruleAt allRulesMap k = some r

/-- Unique target names, seen from the index: every rule of the graph is the rule
the index holds under the rule's own name. -/
def NamedIndex (allRulesMap : GoMap (Option BazelRule)) : Prop :=
  ∀ r, InGraph allRulesMap r → ruleAt allRulesMap r.GetName = some r

/-- The rule-input edges are acyclic apart from direct self-loops: `rank`
decreases along every edge from a rule to an input that resolves to a rule of
a non-empty, different name. -/
def Acyclic (allRulesMap : GoMap (Option BazelRule)) (rank : GoString → Nat) : Prop :=
  ∀ r, InGraph allRulesMap r → ∀ i ∈ r.GetRuleInputList, ∀ r2,
    ruleAt allRulesMap i = some r2 → r2.GetName ≠ [] → r2.GetName ≠ r.GetName →
      rank r2.GetName < rank r.GetName

/-- The declared digest of every rule of the graph is available: `GetDigest`
returns no error. -/
def DigestsKnown (allRulesMap : GoMap (Option BazelRule)) : Prop :=
  ∀ r, InGraph allRulesMap r → r.GetDigest.2 = none

/-- Every entry the cache holds under the name of a rule of the graph is the
reference digest of that rule, and the declared digest of that rule is
available. -/
def CacheSound (Sum256 : Bytes → Bytes) (allRulesMap : GoMap (Option BazelRule))
    (bazelSourcefileTargets : GoMap BazelSourceFileTarget) (seedHash : Option Bytes)
    (rank : GoString → Nat) (ruleHashes : GoMap Bytes) : Prop :=
  ∀ r, InGraph allRulesMap r → ∀ d, ruleHashes.get r.GetName = some d →
    r.GetDigest.2 = none ∧
    d = refDigest Sum256 allRulesMap bazelSourcefileTargets seedHash (rank r.GetName + 1) r

/-- The cache `c2` keeps every entry of the cache `c1`. -/
def CacheKeeps (c1 c2 : GoMap Bytes) : Prop := ∀ k d, c1.get k = some d → c2.get k = some d

/-! ## Well-formedness of a query result -/

/-- The non-empty names of a target list, in list order. -/
def targetNames (targets : List Target) : List GoString :=
  (targets.map getNameForTarget).filter (fun n => decide (n ≠ []))

/-- Target names are unique within one query result. -/
def UniqueNames (targets : List Target) : Prop := (targetNames targets).Nodup

/-- At most one of the three variants of a target is populated. -/
def SingleVariant (target : Target) : Prop :=
  (target.Rule = none ∨ target.SourceFile = none) ∧
  (target.Rule = none ∨ target.GeneratedFile = none) ∧
  (target.SourceFile = none ∨ target.GeneratedFile = none)

instance (target : Target) : Decidable (SingleVariant target) := by
  unfold SingleVariant
  exact inferInstance

instance (targets : List Target) : Decidable (UniqueNames targets) := by
  unfold UniqueNames
  exact inferInstance

/-- The rule provider materializes every rule message as a rule of the same
name. -/
def FaithfulProvider (p : RuleProvider) : Prop :=
  ∀ r : Rule, ∃ b, p.GetRule (some r) = some b ∧ b.GetName = r.Name

/-- What the first loop of `hashAllTargets` has established after the targets
`done`: the keys of the index are names of `done`; every rule the index holds
is the materialized rule of a rule target of `done` and is held under its own
name; every rule target of `done` is indexed under its name. -/
def IndexInv (t : targetHashingClient) (done : List Target)
    (allRulesMap : GoMap (Option BazelRule)) : Prop :=
  (∀ k, allRulesMap.get k ≠ none → k ∈ targetNames done) ∧
  (∀ k b, ruleAt allRulesMap k = some b →
    ruleAt allRulesMap b.GetName = some b ∧
      ∃ target ∈ done, ∃ r, target.Rule = some r ∧ r.Name ≠ [] ∧
        t.ruleProvider.GetRule (some r) = some b) ∧
  (∀ target ∈ done, ∀ r, target.Rule = some r → r.Name ≠ [] →
    ruleAt allRulesMap r.Name = t.ruleProvider.GetRule (some r))

/-- Every key of the cache `c2` is a key of the cache `c1` or the name of a
rule of the graph. -/
def KeysFrom (allRulesMap : GoMap (Option BazelRule)) (c1 c2 : GoMap Bytes) : Prop :=
  ∀ k, c2.get k ≠ none → c1.get k ≠ none ∨ ∃ b, InGraph allRulesMap b ∧ b.GetName = k

/-- Every key of the cache is the name of a rule of the graph. -/
def KeysInGraph (allRulesMap : GoMap (Option BazelRule)) (c : GoMap Bytes) : Prop :=
  ∀ k, c.get k ≠ none → ∃ b, InGraph allRulesMap b ∧ b.GetName = k

/-- What the second loop of `hashAllTargets` has written for the targets
`done`, going from the snapshot `s` to the snapshot `s2` and the cache `c2`:
names outside `done` are untouched; a rule target holds the hex string of its
cache entry; a source-file target holds the hex string of the hash of its
source-table digest and the seed; a generated-file target is untouched or
holds the hex string of the cache entry of its generating rule. -/
def SnapshotFacts (Sum256 : Bytes → Bytes) (bazelSourcefileTargets : GoMap BazelSourceFileTarget)
    (seedHash : Option Bytes) (done : List Target) (s s2 : GoMap GoString)
    (c2 : GoMap Bytes) : Prop :=
  (∀ k, k ∉ targetNames done → s2.get k = s.get k) ∧
  (∀ target ∈ done, ∀ r, target.Rule = some r → r.Name ≠ [] →
    ∃ d, c2.get r.Name = some d ∧ s2.get r.Name = some (convertByteArrayToString d)) ∧
  (∀ target ∈ done, ∀ sf, target.SourceFile = some sf → sf.Name ≠ [] →
    s2.get sf.Name = some (convertByteArrayToString
      (Sum256 (sourceContribution bazelSourcefileTargets sf.Name ++ seedHash.getD [])))) ∧
  (∀ target ∈ done, ∀ g, target.GeneratedFile = some g → g.Name ≠ [] →
    s2.get g.Name = s.get g.Name ∨
      ∃ d, c2.get g.GeneratingRule = some d ∧
        s2.get g.Name = some (convertByteArrayToString d))

/-- A well-formed query result: the target query succeeds with `targets`, the
rule provider is faithful, every target has at most one variant and target
names are unique. -/
def WellFormedQuery (t : targetHashingClient) (targets : List Target) : Prop :=
  t.bazelClient.QueryAllTargets = (targets, none) ∧ FaithfulProvider t.ruleProvider ∧
    (∀ target ∈ targets, SingleVariant target) ∧ UniqueNames targets

/-- `GetDigest` fails for some rule target with a non-empty name. -/
def SomeDigestFails (t : targetHashingClient) (targets : List Target) : Prop :=
  ∃ target ∈ targets, ∃ r b, target.Rule = some r ∧ r.Name ≠ [] ∧
    t.ruleProvider.GetRule (some r) = some b ∧ b.GetDigest.2 ≠ none

/-- The index `hashAllTargets` builds for a target list. -/
def indexOf (t : targetHashingClient) (targets : List Target) : GoMap (Option BazelRule) :=
  indexTargets t targets GoMap.empty

/-- The rules in the entries of an index. -/
def graphRules (allRulesMap : GoMap (Option BazelRule)) : List BazelRule :=
  allRulesMap.entries.filterMap (fun p => p.2)

/-- The input name `i` is reachable from the rule `r` through rule-input
edges: it is an input of `r`, or it is reachable from a rule that an input of
`r` resolves to and that `createDigestForRule` recurses into. -/
inductive ReachesInput (allRulesMap : GoMap (Option BazelRule)) : BazelRule → GoString → Prop where
  | direct {r : BazelRule} {i : GoString} (h : i ∈ r.GetRuleInputList) :
      ReachesInput allRulesMap r i
  | step {r r2 : BazelRule} {i j : GoString} (h : i ∈ r.GetRuleInputList)
      (hat : ruleAt allRulesMap i = some r2) (hne : r2.GetName ≠ [])
      (hself : r2.GetName ≠ r.GetName) (hrest : ReachesInput allRulesMap r2 j) :
      ReachesInput allRulesMap r j

/-- The byte string `createSeedForFilepaths` hashes: the contents of the seed
files in list order. -/
def seedPreimage (filesys : FS) (seedFilepaths : List GoString) : Bytes :=
  (seedFilepaths.map (fun path => (filesys.ReadFile path).1)).flatten

/-! ## A sample query result

Rule `A` has no inputs; rule `B` lists `A`, the source file `s1` and itself;
`g` is a file generated by `B`. -/

/-- The names `A`, `B`, `g` and `s1`. -/
def exNameA : GoString := [65]

/-- The name `B`. -/
def exNameB : GoString := [66]

/-- The name `g`. -/
def exNameG : GoString := [103]

/-- The name `s1`. -/
def exNameS : GoString := [115, 49]

/-- A rule provider: the declared digest of a rule is the content of its
message, and only `B` has inputs. -/
def exProvider : RuleProvider :=
  ⟨fun o => o.map (fun r =>
    ⟨r.Name, (r.Rest, none), if r.Name = exNameB then [exNameA, exNameS, exNameB] else []⟩)⟩

/-- The sample targets, in the order `A`, `B`, `g`, `s1`. -/
def exTargets : List Target :=
  [⟨some ⟨exNameA, [1]⟩, none, none⟩, ⟨some ⟨exNameB, [2]⟩, none, none⟩,
   ⟨none, none, some ⟨exNameG, exNameB⟩⟩, ⟨none, some ⟨exNameS⟩, none⟩]

/-- The sample client. -/
def exClient : targetHashingClient :=
  ⟨⟨(exTargets, none), (GoMap.empty, none)⟩, ⟨fun _ => ([], none)⟩, exProvider⟩

/-- The materialized rule `A`. -/
def exRuleA : BazelRule := ⟨exNameA, ([1], none), []⟩

/-- The materialized rule `B`. -/
def exRuleB : BazelRule := ⟨exNameB, ([2], none), [exNameA, exNameS, exNameB]⟩

/-- A source table holding `s1` with the digest `d`. -/
def exTable (d : Bytes) : GoMap BazelSourceFileTarget := ⟨[(exNameS, ⟨exNameS, d⟩)]⟩

/-- A rank for the sample graph. -/
def exRank (n : GoString) : Nat := if n = exNameB then 1 else 0

/-- The state of the second loop of `hashAllTargets` on the sample query
result after the targets `A` and `B`, with SHA-256, no seed and depth 2. -/
def exStateBefore : GoMap GoString × GoMap Bytes :=
  match digestTargets sha256 exClient 2 (indexOf exClient exTargets) (exTable [7]) none
      (exTargets.take 2) (GoMap.empty, GoMap.empty) with
  | .running st => st
  | .returned _ => (GoMap.empty, GoMap.empty)

/-- The snapshot of the sample query result, with SHA-256, no seed and depth 2. -/
def exSnapshot : GoMap GoString :=
  match hashAllTargets sha256 exClient 2 none (exTable [7]) with
  | .ret (some snap) _ => snap
  | _ => GoMap.empty

/-- A host on which no file exists. -/
def exHost : Host := ⟨fun _ => some ErrNotExist, fun _ => ([], none), fun a b => a ++ 47 :: b⟩

/-- The source table of the sample query result when `s1` is built by
`NewBazelSourceFileTarget` from the declared digest `[7]`, with SHA-256 and
without a working directory. -/
def exBuiltTable : GoMap BazelSourceFileTarget :=
  ⟨[(exNameS, ⟨exNameS, sha256 ([7] ++ exNameS)⟩)]⟩

/-- Two rules with the same declared digest whose inputs, which resolve to
nothing, are the names `a` and `aa` in the two orders. -/
def exRuleX1 : BazelRule := ⟨[88], ([1], none), [[97], [97, 97]]⟩

/-- The second rule: the inputs `aa`, `a`. -/
def exRuleX2 : BazelRule := ⟨[89], ([1], none), [[97, 97], [97]]⟩

/-- Two rules over the sample graph with the same declared digest that list
the rule `A` and the source file `s1` in the two orders. -/
def exRuleY1 : BazelRule := ⟨[88], ([1], none), [exNameA, exNameS]⟩

/-- The second rule: the inputs `s1`, `A`. -/
def exRuleY2 : BazelRule := ⟨[89], ([1], none), [exNameS, exNameA]⟩

/-- Two filesystems that differ in the content of the file `p` only. -/
def exFS1 : FS := ⟨fun _ => ([1], none)⟩

/-- The second filesystem. -/
def exFS2 : FS := ⟨fun q => (if q = [112] then [2] else [1], none)⟩

/-! ## The scenario of the specification

The targets `A`, `B`, `s1` in this order: rule `A` has no inputs, rule `B`
lists `A` and the source file `s1`. -/

/-- The rule provider of the scenario. -/
def scProvider : RuleProvider :=
  ⟨fun o => o.map (fun r =>
    ⟨r.Name, (r.Rest, none), if r.Name = exNameB then [exNameA, exNameS] else []⟩)⟩

/-- The targets of the scenario. -/
def scTargets : List Target :=
  [⟨some ⟨exNameA, [1]⟩, none, none⟩, ⟨some ⟨exNameB, [2]⟩, none, none⟩,
   ⟨none, some ⟨exNameS⟩, none⟩]

/-- The client of the scenario. -/
def scClient : targetHashingClient :=
  ⟨⟨(scTargets, none), (GoMap.empty, none)⟩, ⟨fun _ => ([], none)⟩, scProvider⟩

/-- The materialized rule `B` of the scenario. -/
def scRuleB : BazelRule := ⟨exNameB, ([2], none), [exNameA, exNameS]⟩

/-- A source table holding `s1` with a 32-byte digest of the byte `v`. -/
def scTable (v : Byte) : GoMap BazelSourceFileTarget :=
  ⟨[(exNameS, ⟨exNameS, List.replicate 32 v⟩)]⟩

/-! ## The hex encoding, the source-file lookup and the recursion edges -/

/-- The lowercase hexadecimal digit of a nibble, in the words of the
specification: the digits `0` to `9`, then the letters `a` to `f`. -/
def hexDigit (n : Nat) : Byte := if n < 10 then Fin.ofNat (48 + n) else Fin.ofNat (97 + (n - 10))

/-- The path `sourceFile` that `NewBazelSourceFileTarget` looks up; `none`
when the guard on the working directory and on the `//` marker fails. -/
def derivedPath (host : Host) (workingDirectory name : GoString) : Option GoString :=
  if workingDirectory ≠ [] ∧ hasPrefix name [47, 47] = true then
    some (host.Join workingDirectory (replaceFirstColon (name.drop 2)))
  else none

/-- The existence test of `NewBazelSourceFileTarget`: `os.Stat` does not
report `os.ErrNotExist`. -/
def fileExists (host : Host) (path : GoString) : Bool := !isNotExist (host.Stat path)

/-- The recursion edge of `createDigestForRule`: an input of the rule `r`
resolves to the rule `r2`, whose name is non-empty and is not the name of `r`. -/
def RecursesInto (allRulesMap : GoMap (Option BazelRule)) (r r2 : BazelRule) : Prop :=
  ∃ i ∈ r.GetRuleInputList, ruleAt allRulesMap i = some r2 ∧ r2.GetName ≠ [] ∧
    r2.GetName ≠ r.GetName

/-- The only cycles among the rule-input edges are direct self-loops: no rule
reaches itself through one or more recursion edges. -/
def OnlySelfLoops (allRulesMap : GoMap (Option BazelRule)) : Prop :=
  ∀ r, ¬ Relation.TransGen (RecursesInto allRulesMap) r r

/-- The call relation of the recursion: `CalledFrom idx r2 r` when the call
for `r` makes a call for `r2`. -/
def CalledFrom (allRulesMap : GoMap (Option BazelRule)) (r2 r : BazelRule) : Prop :=
  RecursesInto allRulesMap r r2

/-- Generating rules are rules: no generated file of the list carries the name
that a generated file of the list gives as its generating rule. -/
def GeneratedByRules (targets : List Target) : Prop :=
  ∀ tg ∈ targets, ∀ tg2 ∈ targets, ∀ g ∈ tg.GeneratedFile, ∀ g2 ∈ tg2.GeneratedFile,
    g2.Name ≠ g.GeneratingRule

instance (targets : List Target) : Decidable (GeneratedByRules targets) := by
  unfold GeneratedByRules
  exact inferInstance

/-! ## Further sample data -/

/-- The name `//foo`, which starts with the marker and has no colon. -/
def exNameFoo : GoString := [47, 47, 102, 111, 111]

/-- The label `//p:f`. -/
def exNameLabel : GoString := [47, 47, 112, 58, 102]

/-- The working directory `/w`. -/
def exWorkDir : GoString := [47, 119]

/-- A host on which every path is a file with the content `[1]`. -/
def exHostFile : Host := ⟨fun _ => none, fun _ => ([1], none), fun a b => a ++ 47 :: b⟩

/-- A host on which every path exists and no read succeeds. -/
def exHostDenied : Host := ⟨fun _ => none, fun _ => ([], some ⟨13⟩), fun a b => a ++ 47 :: b⟩

/-- A filesystem on which the file `q` cannot be read. -/
def exFS3 : FS := ⟨fun p => if p = [113] then ([], some ⟨5⟩) else ([1], none)⟩

/-- A second sample query result, in the order `g`, `A`, `h`: the files `g`
and `h` are generated by the rule `A`, and `g` stands before `A`. -/
def exTargetsGen : List Target :=
  [⟨none, none, some ⟨exNameG, exNameA⟩⟩, ⟨some ⟨exNameA, [1]⟩, none, none⟩,
   ⟨none, none, some ⟨[104], exNameA⟩⟩]

/-- The client of the second sample query result. -/
def exClientGen : targetHashingClient :=
  ⟨⟨(exTargetsGen, none), (GoMap.empty, none)⟩, ⟨fun _ => ([], none)⟩, exProvider⟩

/-- The rules of the scenario with the dependent rule first: `B`, `A`. -/
def roTargetsBA : List Target :=
  [⟨some ⟨exNameB, [2]⟩, none, none⟩, ⟨some ⟨exNameA, [1]⟩, none, none⟩]

/-- The rules of the scenario with the dependency first: `A`, `B`. -/
def roTargetsAB : List Target :=
  [⟨some ⟨exNameA, [1]⟩, none, none⟩, ⟨some ⟨exNameB, [2]⟩, none, none⟩]

/-- The client whose query answers `B`, `A`. -/
def roClientBA : targetHashingClient :=
  ⟨⟨(roTargetsBA, none), (GoMap.empty, none)⟩, ⟨fun _ => ([], none)⟩, scProvider⟩

/-- The client whose query answers `A`, `B`. -/
def roClientAB : targetHashingClient :=
  ⟨⟨(roTargetsAB, none), (GoMap.empty, none)⟩, ⟨fun _ => ([], none)⟩, scProvider⟩

/-! ## Existence of a file, and runs that differ in the seed only -/

/-- The error `syscall.ENOTDIR`, which `os.Stat` returns when a component of
the path is not a directory: nothing exists at the path. -/
def ErrNotDir : GoError := ⟨20⟩

/-- A file exists at a path, in the words of the specification
(`fileExists(path)`): `os.Stat` finds it and returns no error. -/
def statFindsFile (host : Host) (path : GoString) : Bool := decide (host.Stat path = none)

/-- A host without files on which a component of every path is not a
directory: `os.Stat` and the read fail with `ENOTDIR`. -/
def exHostNotDir : Host :=
  ⟨fun _ => some ErrNotDir, fun _ => ([], some ErrNotDir), fun a b => a ++ 47 :: b⟩

/-- Two maps hold entries under the same keys. -/
def SameKeys {V W : Type} (m1 : GoMap V) (m2 : GoMap W) : Prop :=
  ∀ k, m1.get k = none ↔ m2.get k = none

/-- Two results of a digest function have the same shape: both return, with a
digest in both or in neither and with the same error, or both panic, or both
run out of budget. -/
def SameShape (x y : Exec (Option Bytes)) : Prop :=
  match x, y with
  | .ret v e, .ret w f => (v = none ↔ w = none) ∧ e = f
  | .panic, .panic => True
  | .timeout, .timeout => True
  | _, _ => False

/-- Two runs of the input loop of `createDigestForRule` end the same way. -/
def SameFlow (x y : Flow (Option Bytes) Bytes) : Prop :=
  match x, y with
  | .running _, .running _ => True
  | .returned a, .returned b => SameShape a b
  | _, _ => False

/-- Two runs of the second loop of `hashAllTargets` end the same way: both run
to the end with snapshots and caches of the same keys, or both return the same
result from inside the loop, which is no snapshot. -/
def SameRun (x y : Flow (Option (GoMap GoString)) (GoMap GoString × GoMap Bytes)) : Prop :=
  match x, y with
  | .running st, .running st2 => SameKeys st.1 st2.1 ∧ SameKeys st.2 st2.2
  | .returned a, .returned b => a = b ∧ ∀ s e, a ≠ .ret (some s) e
  | _, _ => False

/-! # Theorems -/

/-! ## Maps -/

namespace GoMap

variable {V : Type}

@[simp] theorem get_empty (k : GoString) : (empty : GoMap V).get k = none := rfl

theorem get_cons (p : GoString × V) (l : List (GoString × V)) (k : GoString) :
    (GoMap.mk (p :: l)).get k = if p.1 = k then some p.2 else (GoMap.mk l).get k := by
  unfold get
  by_cases h : p.1 = k <;> simp [List.find?, h]

theorem get_set (m : GoMap V) (k k2 : GoString) (v : V) :
    (m.set k v).get k2 = if k = k2 then some v else m.get k2 := by
  cases m with
  | mk l => exact get_cons (k, v) l k2

@[simp] theorem get_set_self (m : GoMap V) (k : GoString) (v : V) : (m.set k v).get k = some v := by
  simp [get_set]

theorem get_set_ne (m : GoMap V) {k k2 : GoString} (v : V) (h : k ≠ k2) :
    (m.set k v).get k2 = m.get k2 := by
  simp [get_set, h]

theorem mem_firstEntries (l : List (GoString × V)) (k : GoString) (v : V) :
    (k, v) ∈ firstEntries l ↔ (GoMap.mk l).get k = some v := by
  induction l with
  | nil => simp [firstEntries, get]
  | cons p rest ih =>
    rw [get_cons]
    simp only [firstEntries, List.mem_cons, List.mem_filter, decide_eq_true_eq, ih]
    by_cases h : p.1 = k
    · simp only [h, if_true]
      constructor
      · rintro (h1 | ⟨_, h2⟩)
        · rw [← h1]
        · exact absurd rfl h2
      · intro h1
        left
        cases p with
        | mk a b =>
          simp only at h h1
          simp only [Option.some.injEq] at h1
          rw [h, h1]
    · simp only [h, if_false]
      constructor
      · rintro (h1 | ⟨h2, _⟩)
        · exact absurd (by rw [← h1]) h
        · exact h2
      · intro h1
        exact Or.inr ⟨h1, fun h2 => h h2.symm⟩

theorem mem_range (m : GoMap V) (k : GoString) (v : V) : (k, v) ∈ m.range ↔ m.get k = some v := by
  cases m with
  | mk l => exact mem_firstEntries l k v

end GoMap

/-! ## The snapshot diff -/

theorem markImpacted_get (s : GoMap GoString) (acc : GoMap Bool) (e : GoString × GoString)
    (n : GoString) :
    (markImpacted s acc e).get n =
      if e.1 = n ∧ s.get n ≠ some e.2 then some true else acc.get n := by
  unfold markImpacted
  by_cases hn : e.1 = n
  · subst hn
    cases hs : s.get e.1 with
    | none => simp
    | some w =>
      by_cases hw : w = e.2
      · simp [hw]
      · simp [hw]
  · cases hs : s.get e.1 with
    | none => simp [hn, GoMap.get_set_ne]
    | some w =>
      by_cases hw : w = e.2
      · simp [hw, hn]
      · simp [hw, hn, GoMap.get_set_ne]

theorem foldl_markImpacted_true (s : GoMap GoString) (l : List (GoString × GoString))
    (acc : GoMap Bool) (n : GoString) :
    (l.foldl (markImpacted s) acc).get n = some true ↔
      acc.get n = some true ∨ ∃ v, (n, v) ∈ l ∧ s.get n ≠ some v := by
  induction l generalizing acc with
  | nil => simp
  | cons e rest ih =>
    rw [List.foldl_cons, ih, markImpacted_get]
    constructor
    · rintro (h | ⟨v, hv, hs⟩)
      · by_cases hc : e.1 = n ∧ s.get n ≠ some e.2
        · exact Or.inr ⟨e.2, by rw [← hc.1]; exact List.mem_cons_self _ _, hc.2⟩
        · rw [if_neg hc] at h
          exact Or.inl h
      · exact Or.inr ⟨v, List.mem_cons_of_mem _ hv, hs⟩
    · rintro (h | ⟨v, hv, hs⟩)
      · by_cases hc : e.1 = n ∧ s.get n ≠ some e.2
        · exact Or.inl (by rw [if_pos hc])
        · exact Or.inl (by rw [if_neg hc]; exact h)
      · rcases List.mem_cons.1 hv with h1 | h1
        · refine Or.inl ?_
          have hc : e.1 = n ∧ s.get n ≠ some e.2 := by
            rw [← h1]
            exact ⟨rfl, hs⟩
          rw [if_pos hc]
        · exact Or.inr ⟨v, h1, hs⟩

theorem foldl_markImpacted_ne_false (s : GoMap GoString) (l : List (GoString × GoString))
    (acc : GoMap Bool) (hacc : ∀ n, acc.get n ≠ some false) (n : GoString) :
    (l.foldl (markImpacted s) acc).get n ≠ some false := by
  induction l generalizing acc with
  | nil => exact hacc n
  | cons e rest ih =>
    rw [List.foldl_cons]
    refine ih _ (fun k => ?_)
    rw [markImpacted_get]
    by_cases hc : e.1 = k ∧ s.get k ≠ some e.2
    · rw [if_pos hc]
      simp
    · rw [if_neg hc]
      exact hacc k

/-- C2. `GetImpactedTargets(start, end)` returns no error, and its result is
the set of exactly the names that are keys of `end` and are either no key of
`start` or carry a different digest string there; every stored value is `true`
and a name that is a key of `start` only is not in the result. -/
theorem GetImpactedTargets_exact (startHashes endHashes : GoMap GoString) :
    ∃ impacted, GetImpactedTargets startHashes endHashes = .ret impacted none ∧
      (∀ n, impacted.get n = some true ↔
        ∃ v, endHashes.get n = some v ∧
          (startHashes.get n = none ∨ ∃ w, startHashes.get n = some w ∧ w ≠ v)) ∧
      (∀ n, impacted.get n = some true ∨ impacted.get n = none) ∧
      (∀ n, startHashes.get n ≠ none → endHashes.get n = none → impacted.get n = none) := by
  refine ⟨_, rfl, ?_, ?_, ?_⟩
  · intro n
    rw [foldl_markImpacted_true]
    simp only [GoMap.get_empty, reduceCtorEq, false_or, GoMap.mem_range]
    constructor
    · rintro ⟨v, hv, hs⟩
      refine ⟨v, hv, ?_⟩
      cases h : startHashes.get n with
      | none => exact Or.inl rfl
      | some w =>
        refine Or.inr ⟨w, rfl, fun hw => hs ?_⟩
        rw [h, hw]
    · rintro ⟨v, hv, hs | ⟨w, hw, hne⟩⟩
      · exact ⟨v, hv, by rw [hs]; simp⟩
      · refine ⟨v, hv, ?_⟩
        rw [hw]
        intro h
        exact hne (Option.some.inj h)
  · intro n
    have h := foldl_markImpacted_ne_false startHashes endHashes.range GoMap.empty (by simp) n
    cases hg : (endHashes.range.foldl (markImpacted startHashes) GoMap.empty).get n with
    | none => exact Or.inr rfl
    | some b =>
      cases b with
      | true => exact Or.inl rfl
      | false => exact absurd hg h
  · intro n _ he
    have h := foldl_markImpacted_ne_false startHashes endHashes.range GoMap.empty (by simp) n
    cases hg : (endHashes.range.foldl (markImpacted startHashes) GoMap.empty).get n with
    | none => rfl
    | some b =>
      cases b with
      | false => exact absurd hg h
      | true =>
        rw [foldl_markImpacted_true] at hg
        simp only [GoMap.get_empty, reduceCtorEq, false_or, GoMap.mem_range] at hg
        obtain ⟨v, hv, _⟩ := hg
        rw [he] at hv
        exact absurd hv (by simp)

/-! ## The memoized digest and the reference definition -/

theorem writeIfNotNil_eq (buffer : Bytes) (p : Option Bytes) :
    writeIfNotNil buffer p = buffer ++ p.getD [] := by
  cases p <;> simp [writeIfNotNil]

theorem getDigestForSourceTargetName_snd (i : GoString) (table : GoMap BazelSourceFileTarget) :
    (getDigestForSourceTargetName i table).2 = none := by
  unfold getDigestForSourceTargetName
  cases table.get i <;> rfl

theorem getDigestForSourceTargetName_fst (i : GoString) (table : GoMap BazelSourceFileTarget) :
    (getDigestForSourceTargetName i table).1.getD [] = sourceContribution table i := by
  unfold getDigestForSourceTargetName sourceContribution
  cases table.get i <;> rfl

theorem getDigestForSourceTargetName_eq (i : GoString) (table : GoMap BazelSourceFileTarget) :
    getDigestForSourceTargetName i table =
      ((getDigestForSourceTargetName i table).1, none) := by
  rw [← getDigestForSourceTargetName_snd i table]

section Reference

variable (Sum256 : Bytes → Bytes) (idx : GoMap (Option BazelRule))
  (table : GoMap BazelSourceFileTarget) (seed : Option Bytes)

theorem refPreimage_succ (depth : Nat) (rule : BazelRule) :
    refPreimage Sum256 idx table seed (depth + 1) rule =
      rule.GetDigest.1 ++ seed.getD [] ++
        (rule.GetRuleInputList.map (fun i =>
          i ++ refContribution (refDigest Sum256 idx table seed depth) idx table
            rule.GetName i)).flatten := rfl

/-- The reference digest of a rule does not depend on the depth budget once
the budget exceeds the rank of the rule. -/
theorem refPreimage_stable (rank : GoString → Nat) (hacyc : Acyclic idx rank) :
    ∀ (d1 d2 : Nat) (r : BazelRule), InGraph idx r → rank r.GetName < d1 →
      rank r.GetName < d2 →
      refPreimage Sum256 idx table seed d1 r = refPreimage Sum256 idx table seed d2 r := by
  intro d1
  induction d1 with
  | zero => intro d2 r _ h; exact absurd h (Nat.not_lt_zero _)
  | succ n ih =>
    intro d2 r hr h1 h2
    cases d2 with
    | zero => exact absurd h2 (Nat.not_lt_zero _)
    | succ m =>
      rw [refPreimage_succ, refPreimage_succ]
      congr 2
      apply List.map_congr_left
      intro i hi
      congr 1
      unfold refContribution
      cases hidx : ruleAt idx i with
      | none => rfl
      | some r2 =>
        simp only
        by_cases hc : r2.GetName ≠ [] ∧ r2.GetName ≠ r.GetName
        · rw [if_pos hc, if_pos hc]
          have hlt := hacyc r hr i hi r2 hidx hc.1 hc.2
          unfold refDigest
          rw [ih m r2 ⟨i, hidx⟩ (by omega) (by omega)]
        · rw [if_neg hc, if_neg hc]

theorem refDigest_stable (rank : GoString → Nat) (hacyc : Acyclic idx rank)
    (d1 d2 : Nat) (r : BazelRule) (hr : InGraph idx r) (h1 : rank r.GetName < d1)
    (h2 : rank r.GetName < d2) :
    refDigest Sum256 idx table seed d1 r = refDigest Sum256 idx table seed d2 r := by
  unfold refDigest
  rw [refPreimage_stable Sum256 idx table seed rank hacyc d1 d2 r hr h1 h2]

end Reference

section Memo

variable (Sum256 : Bytes → Bytes) (idx : GoMap (Option BazelRule))
  (table : GoMap BazelSourceFileTarget) (seed : Option Bytes) (rank : GoString → Nat)

theorem foldRuleInputs_ref (depth : Nat)
    (ih : ∀ r c, InGraph idx r → rank r.GetName < depth →
      CacheSound Sum256 idx table seed rank c →
      ∃ c2, CacheSound Sum256 idx table seed rank c2 ∧
        (createDigestForRule Sum256 idx table seed depth (some r) c =
            (.ret (some (refDigest Sum256 idx table seed depth r)) none, c2) ∨
          ∃ e, createDigestForRule Sum256 idx table seed depth (some r) c =
            (.ret none (some e), c2)))
    (ruleName : GoString) :
    ∀ (inputs : List GoString),
      (∀ i ∈ inputs, ∀ r2, ruleAt idx i = some r2 → r2.GetName ≠ [] → r2.GetName ≠ ruleName →
        rank r2.GetName < depth) →
      ∀ (buf : Bytes) (c : GoMap Bytes), CacheSound Sum256 idx table seed rank c →
      ∃ c2, CacheSound Sum256 idx table seed rank c2 ∧
        (foldRuleInputs (createDigestForRule Sum256 idx table seed depth) idx table
              ruleName inputs buf c =
            (.running (buf ++ (inputs.map (fun i =>
              i ++ refContribution (refDigest Sum256 idx table seed depth) idx table
                ruleName i)).flatten), c2) ∨
          ∃ e, foldRuleInputs (createDigestForRule Sum256 idx table seed depth) idx table
              ruleName inputs buf c = (.returned (.ret none (some e)), c2)) := by
  intro inputs
  induction inputs with
  | nil =>
    intro _ buf c hc
    exact ⟨c, hc, Or.inl (by simp [foldRuleInputs])⟩
  | cons i rest ihl =>
    intro hsub buf c hc
    have hrest : ∀ j ∈ rest, ∀ r2, ruleAt idx j = some r2 → r2.GetName ≠ [] →
        r2.GetName ≠ ruleName → rank r2.GetName < depth :=
      fun j hj => hsub j (List.mem_cons_of_mem _ hj)
    rcases hsd : getDigestForSourceTargetName i table with ⟨sd, err⟩
    have herr : err = none := by
      have := getDigestForSourceTargetName_snd i table
      rw [hsd] at this
      exact this
    subst herr
    have hsc : sd.getD [] = sourceContribution table i := by
      have := getDigestForSourceTargetName_fst i table
      rw [hsd] at this
      exact this
    have hother : ∃ c2, CacheSound Sum256 idx table seed rank c2 ∧
        (foldRuleInputs (createDigestForRule Sum256 idx table seed depth) idx
            table ruleName rest (writeIfNotNil (buf ++ i) sd) c =
          (.running (buf ++ (i ++ sourceContribution table i) ++ (rest.map (fun i =>
            i ++ refContribution (refDigest Sum256 idx table seed depth) idx table
              ruleName i)).flatten), c2) ∨
          ∃ e, foldRuleInputs (createDigestForRule Sum256 idx table seed depth) idx
            table ruleName rest (writeIfNotNil (buf ++ i) sd) c =
              (.returned (.ret none (some e)), c2)) := by
      obtain ⟨c2, h2, h1⟩ := ihl hrest (writeIfNotNil (buf ++ i) sd) c hc
      refine ⟨c2, h2, ?_⟩
      rcases h1 with h1 | h1
      · left
        rw [h1, writeIfNotNil_eq, hsc]
        simp only [List.append_assoc]
      · exact Or.inr h1
    cases hidx : ruleAt idx i with
    | none =>
      have hrc : refContribution (refDigest Sum256 idx table seed depth) idx table ruleName i =
          sourceContribution table i := by
        unfold refContribution
        rw [hidx]
      obtain ⟨c2, h2, h1⟩ := hother
      refine ⟨c2, h2, ?_⟩
      simp only [foldRuleInputs, hsd, hidx, List.map_cons, List.flatten_cons, hrc]
      simpa only [List.append_assoc] using h1
    | some r =>
      by_cases hcond : r.GetName ≠ [] ∧ ¬ (r.GetName = ruleName)
      · have hrc : refContribution (refDigest Sum256 idx table seed depth) idx table ruleName i =
            refDigest Sum256 idx table seed depth r := by
          unfold refContribution
          rw [hidx]
          exact if_pos hcond
        have hlt := hsub i (List.mem_cons_self _ _) r hidx hcond.1 hcond.2
        obtain ⟨c1, hs1, hc1⟩ := ih r c ⟨i, hidx⟩ hlt hc
        rcases hc1 with hc1 | ⟨e, hc1⟩
        · obtain ⟨c2, h2, h1⟩ := ihl hrest
            (writeIfNotNil (buf ++ i) (some (refDigest Sum256 idx table seed depth r))) c1 hs1
          refine ⟨c2, h2, ?_⟩
          simp only [writeIfNotNil, List.append_assoc] at h1
          simp only [foldRuleInputs, hsd, hidx, if_pos hcond, hc1, List.map_cons,
            List.flatten_cons, hrc, List.append_assoc, writeIfNotNil]
          exact h1
        · refine ⟨c1, hs1, Or.inr ⟨e, ?_⟩⟩
          simp only [foldRuleInputs, hsd, hidx, if_pos hcond, hc1]
      · have hrc : refContribution (refDigest Sum256 idx table seed depth) idx table ruleName i =
            sourceContribution table i := by
          unfold refContribution
          rw [hidx]
          exact if_neg hcond
        obtain ⟨c2, h2, h1⟩ := hother
        refine ⟨c2, h2, ?_⟩
        simp only [foldRuleInputs, hsd, hidx, if_neg hcond, List.map_cons, List.flatten_cons, hrc]
        simpa only [List.append_assoc] using h1

theorem namedIndex_unique (hnamed : NamedIndex idx) (r1 r2 : BazelRule) (h1 : InGraph idx r1)
    (h2 : InGraph idx r2) (h : r1.GetName = r2.GetName) : r1 = r2 := by
  have e1 := hnamed r1 h1
  have e2 := hnamed r2 h2
  rw [h, e2] at e1
  exact (Option.some.inj e1).symm

/-- The memoized digest on an acyclic, uniquely named graph, from any sound
cache and with a depth budget above the rank of the rule: the function
returns the reference digest of the rule, or the error of a `GetDigest`; it
neither panics nor runs out of budget, and the cache stays sound. -/
theorem createDigestForRule_total (hacyc : Acyclic idx rank) (hnamed : NamedIndex idx) :
    ∀ (depth : Nat) (r : BazelRule) (c : GoMap Bytes), InGraph idx r →
      rank r.GetName < depth → CacheSound Sum256 idx table seed rank c →
      ∃ c2, CacheSound Sum256 idx table seed rank c2 ∧
        (createDigestForRule Sum256 idx table seed depth (some r) c =
            (.ret (some (refDigest Sum256 idx table seed depth r)) none, c2) ∨
          ∃ e, createDigestForRule Sum256 idx table seed depth (some r) c =
            (.ret none (some e), c2)) := by
  intro depth
  induction depth with
  | zero => intro r c _ h; exact absurd h (Nat.not_lt_zero _)
  | succ n ih =>
    intro r c hr hlt hc
    cases hget : c.get r.GetName with
    | some d =>
      refine ⟨c, hc, Or.inl ?_⟩
      have hd := (hc r hr d hget).2
      rw [refDigest_stable Sum256 idx table seed rank hacyc (rank r.GetName + 1) (n + 1) r hr
        (by omega) hlt] at hd
      simp only [createDigestForRule, hget, hd]
    | none =>
      rcases hgd : r.GetDigest with ⟨rd, err⟩
      cases err with
      | some e =>
        refine ⟨c, hc, Or.inr ⟨e, ?_⟩⟩
        simp only [createDigestForRule, hget, hgd]
      | none =>
        obtain ⟨c2, h2, h1⟩ := foldRuleInputs_ref Sum256 idx table seed rank n ih r.GetName
          r.GetRuleInputList
          (fun i hi r2 h2 hne hself => by
            have := hacyc r hr i hi r2 h2 hne hself
            omega)
          (writeIfNotNil ([] ++ rd) seed) c hc
        have hpre : writeIfNotNil ([] ++ rd) seed ++ (r.GetRuleInputList.map (fun i =>
              i ++ refContribution (refDigest Sum256 idx table seed n) idx table
                r.GetName i)).flatten = refPreimage Sum256 idx table seed (n + 1) r := by
          rw [refPreimage_succ, writeIfNotNil_eq, hgd]
          simp only [List.nil_append]
        rw [hpre] at h1
        rcases h1 with h1 | ⟨e, h1⟩
        · refine ⟨c2.set r.GetName (refDigest Sum256 idx table seed (n + 1) r), ?_, Or.inl ?_⟩
          · intro r2 hr2 d hd
            by_cases hname : r.GetName = r2.GetName
            · have heq := namedIndex_unique idx hnamed r r2 hr hr2 hname
              subst heq
              rw [GoMap.get_set_self] at hd
              rw [← Option.some.inj hd]
              refine ⟨by rw [hgd], ?_⟩
              exact refDigest_stable Sum256 idx table seed rank hacyc _ _ r hr hlt (by omega)
            · rw [GoMap.get_set_ne _ _ hname] at hd
              exact h2 r2 hr2 d hd
          · simp only [createDigestForRule, hget, hgd, h1, refDigest]
        · refine ⟨c2, h2, Or.inr ⟨e, ?_⟩⟩
          simp only [createDigestForRule, hget, hgd, h1]

end Memo

/-! ## SHA-256 test vector -/

set_option maxRecDepth 100000 in
/-- The instance `sha256` on the FIPS 180-4 test message `abc`. -/
theorem sha256_abc : convertByteArrayToString (sha256 [97, 98, 99]) =
    [98, 97, 55, 56, 49, 54, 98, 102, 56, 102, 48, 49, 99, 102, 101, 97,
     52, 49, 52, 49, 52, 48, 100, 101, 53, 100, 97, 101, 50, 50, 50, 51,
     98, 48, 48, 51, 54, 49, 97, 51, 57, 54, 49, 55, 55, 97, 57, 99,
     98, 52, 49, 48, 102, 102, 54, 49, 102, 50, 48, 48, 49, 53, 97, 100] := by
  decide!

/-! ## The index built by the first loop of `hashAllTargets` -/

theorem targetNames_nil : targetNames [] = [] := rfl

theorem targetNames_cons (target : Target) (rest : List Target) :
    targetNames (target :: rest) =
      if getNameForTarget target = [] then targetNames rest
      else getNameForTarget target :: targetNames rest := by
  unfold targetNames
  by_cases h : getNameForTarget target = [] <;> simp [List.filter_cons, h]

theorem targetNames_append (l1 l2 : List Target) :
    targetNames (l1 ++ l2) = targetNames l1 ++ targetNames l2 := by
  unfold targetNames
  rw [List.map_append, List.filter_append]

theorem mem_targetNames {targets : List Target} {n : GoString} :
    n ∈ targetNames targets ↔ n ≠ [] ∧ ∃ target ∈ targets, getNameForTarget target = n := by
  unfold targetNames
  simp only [List.mem_filter, List.mem_map, decide_eq_true_eq]
  tauto

theorem ruleAt_empty (k : GoString) : ruleAt GoMap.empty k = none := rfl

theorem ruleAt_set (m : GoMap (Option BazelRule)) (k k2 : GoString) (v : Option BazelRule) :
    ruleAt (m.set k v) k2 = if k = k2 then v else ruleAt m k2 := by
  unfold ruleAt
  rw [GoMap.get_set]
  by_cases h : k = k2 <;> simp [h]

theorem ruleAt_some_get {m : GoMap (Option BazelRule)} {k : GoString} {b : BazelRule}
    (h : ruleAt m k = some b) : m.get k ≠ none := by
  intro hn
  unfold ruleAt at h
  rw [hn] at h
  exact absurd h (by simp)

theorem getNameForTarget_rule {target : Target} {r : Rule} (h : target.Rule = some r) :
    getNameForTarget target = r.Name := by
  unfold getNameForTarget
  rw [h]

theorem indexInv_empty (t : targetHashingClient) : IndexInv t [] GoMap.empty := by
  refine ⟨fun k h => absurd (GoMap.get_empty k) h, fun k b h => ?_, fun target h => ?_⟩
  · rw [ruleAt_empty] at h
    exact absurd h (by simp)
  · exact absurd h (List.not_mem_nil _)

theorem indexTarget_inv (t : targetHashingClient) (hprov : FaithfulProvider t.ruleProvider)
    (done : List Target) (m : GoMap (Option BazelRule)) (target : Target)
    (hinv : IndexInv t done m) (hsv : SingleVariant target)
    (hfresh : getNameForTarget target ∉ targetNames done) :
    IndexInv t (done ++ [target]) (indexTarget t m target) := by
  obtain ⟨hkeys, hrules, htargets⟩ := hinv
  have hnames : ∀ k, k ∈ targetNames done → k ∈ targetNames (done ++ [target]) := by
    intro k hk
    rw [targetNames_append]
    exact List.mem_append_left _ hk
  have hlift : ∀ b, (∃ tg ∈ done, ∃ r, tg.Rule = some r ∧ r.Name ≠ [] ∧
        t.ruleProvider.GetRule (some r) = some b) →
      ∃ tg ∈ done ++ [target], ∃ r, tg.Rule = some r ∧ r.Name ≠ [] ∧
        t.ruleProvider.GetRule (some r) = some b := by
    rintro b ⟨tg, htg, h⟩
    exact ⟨tg, List.mem_append_left _ htg, h⟩
  by_cases hname : getNameForTarget target = []
  · -- the target is skipped
    have hstep : indexTarget t m target = m := by simp [indexTarget, hname]
    rw [hstep]
    refine ⟨fun k h => hnames k (hkeys k h), fun k b h => ⟨(hrules k b h).1, hlift b (hrules k b h).2⟩,
      ?_⟩
    intro tg htg r hr hrn
    rcases List.mem_append.1 htg with h | h
    · exact htargets tg h r hr hrn
    · rw [List.mem_singleton] at h
      subst h
      rw [getNameForTarget_rule hr] at hname
      exact absurd hname hrn
  · have hnew : getNameForTarget target ∈ targetNames (done ++ [target]) := by
      rw [targetNames_append, targetNames_cons, if_neg hname]
      simp
    have hold : ∀ k b, ruleAt m k = some b → b.GetName ≠ getNameForTarget target := by
      intro k b h heq
      have := hkeys b.GetName (ruleAt_some_get (hrules k b h).1)
      rw [heq] at this
      exact hfresh this
    cases hR : target.Rule with
    | some r =>
      have hG : target.GeneratedFile = none := by
        rcases hsv.2.1 with h | h
        · rw [hR] at h
          exact absurd h (by simp)
        · exact h
      obtain ⟨b, hb, hbn⟩ := hprov r
      have hn : getNameForTarget target = r.Name := getNameForTarget_rule hR
      have hstep : indexTarget t m target = m.set r.Name (some b) := by
        simp [indexTarget, hn ▸ hname, hR, hG, hn, hb]
      rw [hstep]
      rw [hn] at hnew hfresh hname hold
      refine ⟨?_, ?_, ?_⟩
      · intro k h
        rw [GoMap.get_set] at h
        by_cases hk : r.Name = k
        · rw [← hk]
          exact hnew
        · rw [if_neg hk] at h
          exact hnames k (hkeys k h)
      · intro k b2 h
        rw [ruleAt_set] at h
        by_cases hk : r.Name = k
        · rw [if_pos hk] at h
          have hb2 : b = b2 := Option.some.inj h
          subst hb2
          refine ⟨?_, target, by simp, r, hR, hname, hb⟩
          rw [hbn, ruleAt_set, if_pos rfl]
        · rw [if_neg hk] at h
          refine ⟨?_, hlift b2 (hrules k b2 h).2⟩
          rw [ruleAt_set, if_neg (fun e => hold k b2 h e.symm)]
          exact (hrules k b2 h).1
      · intro tg htg r2 hr2 hr2n
        rcases List.mem_append.1 htg with h | h
        · have hmem : r2.Name ∈ targetNames done :=
            mem_targetNames.2 ⟨hr2n, tg, h, getNameForTarget_rule hr2⟩
          rw [ruleAt_set, if_neg (fun e => hfresh (by rw [e]; exact hmem))]
          exact htargets tg h r2 hr2 hr2n
        · rw [List.mem_singleton] at h
          subst h
          rw [hR] at hr2
          have hr : r = r2 := Option.some.inj hr2
          subst hr
          rw [ruleAt_set, if_pos rfl, hb]
    | none =>
      have htg2 : ∀ tg ∈ done ++ [target], ∀ r, tg.Rule = some r → tg ∈ done := by
        intro tg htg r hr
        rcases List.mem_append.1 htg with h | h
        · exact h
        · rw [List.mem_singleton] at h
          subst h
          rw [hR] at hr
          exact absurd hr (by simp)
      cases hG : target.GeneratedFile with
      | none =>
        have hstep : indexTarget t m target = m := by simp [indexTarget, hname, hR, hG]
        rw [hstep]
        refine ⟨fun k h => hnames k (hkeys k h),
          fun k b h => ⟨(hrules k b h).1, hlift b (hrules k b h).2⟩, ?_⟩
        intro tg htg r hr hrn
        exact htargets tg (htg2 tg htg r hr) r hr hrn
      | some g =>
        have hstep : indexTarget t m target =
            m.set (getNameForTarget target) (ruleAt m g.GeneratingRule) := by
          simp [indexTarget, hname, hR, hG]
        rw [hstep]
        refine ⟨?_, ?_, ?_⟩
        · intro k h
          rw [GoMap.get_set] at h
          by_cases hk : getNameForTarget target = k
          · rw [← hk]
            exact hnew
          · rw [if_neg hk] at h
            exact hnames k (hkeys k h)
        · intro k b2 h
          rw [ruleAt_set] at h
          by_cases hk : getNameForTarget target = k
          · rw [if_pos hk] at h
            refine ⟨?_, hlift b2 (hrules _ b2 h).2⟩
            rw [ruleAt_set, if_neg (fun e => hold _ b2 h e.symm)]
            exact (hrules _ b2 h).1
          · rw [if_neg hk] at h
            refine ⟨?_, hlift b2 (hrules k b2 h).2⟩
            rw [ruleAt_set, if_neg (fun e => hold k b2 h e.symm)]
            exact (hrules k b2 h).1
        · intro tg htg r2 hr2 hr2n
          have h := htg2 tg htg r2 hr2
          have hmem : r2.Name ∈ targetNames done :=
            mem_targetNames.2 ⟨hr2n, tg, h, getNameForTarget_rule hr2⟩
          rw [ruleAt_set, if_neg (fun e => hfresh (by rw [e]; exact hmem))]
          exact htargets tg h r2 hr2 hr2n

theorem indexTargets_inv (t : targetHashingClient) (hprov : FaithfulProvider t.ruleProvider) :
    ∀ (rest done : List Target) (m : GoMap (Option BazelRule)), IndexInv t done m →
      (∀ target ∈ rest, SingleVariant target) → (targetNames (done ++ rest)).Nodup →
      IndexInv t (done ++ rest) (indexTargets t rest m) := by
  intro rest
  induction rest with
  | nil =>
    intro done m h _ _
    simpa [indexTargets] using h
  | cons target rest ih =>
    intro done m h hsv hnd
    have hfresh : getNameForTarget target ∉ targetNames done := by
      intro hmem
      have hne := (mem_targetNames.1 hmem).1
      rw [targetNames_append, targetNames_cons, if_neg hne] at hnd
      have := (List.nodup_append.1 hnd).2.2
      exact this hmem (List.mem_cons_self _ _)
    have hstep := indexTarget_inv t hprov done m target h (hsv target (List.mem_cons_self _ _))
      hfresh
    have := ih (done ++ [target]) (indexTarget t m target) hstep
      (fun tg htg => hsv tg (List.mem_cons_of_mem _ htg)) (by simpa using hnd)
    simpa [indexTargets] using this

/-- The index of a query result with unique names, built through a faithful
rule provider. -/
theorem indexTargets_indexInv (t : targetHashingClient) (hprov : FaithfulProvider t.ruleProvider)
    (targets : List Target) (hsv : ∀ target ∈ targets, SingleVariant target)
    (huniq : UniqueNames targets) :
    IndexInv t targets (indexTargets t targets GoMap.empty) := by
  have := indexTargets_inv t hprov targets [] GoMap.empty (indexInv_empty t) hsv
    (by simpa using huniq)
  simpa using this

theorem IndexInv.namedIndex {t : targetHashingClient} {targets : List Target}
    {idx : GoMap (Option BazelRule)} (h : IndexInv t targets idx) : NamedIndex idx := by
  rintro b ⟨k, hk⟩
  exact (h.2.1 k b hk).1

theorem IndexInv.inGraph {t : targetHashingClient} {targets : List Target}
    {idx : GoMap (Option BazelRule)} (h : IndexInv t targets idx) {b : BazelRule}
    (hb : InGraph idx b) :
    ∃ target ∈ targets, ∃ r, target.Rule = some r ∧ r.Name ≠ [] ∧
      t.ruleProvider.GetRule (some r) = some b := by
  obtain ⟨k, hk⟩ := hb
  exact (h.2.1 k b hk).2

/-! ## Facts about `createDigestForRule` that hold on every graph -/

theorem CacheKeeps.same (c : GoMap Bytes) : CacheKeeps c c := fun _ _ h => h

theorem CacheKeeps.chain {c1 c2 c3 : GoMap Bytes} (h1 : CacheKeeps c1 c2) (h2 : CacheKeeps c2 c3) :
    CacheKeeps c1 c3 := fun k d h => h2 k d (h1 k d h)

theorem CacheKeeps.store {c1 c2 : GoMap Bytes} (h : CacheKeeps c1 c2) {k : GoString}
    (hk : c1.get k = none) (v : Bytes) : CacheKeeps c1 (c2.set k v) := by
  intro k2 d hd
  by_cases e : k = k2
  · rw [← e, hk] at hd
    exact absurd hd (by simp)
  · rw [GoMap.get_set_ne _ _ e]
    exact h k2 d hd

theorem KeysFrom.refl (idx : GoMap (Option BazelRule)) (c : GoMap Bytes) : KeysFrom idx c c :=
  fun _ h => Or.inl h

theorem KeysFrom.trans {idx : GoMap (Option BazelRule)} {c1 c2 c3 : GoMap Bytes}
    (h1 : KeysFrom idx c1 c2) (h2 : KeysFrom idx c2 c3) : KeysFrom idx c1 c3 := by
  intro k hk
  rcases h2 k hk with h | h
  · exact h1 k h
  · exact Or.inr h

section General

variable (Sum256 : Bytes → Bytes) (idx : GoMap (Option BazelRule))
  (table : GoMap BazelSourceFileTarget) (seed : Option Bytes)

theorem foldRuleInputs_general
    (recur : Option BazelRule → GoMap Bytes → Exec (Option Bytes) × GoMap Bytes)
    (hrec : ∀ r c, InGraph idx r →
      CacheKeeps c (recur (some r) c).2 ∧ KeysFrom idx c (recur (some r) c).2 ∧
      ∀ v e, (recur (some r) c).1 = .ret v (some e) →
        ∃ b, InGraph idx b ∧ b.GetDigest.2 = some e)
    (ruleName : GoString) :
    ∀ (inputs : List GoString) (buf : Bytes) (c : GoMap Bytes),
      CacheKeeps c (foldRuleInputs recur idx table ruleName inputs buf c).2 ∧
      KeysFrom idx c (foldRuleInputs recur idx table ruleName inputs buf c).2 ∧
      ∀ x, (foldRuleInputs recur idx table ruleName inputs buf c).1 = .returned x →
        (∀ v, x ≠ .ret v none) ∧
        ∀ v e, x = .ret v (some e) → v = none ∧ ∃ b, InGraph idx b ∧ b.GetDigest.2 = some e := by
  intro inputs
  induction inputs with
  | nil =>
    intro buf c
    refine ⟨CacheKeeps.same c, KeysFrom.refl idx c, ?_⟩
    intro x h
    simp [foldRuleInputs] at h
  | cons i rest ihl =>
    intro buf c
    rcases hsd : getDigestForSourceTargetName i table with ⟨sd, err⟩
    have herr : err = none := by
      have := getDigestForSourceTargetName_snd i table
      rw [hsd] at this
      exact this
    subst herr
    cases hidx : ruleAt idx i with
    | none =>
      simp only [foldRuleInputs, hsd, hidx]
      exact ihl _ c
    | some r =>
      by_cases hcond : r.GetName ≠ [] ∧ ¬ (r.GetName = ruleName)
      · simp only [foldRuleInputs, hsd, hidx, if_pos hcond]
        have hr := hrec r c ⟨i, hidx⟩
        rcases hres : recur (some r) c with ⟨res, c1⟩
        rw [hres] at hr
        cases res with
        | ret v e =>
          cases e with
          | some err =>
            refine ⟨hr.1, hr.2.1, ?_⟩
            intro x hx
            simp only [Flow.returned.injEq] at hx
            subst hx
            refine ⟨fun v2 => by simp, fun v2 e2 h2 => ?_⟩
            simp only [Exec.ret.injEq, Option.some.injEq] at h2
            rw [← h2.2]
            exact ⟨h2.1.symm, hr.2.2 v err rfl⟩
          | none =>
            simp only
            have h := ihl (writeIfNotNil (buf ++ i) v) c1
            exact ⟨hr.1.chain h.1, hr.2.1.trans h.2.1, h.2.2⟩
        | panic =>
          refine ⟨hr.1, hr.2.1, ?_⟩
          intro x hx
          simp only [Flow.returned.injEq] at hx
          subst hx
          exact ⟨fun v2 => by simp, fun v2 e2 h2 => by simp at h2⟩
        | timeout =>
          refine ⟨hr.1, hr.2.1, ?_⟩
          intro x hx
          simp only [Flow.returned.injEq] at hx
          subst hx
          exact ⟨fun v2 => by simp, fun v2 e2 h2 => by simp at h2⟩
      · simp only [foldRuleInputs, hsd, hidx, if_neg hcond]
        exact ihl _ c

/-- On every graph and from every cache, `createDigestForRule` keeps the
entries of the cache, adds keys only under names of rules of the graph,
returns on success a digest that the cache then holds under the name of the
rule, and returns only errors of `GetDigest`. -/
theorem createDigestForRule_general :
    ∀ (depth : Nat) (r : BazelRule) (c : GoMap Bytes), InGraph idx r →
      CacheKeeps c (createDigestForRule Sum256 idx table seed depth (some r) c).2 ∧
      KeysFrom idx c (createDigestForRule Sum256 idx table seed depth (some r) c).2 ∧
      (∀ v e, (createDigestForRule Sum256 idx table seed depth (some r) c).1 = .ret v (some e) →
        ∃ b, InGraph idx b ∧ b.GetDigest.2 = some e) ∧
      (∀ v, (createDigestForRule Sum256 idx table seed depth (some r) c).1 = .ret v none →
        ∃ d, v = some d ∧
          (createDigestForRule Sum256 idx table seed depth (some r) c).2.get r.GetName =
            some d) ∧
      (∀ v e, (createDigestForRule Sum256 idx table seed depth (some r) c).1 = .ret v (some e) →
        v = none) := by
  intro depth
  induction depth with
  | zero =>
    intro r c _
    simp only [createDigestForRule]
    exact ⟨CacheKeeps.same c, KeysFrom.refl idx c, by simp, by simp, by simp⟩
  | succ n ih =>
    intro r c hr
    cases hget : c.get r.GetName with
    | some d =>
      simp only [createDigestForRule, hget]
      refine ⟨CacheKeeps.same c, KeysFrom.refl idx c, by simp, ?_, by simp⟩
      intro v hv
      simp only [Exec.ret.injEq, and_true] at hv
      exact ⟨d, hv.symm, rfl⟩
    | none =>
      rcases hgd : r.GetDigest with ⟨rd, err⟩
      cases err with
      | some e =>
        simp only [createDigestForRule, hget, hgd]
        refine ⟨CacheKeeps.same c, KeysFrom.refl idx c, ?_, by simp, ?_⟩
        · intro v e2 h
          simp only [Exec.ret.injEq, Option.some.injEq] at h
          exact ⟨r, hr, by rw [hgd, ← h.2]⟩
        · intro v e2 h
          simp only [Exec.ret.injEq] at h
          exact h.1.symm
      | none =>
        have hf := foldRuleInputs_general idx table
          (createDigestForRule Sum256 idx table seed n)
          (fun r2 c2 h2 => ⟨(ih r2 c2 h2).1, (ih r2 c2 h2).2.1, (ih r2 c2 h2).2.2.1⟩)
          r.GetName r.GetRuleInputList (writeIfNotNil ([] ++ rd) seed) c
        rcases hfold : foldRuleInputs (createDigestForRule Sum256 idx table seed n) idx table
          r.GetName r.GetRuleInputList (writeIfNotNil ([] ++ rd) seed) c with ⟨flow, c1⟩
        rw [hfold] at hf
        cases flow with
        | returned x =>
          simp only [createDigestForRule, hget, hgd, hfold]
          have hx := hf.2.2 x rfl
          exact ⟨hf.1, hf.2.1, fun v e h => (hx.2 v e h).2, fun v h => absurd h (hx.1 v),
            fun v e h => (hx.2 v e h).1⟩
        | running buf =>
          simp only [createDigestForRule, hget, hgd, hfold]
          refine ⟨hf.1.store hget _, ?_, by simp, ?_, by simp⟩
          · intro k hk
            by_cases e : r.GetName = k
            · exact Or.inr ⟨r, hr, e⟩
            · rw [GoMap.get_set_ne _ _ e] at hk
              exact hf.2.1 k hk
          · intro v hv
            simp only [Exec.ret.injEq, and_true] at hv
            exact ⟨_, hv.symm, GoMap.get_set_self _ _ _⟩

end General


/-! ## Facts about `createDigestForTarget` -/

theorem createDigestForRule_nil (Sum256 : Bytes → Bytes) (idx : GoMap (Option BazelRule))
    (table : GoMap BazelSourceFileTarget) (seed : Option Bytes) (depth : Nat) (c : GoMap Bytes) :
    createDigestForRule Sum256 idx table seed depth none c = (.panic, c) ∨
      createDigestForRule Sum256 idx table seed depth none c = (.timeout, c) := by
  cases depth with
  | zero => exact Or.inr rfl
  | succ n => exact Or.inl rfl

theorem createDigestForRule_hit (Sum256 : Bytes → Bytes) (idx : GoMap (Option BazelRule))
    (table : GoMap BazelSourceFileTarget) (seed : Option Bytes) (depth : Nat) (c : GoMap Bytes)
    (b : BazelRule) (d : Bytes) (h : c.get b.GetName = some d) :
    createDigestForRule Sum256 idx table seed (depth + 1) (some b) c =
      (.ret (some d) none, c) := by
  simp only [createDigestForRule, h]

theorem KeysInGraph.init (idx : GoMap (Option BazelRule)) : KeysInGraph idx GoMap.empty :=
  fun k h => absurd (GoMap.get_empty k) h

theorem KeysInGraph.step {idx : GoMap (Option BazelRule)} {c1 c2 : GoMap Bytes}
    (h1 : KeysInGraph idx c1) (h2 : KeysFrom idx c1 c2) : KeysInGraph idx c2 := by
  intro k hk
  rcases h2 k hk with h | h
  · exact h1 k h
  · exact h

section Target

variable (Sum256 : Bytes → Bytes) (t : targetHashingClient) (targets : List Target)
  (idx : GoMap (Option BazelRule)) (table : GoMap BazelSourceFileTarget) (seed : Option Bytes)
  (depth : Nat)

/-- A source-file target with a non-empty name gets the hash of its
source-table digest followed by the seed; the cache is not touched. -/
theorem createDigestForTarget_source (target : Target) (sf : SourceFile)
    (hS : target.SourceFile = some sf) (hR : target.Rule = none) (hn : sf.Name ≠ [])
    (c : GoMap Bytes) :
    createDigestForTarget Sum256 t depth target idx table c seed =
      (.ret (some (Sum256 (sourceContribution table sf.Name ++ seed.getD []))) none, c) := by
  have hname : getNameForTarget target = sf.Name := by
    simp [getNameForTarget, hR, hS]
  rcases hsd : getDigestForSourceTargetName sf.Name table with ⟨sd, err⟩
  have herr : err = none := by
    have := getDigestForSourceTargetName_snd sf.Name table
    rw [hsd] at this
    exact this
  subst herr
  have hsc : sd.getD [] = sourceContribution table sf.Name := by
    have := getDigestForSourceTargetName_fst sf.Name table
    rw [hsd] at this
    exact this
  have hcond : target.SourceFile ≠ none ∧ getNameForTarget target ≠ [] := by
    rw [hS, hname]
    exact ⟨by simp, hn⟩
  unfold createDigestForTarget
  rw [if_pos hcond, hname, hsd]
  simp only [writeIfNotNil_eq, List.nil_append, hsc]

/-- A generated-file target reads the cache under the name of its generating
rule: without an entry it gets no digest, with an entry it gets that entry;
the cache is not touched. -/
theorem createDigestForTarget_generated (hnamed : NamedIndex idx) (target : Target)
    (g : GeneratedFile) (hG : target.GeneratedFile = some g) (hS : target.SourceFile = none)
    (c : GoMap Bytes) (hkeys : KeysInGraph idx c) :
    (c.get g.GeneratingRule = none ∧
      createDigestForTarget Sum256 t depth target idx table c seed = (.ret none none, c)) ∨
    (∃ d, c.get g.GeneratingRule = some d ∧
      createDigestForTarget Sum256 t depth target idx table c seed =
        if depth = 0 then (.timeout, c) else (.ret (some d) none, c)) := by
  have hcond : ¬ (target.SourceFile ≠ none ∧ getNameForTarget target ≠ []) := by
    rw [hS]
    simp
  simp only [createDigestForTarget, if_neg hcond, hG]
  cases hget : c.get g.GeneratingRule with
  | none => exact Or.inl ⟨rfl, rfl⟩
  | some d =>
    refine Or.inr ⟨d, rfl, ?_⟩
    obtain ⟨b, hb, hbn⟩ := hkeys g.GeneratingRule (by rw [hget]; simp)
    have hat : ruleAt idx g.GeneratingRule = some b := by
      rw [← hbn]
      exact hnamed b hb
    simp only [hat]
    cases depth with
    | zero => rfl
    | succ n =>
      rw [if_neg (Nat.succ_ne_zero n)]
      exact createDigestForRule_hit Sum256 idx table seed n c b d (by rw [hbn]; exact hget)

/-- A rule target with a non-empty name hands its materialized rule, a rule of
the graph of the same name, to `createDigestForRule`. -/
theorem createDigestForTarget_rule (hprov : FaithfulProvider t.ruleProvider)
    (hinv : IndexInv t targets idx) (target : Target) (htg : target ∈ targets) (r : Rule)
    (hR : target.Rule = some r) (hS : target.SourceFile = none)
    (hG : target.GeneratedFile = none) (hn : r.Name ≠ []) (c : GoMap Bytes) :
    ∃ b, t.ruleProvider.GetRule (some r) = some b ∧ b.GetName = r.Name ∧ InGraph idx b ∧
      createDigestForTarget Sum256 t depth target idx table c seed =
        createDigestForRule Sum256 idx table seed depth (some b) c := by
  obtain ⟨b, hb, hbn⟩ := hprov r
  have hat := hinv.2.2 target htg r hR hn
  rw [hb] at hat
  refine ⟨b, hb, hbn, ⟨r.Name, hat⟩, ?_⟩
  have hcond : ¬ (target.SourceFile ≠ none ∧ getNameForTarget target ≠ []) := by
    rw [hS]
    simp
  simp only [createDigestForTarget, if_neg hcond, hG, hR, hb]

end Target

/-! ## The second loop of `hashAllTargets` -/

theorem getNameForTarget_source {target : Target} {sf : SourceFile}
    (h : target.SourceFile = some sf) (hsv : SingleVariant target) :
    target.Rule = none ∧ target.GeneratedFile = none ∧ getNameForTarget target = sf.Name := by
  have hR : target.Rule = none := by
    rcases hsv.1 with h1 | h1
    · exact h1
    · rw [h] at h1
      exact absurd h1 (by simp)
  have hG : target.GeneratedFile = none := by
    rcases hsv.2.2 with h1 | h1
    · rw [h] at h1
      exact absurd h1 (by simp)
    · exact h1
  exact ⟨hR, hG, by simp [getNameForTarget, hR, h]⟩

theorem getNameForTarget_generated {target : Target} {g : GeneratedFile}
    (h : target.GeneratedFile = some g) (hsv : SingleVariant target) :
    target.Rule = none ∧ target.SourceFile = none ∧ getNameForTarget target = g.Name := by
  have hR : target.Rule = none := by
    rcases hsv.2.1 with h1 | h1
    · exact h1
    · rw [h] at h1
      exact absurd h1 (by simp)
  have hS : target.SourceFile = none := by
    rcases hsv.2.2 with h1 | h1
    · exact h1
    · rw [h] at h1
      exact absurd h1 (by simp)
  exact ⟨hR, hS, by simp [getNameForTarget, hR, hS, h]⟩

theorem getNameForTarget_ruleVariant {target : Target} {r : Rule}
    (h : target.Rule = some r) (hsv : SingleVariant target) :
    target.SourceFile = none ∧ target.GeneratedFile = none ∧
      getNameForTarget target = r.Name := by
  have hS : target.SourceFile = none := by
    rcases hsv.1 with h1 | h1
    · rw [h] at h1
      exact absurd h1 (by simp)
    · exact h1
  have hG : target.GeneratedFile = none := by
    rcases hsv.2.1 with h1 | h1
    · rw [h] at h1
      exact absurd h1 (by simp)
    · exact h1
  exact ⟨hS, hG, getNameForTarget_rule h⟩

/-- A target with a non-empty name is of exactly one of the three variants. -/
theorem variant_cases {target : Target} (hn : getNameForTarget target ≠ []) :
    (∃ r, target.Rule = some r) ∨ (∃ sf, target.SourceFile = some sf) ∨
      (∃ g, target.GeneratedFile = some g) := by
  cases hR : target.Rule with
  | some r => exact Or.inl ⟨r, rfl⟩
  | none =>
    cases hS : target.SourceFile with
    | some sf => exact Or.inr (Or.inl ⟨sf, rfl⟩)
    | none =>
      cases hG : target.GeneratedFile with
      | some g => exact Or.inr (Or.inr ⟨g, rfl⟩)
      | none =>
        exfalso
        apply hn
        simp [getNameForTarget, hR, hS, hG]

section Loop

variable (Sum256 : Bytes → Bytes) (t : targetHashingClient)
  (idx : GoMap (Option BazelRule)) (table : GoMap BazelSourceFileTarget) (seed : Option Bytes)
  (depth : Nat)

theorem digestTargets_nil (st : GoMap GoString × GoMap Bytes) :
    digestTargets Sum256 t depth idx table seed [] st = .running st := by
  cases st
  rfl

theorem digestTargets_skip (target : Target) (rest : List Target)
    (st : GoMap GoString × GoMap Bytes) (hn : getNameForTarget target = []) :
    digestTargets Sum256 t depth idx table seed (target :: rest) st =
      digestTargets Sum256 t depth idx table seed rest st := by
  cases st
  simp only [digestTargets, hn, if_true]

theorem digestTargets_ok (target : Target) (rest : List Target) (s : GoMap GoString)
    (c c1 : GoMap Bytes) (v : Option Bytes) (hn : getNameForTarget target ≠ [])
    (h : createDigestForTarget Sum256 t depth target idx table c seed = (.ret v none, c1)) :
    digestTargets Sum256 t depth idx table seed (target :: rest) (s, c) =
      digestTargets Sum256 t depth idx table seed rest
        (storeDigest s (getNameForTarget target) v, c1) := by
  simp only [digestTargets, hn, if_false, h]

theorem digestTargets_err (target : Target) (rest : List Target) (s : GoMap GoString)
    (c c1 : GoMap Bytes) (v : Option Bytes) (e : GoError) (hn : getNameForTarget target ≠ [])
    (h : createDigestForTarget Sum256 t depth target idx table c seed =
      (.ret v (some e), c1)) :
    digestTargets Sum256 t depth idx table seed (target :: rest) (s, c) =
      .returned (.ret none (some e)) := by
  simp only [digestTargets, hn, if_false, h]

theorem digestTargets_panic (target : Target) (rest : List Target) (s : GoMap GoString)
    (c c1 : GoMap Bytes) (hn : getNameForTarget target ≠ [])
    (h : createDigestForTarget Sum256 t depth target idx table c seed = (.panic, c1)) :
    digestTargets Sum256 t depth idx table seed (target :: rest) (s, c) =
      .returned .panic := by
  simp only [digestTargets, hn, if_false, h]

theorem digestTargets_timeout (target : Target) (rest : List Target) (s : GoMap GoString)
    (c c1 : GoMap Bytes) (hn : getNameForTarget target ≠ [])
    (h : createDigestForTarget Sum256 t depth target idx table c seed = (.timeout, c1)) :
    digestTargets Sum256 t depth idx table seed (target :: rest) (s, c) =
      .returned .timeout := by
  simp only [digestTargets, hn, if_false, h]

/-- The loop over `l1 ++ l2` is the loop over `l1` followed, when the function
has not returned, by the loop over `l2`. -/
theorem digestTargets_append (l1 l2 : List Target) :
    ∀ st : GoMap GoString × GoMap Bytes,
      digestTargets Sum256 t depth idx table seed (l1 ++ l2) st =
        match digestTargets Sum256 t depth idx table seed l1 st with
        | .returned r => .returned r
        | .running st2 => digestTargets Sum256 t depth idx table seed l2 st2 := by
  induction l1 with
  | nil =>
    intro st
    simp [digestTargets_nil]
  | cons target rest ih =>
    intro st
    obtain ⟨s, c⟩ := st
    by_cases hn : getNameForTarget target = []
    · rw [List.cons_append, digestTargets_skip Sum256 t idx table seed depth target _ _ hn,
        digestTargets_skip Sum256 t idx table seed depth target _ _ hn]
      exact ih _
    · rcases h : createDigestForTarget Sum256 t depth target idx table c seed with ⟨res, c1⟩
      cases res with
      | ret v e =>
        cases e with
        | none =>
          rw [List.cons_append, digestTargets_ok Sum256 t idx table seed depth target _ s c c1 v hn h,
            digestTargets_ok Sum256 t idx table seed depth target _ s c c1 v hn h]
          exact ih _
        | some e =>
          rw [List.cons_append,
            digestTargets_err Sum256 t idx table seed depth target _ s c c1 v e hn h,
            digestTargets_err Sum256 t idx table seed depth target _ s c c1 v e hn h]
      | panic =>
        rw [List.cons_append, digestTargets_panic Sum256 t idx table seed depth target _ s c c1 hn h,
          digestTargets_panic Sum256 t idx table seed depth target _ s c c1 hn h]
      | timeout =>
        rw [List.cons_append,
          digestTargets_timeout Sum256 t idx table seed depth target _ s c c1 hn h,
          digestTargets_timeout Sum256 t idx table seed depth target _ s c c1 hn h]

end Loop

section LoopFacts

variable (Sum256 : Bytes → Bytes) (t : targetHashingClient) (targets : List Target)
  (idx : GoMap (Option BazelRule)) (table : GoMap BazelSourceFileTarget) (seed : Option Bytes)
  (depth : Nat)

/-- What one call of `createDigestForTarget` in the second loop does, for a
target of the query result with a non-empty name. -/
theorem createDigestForTarget_facts (hprov : FaithfulProvider t.ruleProvider)
    (hinv : IndexInv t targets idx) (target : Target) (htg : target ∈ targets)
    (hsv : SingleVariant target) (hn : getNameForTarget target ≠ []) (c : GoMap Bytes)
    (hkeys : KeysInGraph idx c) :
    CacheKeeps c (createDigestForTarget Sum256 t depth target idx table c seed).2 ∧
    KeysFrom idx c (createDigestForTarget Sum256 t depth target idx table c seed).2 ∧
    (∀ v e, (createDigestForTarget Sum256 t depth target idx table c seed).1 = .ret v (some e) →
      ∃ b, InGraph idx b ∧ b.GetDigest.2 = some e) ∧
    (∀ v, (createDigestForTarget Sum256 t depth target idx table c seed).1 = .ret v none →
      (∀ r, target.Rule = some r → ∃ d, v = some d ∧
        (createDigestForTarget Sum256 t depth target idx table c seed).2.get r.Name = some d) ∧
      (∀ sf, target.SourceFile = some sf →
        v = some (Sum256 (sourceContribution table sf.Name ++ seed.getD []))) ∧
      (∀ g, target.GeneratedFile = some g → v = none ∨ ∃ d, v = some d ∧
        (createDigestForTarget Sum256 t depth target idx table c seed).2.get g.GeneratingRule =
          some d)) := by
  rcases variant_cases hn with ⟨r, hR⟩ | ⟨sf, hS⟩ | ⟨g, hG⟩
  · obtain ⟨hS, hG, hname⟩ := getNameForTarget_ruleVariant hR hsv
    obtain ⟨b, _, hbn, hb, heq⟩ := createDigestForTarget_rule Sum256 t targets idx table seed
      depth hprov hinv target htg r hR hS hG (hname ▸ hn) c
    rw [heq]
    obtain ⟨h1, h2, h3, h4, _⟩ := createDigestForRule_general Sum256 idx table seed depth b c hb
    refine ⟨h1, h2, h3, fun v hv => ⟨?_, ?_, ?_⟩⟩
    · intro r2 hr2
      rw [hR] at hr2
      rw [← Option.some.inj hr2, ← hbn]
      exact h4 v hv
    · intro sf hsf
      rw [hS] at hsf
      exact absurd hsf (by simp)
    · intro g hg
      rw [hG] at hg
      exact absurd hg (by simp)
  · obtain ⟨hR, hG, hname⟩ := getNameForTarget_source hS hsv
    rw [createDigestForTarget_source Sum256 t idx table seed depth target sf hS hR
      (hname ▸ hn) c]
    refine ⟨CacheKeeps.same c, KeysFrom.refl idx c, by simp, fun v hv => ⟨?_, ?_, ?_⟩⟩
    · intro r hr
      rw [hR] at hr
      exact absurd hr (by simp)
    · intro sf2 hsf2
      rw [hS] at hsf2
      rw [← Option.some.inj hsf2]
      simp only [Exec.ret.injEq, and_true] at hv
      exact hv.symm
    · intro g hg
      rw [hG] at hg
      exact absurd hg (by simp)
  · obtain ⟨hR, hS, hname⟩ := getNameForTarget_generated hG hsv
    have hgen := createDigestForTarget_generated Sum256 t idx table seed depth hinv.namedIndex
      target g hG hS c hkeys
    have hrest : ∀ x, createDigestForTarget Sum256 t depth target idx table c seed = (x, c) →
        (∀ v, x = .ret v none → v = none ∨ ∃ d, v = some d ∧ c.get g.GeneratingRule = some d) →
        (∀ v e, x ≠ .ret v (some e)) →
        CacheKeeps c (createDigestForTarget Sum256 t depth target idx table c seed).2 ∧
        KeysFrom idx c (createDigestForTarget Sum256 t depth target idx table c seed).2 ∧
        (∀ v e, (createDigestForTarget Sum256 t depth target idx table c seed).1 =
            .ret v (some e) → ∃ b, InGraph idx b ∧ b.GetDigest.2 = some e) ∧
        (∀ v, (createDigestForTarget Sum256 t depth target idx table c seed).1 = .ret v none →
          (∀ r, target.Rule = some r → ∃ d, v = some d ∧
            (createDigestForTarget Sum256 t depth target idx table c seed).2.get r.Name =
              some d) ∧
          (∀ sf, target.SourceFile = some sf →
            v = some (Sum256 (sourceContribution table sf.Name ++ seed.getD []))) ∧
          (∀ g, target.GeneratedFile = some g → v = none ∨ ∃ d, v = some d ∧
            (createDigestForTarget Sum256 t depth target idx table c seed).2.get
              g.GeneratingRule = some d)) := by
      intro x hx hv he
      rw [hx]
      refine ⟨CacheKeeps.same c, KeysFrom.refl idx c, fun v e h => absurd h (he v e),
        fun v h => ⟨?_, ?_, ?_⟩⟩
      · intro r hr
        rw [hR] at hr
        exact absurd hr (by simp)
      · intro sf hsf
        rw [hS] at hsf
        exact absurd hsf (by simp)
      · intro g2 hg2
        rw [hG] at hg2
        rw [← Option.some.inj hg2]
        exact hv v h
    rcases hgen with ⟨_, hmiss⟩ | ⟨d, hd, hhit⟩
    · refine hrest _ hmiss ?_ (by simp)
      intro v hv
      simp only [Exec.ret.injEq, and_true] at hv
      exact Or.inl hv.symm
    · by_cases h0 : depth = 0
      · rw [if_pos h0] at hhit
        exact hrest _ hhit (by simp) (by simp)
      · rw [if_neg h0] at hhit
        refine hrest _ hhit ?_ (by simp)
        intro v hv
        simp only [Exec.ret.injEq, and_true] at hv
        exact Or.inr ⟨d, hv.symm, hd⟩

theorem nodup_targetNames_cons {target : Target} {rest : List Target}
    (h : (targetNames (target :: rest)).Nodup) :
    (targetNames rest).Nodup ∧
      (getNameForTarget target ≠ [] → getNameForTarget target ∉ targetNames rest) := by
  rw [targetNames_cons] at h
  by_cases hn : getNameForTarget target = []
  · rw [if_pos hn] at h
    exact ⟨h, fun h2 => absurd hn h2⟩
  · rw [if_neg hn] at h
    exact ⟨(List.nodup_cons.1 h).2, fun _ => (List.nodup_cons.1 h).1⟩

/-- The second loop of `hashAllTargets` on the targets `todo` of a query
result with unique names: when it runs to its end it has kept the cache
entries, added keys only under names of rules of the graph, and written the
snapshot as `SnapshotFacts` says; when the function returns from inside the
loop, it returns a panic, a timeout, or a nil snapshot with the error of a
`GetDigest` of a rule of the graph. -/
theorem digestTargets_general (hprov : FaithfulProvider t.ruleProvider)
    (hinv : IndexInv t targets idx) :
    ∀ (todo : List Target) (s : GoMap GoString) (c : GoMap Bytes),
      (∀ target ∈ todo, target ∈ targets) → (∀ target ∈ todo, SingleVariant target) →
      (targetNames todo).Nodup → KeysInGraph idx c →
      (∀ s2 c2, digestTargets Sum256 t depth idx table seed todo (s, c) = .running (s2, c2) →
        CacheKeeps c c2 ∧ KeysInGraph idx c2 ∧ SnapshotFacts Sum256 table seed todo s s2 c2) ∧
      (∀ x, digestTargets Sum256 t depth idx table seed todo (s, c) = .returned x →
        x = .panic ∨ x = .timeout ∨
          ∃ e, x = .ret none (some e) ∧ ∃ b, InGraph idx b ∧ b.GetDigest.2 = some e) := by
  intro todo
  induction todo with
  | nil =>
    intro s c _ _ _ hkeys
    rw [digestTargets_nil]
    refine ⟨?_, fun x h => by simp at h⟩
    intro s2 c2 h
    simp only [Flow.running.injEq, Prod.mk.injEq] at h
    obtain ⟨h1, h2⟩ := h
    subst h1 h2
    refine ⟨CacheKeeps.same c, hkeys, fun _ _ => rfl, ?_, ?_, ?_⟩ <;>
      exact fun target h => absurd h (List.not_mem_nil _)
  | cons target rest ih =>
    intro s c hsub hsv hnd hkeys
    have hsubr : ∀ tg ∈ rest, tg ∈ targets := fun tg h => hsub tg (List.mem_cons_of_mem _ h)
    have hsvr : ∀ tg ∈ rest, SingleVariant tg := fun tg h => hsv tg (List.mem_cons_of_mem _ h)
    obtain ⟨hndr, hfresh⟩ := nodup_targetNames_cons hnd
    by_cases hn : getNameForTarget target = []
    · rw [digestTargets_skip Sum256 t idx table seed depth target rest _ hn]
      obtain ⟨ih1, ih2⟩ := ih s c hsubr hsvr hndr hkeys
      refine ⟨?_, ih2⟩
      intro s2 c2 h
      obtain ⟨k1, k2, f1, f2, f3, f4⟩ := ih1 s2 c2 h
      have hnames : targetNames (target :: rest) = targetNames rest := by
        rw [targetNames_cons, if_pos hn]
      refine ⟨k1, k2, ?_, ?_, ?_, ?_⟩
      · intro k hk
        rw [hnames] at hk
        exact f1 k hk
      · intro tg htg r hr hrn
        rcases List.mem_cons.1 htg with h1 | h1
        · subst h1
          rw [getNameForTarget_rule hr] at hn
          exact absurd hn hrn
        · exact f2 tg h1 r hr hrn
      · intro tg htg sf hsf hsfn
        rcases List.mem_cons.1 htg with h1 | h1
        · subst h1
          rw [(getNameForTarget_source hsf (hsv _ (List.mem_cons_self _ _))).2.2] at hn
          exact absurd hn hsfn
        · exact f3 tg h1 sf hsf hsfn
      · intro tg htg g hg hgn
        rcases List.mem_cons.1 htg with h1 | h1
        · subst h1
          rw [(getNameForTarget_generated hg (hsv _ (List.mem_cons_self _ _))).2.2] at hn
          exact absurd hn hgn
        · exact f4 tg h1 g hg hgn
    · have hfr := hfresh hn
      have hsvt := hsv target (List.mem_cons_self _ _)
      have hfacts := createDigestForTarget_facts Sum256 t targets idx table seed depth hprov hinv
        target (hsub target (List.mem_cons_self _ _)) hsvt hn c hkeys
      rcases hres : createDigestForTarget Sum256 t depth target idx table c seed with ⟨res, c1⟩
      rw [hres] at hfacts
      obtain ⟨hk1, hk2, herr, hok⟩ := hfacts
      cases res with
      | panic =>
        rw [digestTargets_panic Sum256 t idx table seed depth target rest s c c1 hn hres]
        exact ⟨fun s2 c2 h => by simp at h, fun x h => Or.inl (Flow.returned.inj h).symm⟩
      | timeout =>
        rw [digestTargets_timeout Sum256 t idx table seed depth target rest s c c1 hn hres]
        exact ⟨fun s2 c2 h => by simp at h,
          fun x h => Or.inr (Or.inl (Flow.returned.inj h).symm)⟩
      | ret v e =>
        cases e with
        | some e =>
          rw [digestTargets_err Sum256 t idx table seed depth target rest s c c1 v e hn hres]
          exact ⟨fun s2 c2 h => by simp at h,
            fun x h => Or.inr (Or.inr ⟨e, (Flow.returned.inj h).symm, herr v e rfl⟩)⟩
        | none =>
          rw [digestTargets_ok Sum256 t idx table seed depth target rest s c c1 v hn hres]
          obtain ⟨hvr, hvs, hvg⟩ := hok v rfl
          obtain ⟨ih1, ih2⟩ := ih (storeDigest s (getNameForTarget target) v) c1 hsubr hsvr
            hndr (hkeys.step hk2)
          refine ⟨?_, ih2⟩
          intro s2 c2 h
          obtain ⟨k1, k2, f1, f2, f3, f4⟩ := ih1 s2 c2 h
          have hs1 : ∀ k, k ≠ getNameForTarget target →
              (storeDigest s (getNameForTarget target) v).get k = s.get k := by
            intro k hk
            cases v with
            | none => rfl
            | some d => exact GoMap.get_set_ne _ _ (fun e => hk e.symm)
          have hhead : ∀ d, v = some d →
              s2.get (getNameForTarget target) = some (convertByteArrayToString d) := by
            intro d hd
            rw [f1 _ hfr, hd]
            exact GoMap.get_set_self _ _ _
          have hne : ∀ k, k ∈ targetNames rest → k ≠ getNameForTarget target :=
            fun k hk e => hfr (e ▸ hk)
          refine ⟨hk1.chain k1, k2, ?_, ?_, ?_, ?_⟩
          · intro k hk
            rw [targetNames_cons, if_neg hn] at hk
            rw [f1 k (fun h2 => hk (List.mem_cons_of_mem _ h2))]
            exact hs1 k (fun e => hk (e ▸ List.mem_cons_self _ _))
          · intro tg htg r hr hrn
            rcases List.mem_cons.1 htg with h1 | h1
            · subst h1
              obtain ⟨d, hd, hc1⟩ := hvr r hr
              refine ⟨d, k1 _ _ hc1, ?_⟩
              rw [← getNameForTarget_rule hr]
              exact hhead d hd
            · exact f2 tg h1 r hr hrn
          · intro tg htg sf hsf hsfn
            rcases List.mem_cons.1 htg with h1 | h1
            · subst h1
              have h2 := hhead _ (hvs sf hsf)
              rw [(getNameForTarget_source hsf hsvt).2.2] at h2
              exact h2
            · exact f3 tg h1 sf hsf hsfn
          · intro tg htg g hg hgn
            rcases List.mem_cons.1 htg with h1 | h1
            · subst h1
              have hname := (getNameForTarget_generated hg hsvt).2.2
              rcases hvg g hg with hv | ⟨d, hd, hc1⟩
              · left
                rw [← hname, f1 _ hfr, hv]
                rfl
              · right
                refine ⟨d, k1 _ _ hc1, ?_⟩
                rw [← hname]
                exact hhead d hd
            · have hname := (getNameForTarget_generated hg (hsvr tg h1)).2.2
              have hmem : g.Name ∈ targetNames rest :=
                mem_targetNames.2 ⟨hgn, tg, h1, hname⟩
              rcases f4 tg h1 g hg hgn with h2 | h2
              · left
                rw [h2]
                exact hs1 _ (hne _ hmem)
              · exact Or.inr h2

/-- On an acyclic graph with unique names and a depth budget above every
rank, the second loop of `hashAllTargets` runs to its end from a sound cache
and leaves a sound cache, or the function returns a nil snapshot with an
error. -/
theorem digestTargets_total (rank : GoString → Nat) (hprov : FaithfulProvider t.ruleProvider)
    (hinv : IndexInv t targets idx) (hacyc : Acyclic idx rank)
    (hdepth : ∀ b, InGraph idx b → rank b.GetName < depth) :
    ∀ (todo : List Target) (s : GoMap GoString) (c : GoMap Bytes),
      (∀ target ∈ todo, target ∈ targets) → (∀ target ∈ todo, SingleVariant target) →
      KeysInGraph idx c → CacheSound Sum256 idx table seed rank c →
      (∃ s2 c2, digestTargets Sum256 t depth idx table seed todo (s, c) = .running (s2, c2) ∧
        CacheSound Sum256 idx table seed rank c2) ∨
      (∃ e, digestTargets Sum256 t depth idx table seed todo (s, c) =
        .returned (.ret none (some e))) := by
  intro todo
  induction todo with
  | nil =>
    intro s c _ _ _ hc
    exact Or.inl ⟨s, c, digestTargets_nil Sum256 t idx table seed depth (s, c), hc⟩
  | cons target rest ih =>
    intro s c hsub hsv hkeys hc
    have hsubr : ∀ tg ∈ rest, tg ∈ targets := fun tg h => hsub tg (List.mem_cons_of_mem _ h)
    have hsvr : ∀ tg ∈ rest, SingleVariant tg := fun tg h => hsv tg (List.mem_cons_of_mem _ h)
    have hsvt := hsv target (List.mem_cons_self _ _)
    by_cases hn : getNameForTarget target = []
    · rw [digestTargets_skip Sum256 t idx table seed depth target rest _ hn]
      exact ih s c hsubr hsvr hkeys hc
    · have hstep : ∀ v c1, createDigestForTarget Sum256 t depth target idx table c seed =
            (.ret v none, c1) → KeysInGraph idx c1 → CacheSound Sum256 idx table seed rank c1 →
          (∃ s2 c2, digestTargets Sum256 t depth idx table seed (target :: rest) (s, c) =
              .running (s2, c2) ∧ CacheSound Sum256 idx table seed rank c2) ∨
            (∃ e, digestTargets Sum256 t depth idx table seed (target :: rest) (s, c) =
              .returned (.ret none (some e))) := by
        intro v c1 h hk1 hc1
        rw [digestTargets_ok Sum256 t idx table seed depth target rest s c c1 v hn h]
        exact ih _ c1 hsubr hsvr hk1 hc1
      rcases variant_cases hn with ⟨r, hR⟩ | ⟨sf, hS⟩ | ⟨g, hG⟩
      · obtain ⟨hS, hG, hname⟩ := getNameForTarget_ruleVariant hR hsvt
        obtain ⟨b, _, hbn, hb, heq⟩ := createDigestForTarget_rule Sum256 t targets idx table seed
          depth hprov hinv target (hsub target (List.mem_cons_self _ _)) r hR hS hG
          (hname ▸ hn) c
        obtain ⟨c1, hc1, hres⟩ := createDigestForRule_total Sum256 idx table seed rank hacyc
          hinv.namedIndex depth b c hb (hdepth b hb) hc
        have hkf := (createDigestForRule_general Sum256 idx table seed depth b c hb).2.1
        rcases hres with hres | ⟨e, hres⟩
        · rw [hres] at hkf
          exact hstep _ c1 (heq.trans hres) (hkeys.step hkf) hc1
        · right
          exact ⟨e, digestTargets_err Sum256 t idx table seed depth target rest s c c1 none e hn
            (heq.trans hres)⟩
      · obtain ⟨hR, hG, hname⟩ := getNameForTarget_source hS hsvt
        exact hstep _ c (createDigestForTarget_source Sum256 t idx table seed depth target sf hS
          hR (hname ▸ hn) c) hkeys hc
      · obtain ⟨hR, hS, hname⟩ := getNameForTarget_generated hG hsvt
        rcases createDigestForTarget_generated Sum256 t idx table seed depth hinv.namedIndex
          target g hG hS c hkeys with ⟨_, hmiss⟩ | ⟨d, hd, hhit⟩
        · exact hstep _ c hmiss hkeys hc
        · obtain ⟨b, hb, _⟩ := hkeys g.GeneratingRule (by rw [hd]; simp)
          have h0 : depth ≠ 0 := by
            have := hdepth b hb
            omega
          rw [if_neg h0] at hhit
          exact hstep _ c hhit hkeys hc

end LoopFacts

/-! ## The snapshot of `hashAllTargets` on a well-formed query result -/

theorem cacheSound_empty (Sum256 : Bytes → Bytes) (idx : GoMap (Option BazelRule))
    (table : GoMap BazelSourceFileTarget) (seed : Option Bytes) (rank : GoString → Nat) :
    CacheSound Sum256 idx table seed rank GoMap.empty := by
  intro r _ d h
  rw [GoMap.get_empty] at h
  exact absurd h (by simp)

theorem WellFormedQuery.indexInv {t : targetHashingClient} {targets : List Target}
    (h : WellFormedQuery t targets) : IndexInv t targets (indexOf t targets) :=
  indexTargets_indexInv t h.2.1 targets h.2.2.1 h.2.2.2

theorem hashAllTargets_eq (Sum256 : Bytes → Bytes) (t : targetHashingClient) (depth : Nat)
    (seed : Option Bytes) (table : GoMap BazelSourceFileTarget) (targets : List Target)
    (hq : t.bazelClient.QueryAllTargets = (targets, none)) :
    hashAllTargets Sum256 t depth seed table =
      match digestTargets Sum256 t depth (indexOf t targets) table seed targets
          (GoMap.empty, GoMap.empty) with
      | .returned r => r
      | .running (targetHashes, _) => .ret (some targetHashes) none := by
  simp only [hashAllTargets, hq, indexOf]

theorem digestsKnown_of_not_fails {t : targetHashingClient} {targets : List Target}
    (hwf : WellFormedQuery t targets) (h : ¬ SomeDigestFails t targets) :
    DigestsKnown (indexOf t targets) := by
  intro b hb
  obtain ⟨target, htg, r, hr, hrn, hget⟩ := hwf.indexInv.inGraph hb
  by_contra hne
  exact h ⟨target, htg, r, b, hr, hrn, hget, hne⟩

/-- The snapshot of a well-formed, acyclic query result whose declared digests
are all available: `hashAllTargets` returns a snapshot and no error; a rule
target holds the hex string of its reference digest, a source-file target the
hex string of the hash of its source-table digest and the seed, a
generated-file target nothing or the entry of its generating rule, and no
other name has an entry. -/
theorem hashAllTargets_snapshot (Sum256 : Bytes → Bytes) (t : targetHashingClient)
    (depth : Nat) (seed : Option Bytes) (table : GoMap BazelSourceFileTarget)
    (targets : List Target) (rank : GoString → Nat) (hwf : WellFormedQuery t targets)
    (hacyc : Acyclic (indexOf t targets) rank)
    (hdepth : ∀ b, InGraph (indexOf t targets) b → rank b.GetName < depth)
    (hdig : ¬ SomeDigestFails t targets) :
    ∃ snap, hashAllTargets Sum256 t depth seed table = .ret (some snap) none ∧
      (∀ target ∈ targets, ∀ r b, target.Rule = some r → r.Name ≠ [] →
        t.ruleProvider.GetRule (some r) = some b →
        snap.get r.Name = some (convertByteArrayToString
          (refDigest Sum256 (indexOf t targets) table seed depth b))) ∧
      (∀ target ∈ targets, ∀ sf, target.SourceFile = some sf → sf.Name ≠ [] →
        snap.get sf.Name = some (convertByteArrayToString
          (Sum256 (sourceContribution table sf.Name ++ seed.getD [])))) ∧
      (∀ target ∈ targets, ∀ g, target.GeneratedFile = some g → g.Name ≠ [] →
        snap.get g.Name = none ∨ ∃ b, ruleAt (indexOf t targets) g.GeneratingRule = some b ∧
          b.GetName = g.GeneratingRule ∧
          snap.get g.Name = some (convertByteArrayToString
            (refDigest Sum256 (indexOf t targets) table seed depth b))) ∧
      (∀ k, k ∉ targetNames targets → snap.get k = none) := by
  have hinv := hwf.indexInv
  have hknown := digestsKnown_of_not_fails hwf hdig
  have hgen := digestTargets_general Sum256 t targets (indexOf t targets) table seed depth
    hwf.2.1 hinv targets GoMap.empty GoMap.empty (fun _ h => h) hwf.2.2.1 hwf.2.2.2
    (KeysInGraph.init _)
  have htot := digestTargets_total Sum256 t targets (indexOf t targets) table seed depth rank
    hwf.2.1 hinv hacyc hdepth targets GoMap.empty GoMap.empty (fun _ h => h) hwf.2.2.1
    (KeysInGraph.init _) (cacheSound_empty _ _ _ _ _)
  rw [hashAllTargets_eq Sum256 t depth seed table targets hwf.1]
  rcases htot with ⟨s2, c2, hrun, hsound⟩ | ⟨e, herr⟩
  · obtain ⟨_, hk2, f1, f2, f3, f4⟩ := hgen.1 s2 c2 hrun
    rw [hrun]
    refine ⟨s2, rfl, ?_, f3, ?_, ?_⟩
    · intro target htg r b hr hrn hb
      obtain ⟨d, hd, hs⟩ := f2 target htg r hr hrn
      have hat := hinv.2.2 target htg r hr hrn
      rw [hb] at hat
      have hbg : InGraph (indexOf t targets) b := ⟨r.Name, hat⟩
      obtain ⟨b2, hb2, hbn⟩ := hwf.2.1 r
      rw [hb] at hb2
      have hbn2 : b.GetName = r.Name := by
        rw [Option.some.inj hb2]
        exact hbn
      rw [hs]
      have := (hsound b hbg d (by rw [hbn2]; exact hd)).2
      rw [this, refDigest_stable Sum256 _ table seed rank hacyc _ depth b hbg (by omega)
        (hdepth b hbg)]
    · intro target htg g hg hgn
      rcases f4 target htg g hg hgn with h | ⟨d, hd, hs⟩
      · left
        rw [h]
        rfl
      · right
        obtain ⟨b, hbg, hbn⟩ := hk2 g.GeneratingRule (by rw [hd]; simp)
        have hat : ruleAt (indexOf t targets) g.GeneratingRule = some b := by
          rw [← hbn]
          exact hinv.namedIndex b hbg
        refine ⟨b, hat, hbn, ?_⟩
        rw [hs]
        have := (hsound b hbg d (by rw [hbn]; exact hd)).2
        rw [this, refDigest_stable Sum256 _ table seed rank hacyc _ depth b hbg (by omega)
          (hdepth b hbg)]
    · intro k hk
      rw [f1 k hk]
      rfl
  · exfalso
    obtain h | h | ⟨e2, _, b, hb, hbe⟩ := hgen.2 _ herr
    · simp at h
    · simp at h
    · have := hknown b hb
      rw [hbe] at this
      exact absurd this (by simp)

/-! ## Checking a concrete graph -/

theorem inGraph_graphRules {idx : GoMap (Option BazelRule)} {r : BazelRule}
    (h : InGraph idx r) : r ∈ graphRules idx := by
  obtain ⟨k, hk⟩ := h
  unfold ruleAt GoMap.get at hk
  cases hf : idx.entries.find? (fun p => decide (p.1 = k)) with
  | none =>
    rw [hf] at hk
    exact absurd hk (by simp)
  | some p =>
    rw [hf] at hk
    simp only [Option.join] at hk
    unfold graphRules
    rw [List.mem_filterMap]
    exact ⟨p, List.mem_of_find?_eq_some hf, hk⟩

theorem acyclic_of_graphRules {idx : GoMap (Option BazelRule)} {rank : GoString → Nat}
    (h : ∀ r ∈ graphRules idx, ∀ i ∈ r.GetRuleInputList, ∀ r2 ∈ ruleAt idx i,
      r2.GetName ≠ [] → r2.GetName ≠ r.GetName → rank r2.GetName < rank r.GetName) :
    Acyclic idx rank :=
  fun r hr i hi r2 h2 => h r (inGraph_graphRules hr) i hi r2 (Option.mem_def.2 h2)

theorem namedIndex_of_graphRules {idx : GoMap (Option BazelRule)}
    (h : ∀ r ∈ graphRules idx, ruleAt idx r.GetName = some r) : NamedIndex idx :=
  fun r hr => h r (inGraph_graphRules hr)

theorem digestsKnown_of_graphRules {idx : GoMap (Option BazelRule)}
    (h : ∀ r ∈ graphRules idx, r.GetDigest.2 = none) : DigestsKnown idx :=
  fun r hr => h r (inGraph_graphRules hr)

theorem exIndex_eq : indexOf exClient exTargets =
    ⟨[(exNameG, some exRuleB), (exNameB, some exRuleB), (exNameA, some exRuleA)]⟩ := by
  decide

theorem exIndex_acyclic : Acyclic (indexOf exClient exTargets) exRank := by
  rw [exIndex_eq]
  exact acyclic_of_graphRules (by decide)

theorem exIndex_named : NamedIndex (indexOf exClient exTargets) := by
  rw [exIndex_eq]
  exact namedIndex_of_graphRules (by decide)

theorem exIndex_known : DigestsKnown (indexOf exClient exTargets) := by
  rw [exIndex_eq]
  exact digestsKnown_of_graphRules (by decide)

theorem exIndex_inGraphB : InGraph (indexOf exClient exTargets) exRuleB :=
  ⟨exNameB, by rw [exIndex_eq]; decide⟩

theorem exIndex_inGraphA : InGraph (indexOf exClient exTargets) exRuleA :=
  ⟨exNameA, by rw [exIndex_eq]; decide⟩

theorem exIndex_depth : ∀ b, InGraph (indexOf exClient exTargets) b → exRank b.GetName < 2 := by
  intro b hb
  have h : ∀ r ∈ graphRules (indexOf exClient exTargets), exRank r.GetName < 2 := by
    rw [exIndex_eq]
    decide
  exact h b (inGraph_graphRules hb)

theorem exClient_wellFormed : WellFormedQuery exClient exTargets :=
  ⟨rfl, fun r => ⟨_, rfl, rfl⟩, by decide, by decide⟩

/-! ## C1: the memoized digest refines the reference definition -/

/-- C1. On a rule graph with unique names (`NamedIndex`) whose rule-input
edges are acyclic apart from direct self-loops (`Acyclic`) and whose declared
digests are available, for every seed digest and source table and every rule
`R` of the graph, `createDigestForRule` started from the empty cache returns
the unmemoized reference digest `refDigest` of `R`, which does not depend on
the depth budget, and every entry the cache then holds under the name of a
rule of the graph is the reference digest of that rule. -/
theorem createDigestForRule_refines_reference (Sum256 : Bytes → Bytes)
    (idx : GoMap (Option BazelRule)) (table : GoMap BazelSourceFileTarget)
    (seed : Option Bytes) (rank : GoString → Nat) (hacyc : Acyclic idx rank)
    (hnamed : NamedIndex idx) (hdig : DigestsKnown idx) (depth : Nat) (R : BazelRule)
    (hR : InGraph idx R) (hdepth : rank R.GetName < depth) :
    ∃ cache, createDigestForRule Sum256 idx table seed depth (some R) GoMap.empty =
        (.ret (some (refDigest Sum256 idx table seed depth R)) none, cache) ∧
      (∀ m, rank R.GetName < m →
        refDigest Sum256 idx table seed m R = refDigest Sum256 idx table seed depth R) ∧
      (∀ r, InGraph idx r → ∀ d, cache.get r.GetName = some d → ∀ m, rank r.GetName < m →
        d = refDigest Sum256 idx table seed m r) := by
  obtain ⟨cache, hsound, hres⟩ := createDigestForRule_total Sum256 idx table seed rank hacyc
    hnamed depth R GoMap.empty hR hdepth (cacheSound_empty _ _ _ _ _)
  refine ⟨cache, ?_, ?_, ?_⟩
  · rcases hres with h | ⟨e, h⟩
    · exact h
    · exfalso
      obtain ⟨b, hb, hbe⟩ := (createDigestForRule_general Sum256 idx table seed depth R
        GoMap.empty hR).2.2.1 none e (by rw [h])
      have := hdig b hb
      rw [hbe] at this
      exact absurd this (by simp)
  · intro m hm
    exact refDigest_stable Sum256 idx table seed rank hacyc m depth R hR hm hdepth
  · intro r hr d hd m hm
    rw [(hsound r hr d hd).2]
    exact refDigest_stable Sum256 idx table seed rank hacyc _ m r hr (by omega) hm

/-- C1 on the sample graph: rule `B`, which lists `A`, `s1` and itself. -/
theorem createDigestForRule_refines_reference_witness :
    Acyclic (indexOf exClient exTargets) exRank ∧ NamedIndex (indexOf exClient exTargets) ∧
    DigestsKnown (indexOf exClient exTargets) ∧ InGraph (indexOf exClient exTargets) exRuleB ∧
    exRank exRuleB.GetName < 2 ∧
    ∃ cache, createDigestForRule sha256 (indexOf exClient exTargets) (exTable [7]) (some [9]) 2
          (some exRuleB) GoMap.empty =
        (.ret (some (refDigest sha256 (indexOf exClient exTargets) (exTable [7]) (some [9]) 2
          exRuleB)) none, cache) ∧
      (∀ m, exRank exRuleB.GetName < m →
        refDigest sha256 (indexOf exClient exTargets) (exTable [7]) (some [9]) m exRuleB =
          refDigest sha256 (indexOf exClient exTargets) (exTable [7]) (some [9]) 2 exRuleB) ∧
      (∀ r, InGraph (indexOf exClient exTargets) r → ∀ d, cache.get r.GetName = some d →
        ∀ m, exRank r.GetName < m →
          d = refDigest sha256 (indexOf exClient exTargets) (exTable [7]) (some [9]) m r) :=
  ⟨exIndex_acyclic, exIndex_named, exIndex_known, exIndex_inGraphB, by decide,
    createDigestForRule_refines_reference sha256 (indexOf exClient exTargets) (exTable [7])
      (some [9]) exRank exIndex_acyclic exIndex_named exIndex_known 2 exRuleB exIndex_inGraphB
      (by decide)⟩

/-! ## C3: a generated file carries the digest of its generating rule -/

/-- C3. In a query result with unique names, let `g` be a generated-file
target with a non-empty name, processed by the second loop of `hashAllTargets`
when the cache already holds the digest `d` of its generating rule (the loop
over the targets before `g` has left the cache `cache0`). Then in the snapshot
that `hashAllTargets` returns the entry of `g` exists, is the hex string of
`d`, and the entry of the generating rule is the same string. -/
theorem generatedFile_entry_eq_rule_entry (Sum256 : Bytes → Bytes) (t : targetHashingClient)
    (depth : Nat) (seed : Option Bytes) (table : GoMap BazelSourceFileTarget)
    (before after : List Target) (g : Target) (gf : GeneratedFile)
    (snap0 : GoMap GoString) (cache0 : GoMap Bytes) (d : Bytes) (snap : GoMap GoString)
    (hwf : WellFormedQuery t (before ++ g :: after))
    (hgf : g.GeneratedFile = some gf) (hname : gf.Name ≠ [])
    (hbefore : digestTargets Sum256 t depth (indexOf t (before ++ g :: after)) table seed before
      (GoMap.empty, GoMap.empty) = .running (snap0, cache0))
    (hcache : cache0.get gf.GeneratingRule = some d)
    (hret : hashAllTargets Sum256 t depth seed table = .ret (some snap) none) :
    snap.get gf.Name = some (convertByteArrayToString d) ∧
      snap.get gf.GeneratingRule = some (convertByteArrayToString d) := by
  have hinv := hwf.indexInv
  have hsvg : SingleVariant g := hwf.2.2.1 g (by simp)
  obtain ⟨hgR, hgS, hgn⟩ := getNameForTarget_generated hgf hsvg
  have hnd : (targetNames before ++ targetNames (g :: after)).Nodup := by
    have := hwf.2.2.2
    unfold UniqueNames at this
    rwa [targetNames_append] at this
  obtain ⟨hnd1, hnd2, hdisj⟩ := List.nodup_append.1 hnd
  obtain ⟨hnd3, hfresh⟩ := nodup_targetNames_cons hnd2
  have hgmem : gf.Name ∈ targetNames (g :: after) := by
    rw [targetNames_cons, hgn, if_neg hname]
    exact List.mem_cons_self _ _
  -- the loop over the targets before `g`
  obtain ⟨_, hkeys0, _, f2, _, _⟩ := (digestTargets_general Sum256 t (before ++ g :: after)
    (indexOf t (before ++ g :: after)) table seed depth hwf.2.1 hinv before GoMap.empty
    GoMap.empty (fun tg h => List.mem_append_left _ h)
    (fun tg h => hwf.2.2.1 tg (List.mem_append_left _ h)) hnd1 (KeysInGraph.init _)).1
    snap0 cache0 hbefore
  -- the step at `g`
  have hstep : createDigestForTarget Sum256 t depth g (indexOf t (before ++ g :: after)) table
      cache0 seed = if depth = 0 then (.timeout, cache0) else (.ret (some d) none, cache0) := by
    rcases createDigestForTarget_generated Sum256 t (indexOf t (before ++ g :: after)) table
      seed depth hinv.namedIndex g gf hgf hgS cache0 hkeys0 with ⟨hmiss, _⟩ | ⟨d2, hd2, h⟩
    · rw [hcache] at hmiss
      exact absurd hmiss (by simp)
    · rw [hcache] at hd2
      rw [h, Option.some.inj hd2]
  rw [hashAllTargets_eq Sum256 t depth seed table _ hwf.1, digestTargets_append, hbefore] at hret
  simp only at hret
  have hgne : getNameForTarget g ≠ [] := by
    rw [hgn]
    exact hname
  by_cases h0 : depth = 0
  · rw [if_pos h0] at hstep
    rw [digestTargets_timeout Sum256 t _ table seed depth g after snap0 cache0 cache0 hgne
      hstep] at hret
    simp at hret
  · rw [if_neg h0] at hstep
    rw [digestTargets_ok Sum256 t _ table seed depth g after snap0 cache0 cache0 (some d) hgne
      hstep] at hret
    obtain ⟨hrun, hretd⟩ := digestTargets_general Sum256 t (before ++ g :: after)
      (indexOf t (before ++ g :: after)) table seed depth hwf.2.1 hinv after
      (storeDigest snap0 (getNameForTarget g) (some d)) cache0
      (fun tg h => List.mem_append_right _ (List.mem_cons_of_mem _ h))
      (fun tg h => hwf.2.2.1 tg (List.mem_append_right _ (List.mem_cons_of_mem _ h))) hnd3
      hkeys0
    rcases hloop : digestTargets Sum256 t depth (indexOf t (before ++ g :: after)) table seed
      after (storeDigest snap0 (getNameForTarget g) (some d), cache0) with x | ⟨s2, c2⟩
    · rw [hloop] at hret
      simp only at hret
      rcases hretd x hloop with h | h | ⟨e, h, _⟩ <;> rw [h] at hret <;> simp at hret
    · rw [hloop] at hret
      simp only [Exec.ret.injEq, Option.some.injEq, and_true] at hret
      subst hret
      obtain ⟨hk, _, g1, g2, _, _⟩ := hrun s2 c2 hloop
      have hgafter : gf.Name ∉ targetNames after := by
        rw [← hgn]
        exact hfresh hgne
      have hentry : s2.get gf.Name = some (convertByteArrayToString d) := by
        rw [g1 _ hgafter, hgn]
        exact GoMap.get_set_self _ _ _
      refine ⟨hentry, ?_⟩
      -- the rule target that carries the name of the generating rule
      obtain ⟨b, hb, hbn⟩ := hkeys0 gf.GeneratingRule (by rw [hcache]; simp)
      obtain ⟨tg, htg, r, hr, hrn, hget⟩ := hinv.inGraph hb
      obtain ⟨b2, hb2, hb2n⟩ := hwf.2.1 r
      have hrname : r.Name = gf.GeneratingRule := by
        rw [hget] at hb2
        rw [← hb2n, ← Option.some.inj hb2]
        exact hbn
      rcases List.mem_append.1 htg with hin | hin
      · obtain ⟨d2, hd2, hs2⟩ := f2 tg hin r hr hrn
        rw [hrname, hcache] at hd2
        rw [hrname, ← Option.some.inj hd2] at hs2
        have hmem : gf.GeneratingRule ∈ targetNames before :=
          mem_targetNames.2 ⟨hrname ▸ hrn, tg, hin, by rw [getNameForTarget_rule hr, hrname]⟩
        have hna : gf.GeneratingRule ∉ targetNames after :=
          fun h => hdisj hmem (by
            rw [targetNames_cons]
            split
            · exact h
            · exact List.mem_cons_of_mem _ h)
        have hng : gf.GeneratingRule ≠ getNameForTarget g := by
          intro e
          rw [hgn] at e
          exact hdisj hmem (e ▸ hgmem)
        rw [g1 _ hna]
        simp only [storeDigest]
        rw [GoMap.get_set_ne _ _ (fun e => hng e.symm)]
        exact hs2
      · rcases List.mem_cons.1 hin with hin | hin
        · subst hin
          rw [hgR] at hr
          exact absurd hr (by simp)
        · obtain ⟨d2, hd2, hs2⟩ := g2 tg hin r hr hrn
          rw [hrname, hk _ _ hcache] at hd2
          rw [hrname, ← Option.some.inj hd2] at hs2
          exact hs2

set_option maxRecDepth 100000 in
/-- C3 on the sample query result: `g` is generated by `B` and comes after `B`. -/
theorem generatedFile_entry_eq_rule_entry_witness :
    WellFormedQuery exClient (exTargets.take 2 ++ ⟨none, none, some ⟨exNameG, exNameB⟩⟩ ::
      exTargets.drop 3) ∧
    exNameG ≠ [] ∧
    digestTargets sha256 exClient 2 (indexOf exClient (exTargets.take 2 ++
        ⟨none, none, some ⟨exNameG, exNameB⟩⟩ :: exTargets.drop 3)) (exTable [7]) none
      (exTargets.take 2) (GoMap.empty, GoMap.empty) =
        .running (exStateBefore.1, exStateBefore.2) ∧
    exStateBefore.2.get exNameB = some ((exStateBefore.2.get exNameB).getD []) ∧
    hashAllTargets sha256 exClient 2 none (exTable [7]) = .ret (some exSnapshot) none ∧
    exSnapshot.get exNameG =
      some (convertByteArrayToString ((exStateBefore.2.get exNameB).getD [])) ∧
    exSnapshot.get exNameB =
      some (convertByteArrayToString ((exStateBefore.2.get exNameB).getD [])) :=
  ⟨exClient_wellFormed, by decide, by decide!, by decide!, by decide!,
    generatedFile_entry_eq_rule_entry sha256 exClient 2 none (exTable [7]) (exTargets.take 2)
      (exTargets.drop 3) ⟨none, none, some ⟨exNameG, exNameB⟩⟩ ⟨exNameG, exNameB⟩
      exStateBefore.1 exStateBefore.2 ((exStateBefore.2.get exNameB).getD []) exSnapshot
      exClient_wellFormed rfl (by decide) (by decide!) (by decide!) (by decide!)⟩

/-! ## C10: `hashAllTargets` is all-or-nothing -/

/-- The two outcomes of `hashAllTargets` on a well-formed, acyclic query
result: a nil snapshot with an error when some `GetDigest` fails, a snapshot
and no error otherwise. -/
theorem hashAllTargets_outcome (Sum256 : Bytes → Bytes) (t : targetHashingClient)
    (depth : Nat) (seed : Option Bytes) (table : GoMap BazelSourceFileTarget)
    (targets : List Target) (rank : GoString → Nat) (hwf : WellFormedQuery t targets)
    (hacyc : Acyclic (indexOf t targets) rank)
    (hdepth : ∀ b, InGraph (indexOf t targets) b → rank b.GetName < depth) :
    (SomeDigestFails t targets →
      ∃ e, hashAllTargets Sum256 t depth seed table = .ret none (some e)) ∧
    (¬ SomeDigestFails t targets →
      ∃ snap, hashAllTargets Sum256 t depth seed table = .ret (some snap) none) := by
  refine ⟨?_, fun h => ?_⟩
  · rintro ⟨target, htg, r, b, hr, hrn, hget, hfail⟩
    have hinv := hwf.indexInv
    have hgen := digestTargets_general Sum256 t targets (indexOf t targets) table seed depth
      hwf.2.1 hinv targets GoMap.empty GoMap.empty (fun _ h => h) hwf.2.2.1 hwf.2.2.2
      (KeysInGraph.init _)
    have htot := digestTargets_total Sum256 t targets (indexOf t targets) table seed depth rank
      hwf.2.1 hinv hacyc hdepth targets GoMap.empty GoMap.empty (fun _ h => h) hwf.2.2.1
      (KeysInGraph.init _) (cacheSound_empty _ _ _ _ _)
    rw [hashAllTargets_eq Sum256 t depth seed table targets hwf.1]
    rcases htot with ⟨s2, c2, hrun, hsound⟩ | ⟨e, herr⟩
    · exfalso
      obtain ⟨_, _, _, f2, _, _⟩ := hgen.1 s2 c2 hrun
      obtain ⟨d, hd, _⟩ := f2 target htg r hr hrn
      have hat := hinv.2.2 target htg r hr hrn
      rw [hget] at hat
      obtain ⟨b2, hb2, hbn⟩ := hwf.2.1 r
      rw [hget] at hb2
      have hbn2 : b.GetName = r.Name := by
        rw [Option.some.inj hb2]
        exact hbn
      exact hfail (hsound b ⟨r.Name, hat⟩ d (by rw [hbn2]; exact hd)).1
    · exact ⟨e, by rw [herr]⟩
  · obtain ⟨snap, hs, _⟩ := hashAllTargets_snapshot Sum256 t depth seed table targets rank hwf
      hacyc hdepth h
    exact ⟨snap, hs⟩

/-- C10. On a well-formed, acyclic query result with a successful target
query, `hashAllTargets` returns an error if and only if `GetDigest` fails for
some rule target with a non-empty name; whenever it returns an error the
snapshot it returns is nil; otherwise it returns a snapshot and no error. -/
theorem hashAllTargets_all_or_nothing (Sum256 : Bytes → Bytes) (t : targetHashingClient)
    (depth : Nat) (seed : Option Bytes) (table : GoMap BazelSourceFileTarget)
    (targets : List Target) (rank : GoString → Nat) (hwf : WellFormedQuery t targets)
    (hacyc : Acyclic (indexOf t targets) rank)
    (hdepth : ∀ b, InGraph (indexOf t targets) b → rank b.GetName < depth) :
    ((∃ v e, hashAllTargets Sum256 t depth seed table = .ret v (some e)) ↔
      SomeDigestFails t targets) ∧
    (∀ v e, hashAllTargets Sum256 t depth seed table = .ret v (some e) → v = none) ∧
    (¬ (∃ v e, hashAllTargets Sum256 t depth seed table = .ret v (some e)) →
      ∃ snap, hashAllTargets Sum256 t depth seed table = .ret (some snap) none) := by
  obtain ⟨hfail, hok⟩ := hashAllTargets_outcome Sum256 t depth seed table targets rank hwf
    hacyc hdepth
  have hiff : (∃ v e, hashAllTargets Sum256 t depth seed table = .ret v (some e)) ↔
      SomeDigestFails t targets := by
    constructor
    · rintro ⟨v, e, h⟩
      by_contra hn
      obtain ⟨snap, hs⟩ := hok hn
      rw [hs] at h
      simp at h
    · intro h
      obtain ⟨e, he⟩ := hfail h
      exact ⟨none, e, he⟩
  refine ⟨hiff, ?_, ?_⟩
  · intro v e h
    obtain ⟨e2, he2⟩ := hfail (hiff.1 ⟨v, e, h⟩)
    rw [he2] at h
    simp only [Exec.ret.injEq] at h
    exact h.1.symm
  · intro h
    exact hok (fun hf => h (hiff.2 hf))

/-- C10 on the sample query result. -/
theorem hashAllTargets_all_or_nothing_witness :
    WellFormedQuery exClient exTargets ∧ Acyclic (indexOf exClient exTargets) exRank ∧
    (∀ b, InGraph (indexOf exClient exTargets) b → exRank b.GetName < 2) ∧
    ((∃ v e, hashAllTargets sha256 exClient 2 none (exTable [7]) = .ret v (some e)) ↔
      SomeDigestFails exClient exTargets) ∧
    (∀ v e, hashAllTargets sha256 exClient 2 none (exTable [7]) = .ret v (some e) → v = none) ∧
    (¬ (∃ v e, hashAllTargets sha256 exClient 2 none (exTable [7]) = .ret v (some e)) →
      ∃ snap, hashAllTargets sha256 exClient 2 none (exTable [7]) = .ret (some snap) none) :=
  ⟨exClient_wellFormed, exIndex_acyclic, exIndex_depth,
    hashAllTargets_all_or_nothing sha256 exClient 2 none (exTable [7]) exTargets exRank
      exClient_wellFormed exIndex_acyclic exIndex_depth⟩

/-! ## C7: a rule digest does not depend on source digests it cannot reach -/

theorem sourceContribution_congr {T1 T2 : GoMap BazelSourceFileTarget} {i : GoString}
    (h : getDigestForSourceTargetName i T1 = getDigestForSourceTargetName i T2) :
    sourceContribution T1 i = sourceContribution T2 i := by
  rw [← getDigestForSourceTargetName_fst, ← getDigestForSourceTargetName_fst, h]

/-- The reference digest of a rule is the same under two source tables that
agree on every input name reachable from the rule. -/
theorem refPreimage_congr_table (Sum256 : Bytes → Bytes) (idx : GoMap (Option BazelRule))
    (T1 T2 : GoMap BazelSourceFileTarget) (seed : Option Bytes) :
    ∀ (depth : Nat) (r : BazelRule),
      (∀ i, ReachesInput idx r i →
        getDigestForSourceTargetName i T1 = getDigestForSourceTargetName i T2) →
      refPreimage Sum256 idx T1 seed depth r = refPreimage Sum256 idx T2 seed depth r := by
  intro depth
  induction depth with
  | zero => intro r _; rfl
  | succ n ih =>
    intro r hagree
    rw [refPreimage_succ, refPreimage_succ]
    congr 2
    apply List.map_congr_left
    intro i hi
    congr 1
    unfold refContribution
    cases hidx : ruleAt idx i with
    | none => exact sourceContribution_congr (hagree i (.direct hi))
    | some r2 =>
      simp only
      by_cases hc : r2.GetName ≠ [] ∧ r2.GetName ≠ r.GetName
      · rw [if_pos hc, if_pos hc]
        unfold refDigest
        rw [ih r2 (fun j hj => hagree j (.step hi hidx hc.1 hc.2 hj))]
      · rw [if_neg hc, if_neg hc]
        exact sourceContribution_congr (hagree i (.direct hi))

/-- C7. On a well-formed, acyclic query result, let `T1` and `T2` be two source
tables that agree on every input name reachable from the rule target `R`
through rule-input edges (same targets, declared digests and seed). Then two
snapshots that `hashAllTargets` returns under `T1` and under `T2` hold the same
entry for `R`, and that entry exists; the two runs do return snapshots when
every declared digest is available. -/
theorem rule_digest_ignores_unreachable_sources (Sum256 : Bytes → Bytes)
    (t : targetHashingClient) (depth : Nat) (seed : Option Bytes)
    (T1 T2 : GoMap BazelSourceFileTarget) (targets : List Target) (rank : GoString → Nat)
    (hwf : WellFormedQuery t targets) (hacyc : Acyclic (indexOf t targets) rank)
    (hdepth : ∀ b, InGraph (indexOf t targets) b → rank b.GetName < depth)
    (target : Target) (htg : target ∈ targets) (r : Rule) (b : BazelRule)
    (hr : target.Rule = some r) (hrn : r.Name ≠ [])
    (hb : t.ruleProvider.GetRule (some r) = some b)
    (hagree : ∀ i, ReachesInput (indexOf t targets) b i →
      getDigestForSourceTargetName i T1 = getDigestForSourceTargetName i T2) :
    (∀ snap1 snap2, hashAllTargets Sum256 t depth seed T1 = .ret (some snap1) none →
      hashAllTargets Sum256 t depth seed T2 = .ret (some snap2) none →
      snap1.get r.Name = snap2.get r.Name ∧ snap1.get r.Name ≠ none) ∧
    (¬ SomeDigestFails t targets →
      ∃ snap1 snap2, hashAllTargets Sum256 t depth seed T1 = .ret (some snap1) none ∧
        hashAllTargets Sum256 t depth seed T2 = .ret (some snap2) none) := by
  have key : ¬ SomeDigestFails t targets →
      ∃ snap1 snap2 d, hashAllTargets Sum256 t depth seed T1 = .ret (some snap1) none ∧
        hashAllTargets Sum256 t depth seed T2 = .ret (some snap2) none ∧
        snap1.get r.Name = some d ∧ snap2.get r.Name = some d := by
    intro hdig
    obtain ⟨snap1, h1, f1, _⟩ := hashAllTargets_snapshot Sum256 t depth seed T1 targets rank hwf
      hacyc hdepth hdig
    obtain ⟨snap2, h2, f2, _⟩ := hashAllTargets_snapshot Sum256 t depth seed T2 targets rank hwf
      hacyc hdepth hdig
    refine ⟨snap1, snap2, _, h1, h2, f1 target htg r b hr hrn hb, ?_⟩
    rw [f2 target htg r b hr hrn hb]
    unfold refDigest
    rw [refPreimage_congr_table Sum256 (indexOf t targets) T1 T2 seed depth b hagree]
  refine ⟨?_, fun hdig => ?_⟩
  · intro snap1 snap2 h1 h2
    by_cases hdig : SomeDigestFails t targets
    · obtain ⟨e, he⟩ := (hashAllTargets_outcome Sum256 t depth seed T1 targets rank hwf hacyc
        hdepth).1 hdig
      rw [he] at h1
      simp at h1
    · obtain ⟨s1, s2, d, k1, k2, e1, e2⟩ := key hdig
      rw [k1] at h1
      rw [k2] at h2
      simp only [Exec.ret.injEq, Option.some.injEq, and_true] at h1 h2
      subst h1 h2
      rw [e1, e2]
      exact ⟨rfl, by simp⟩
  · obtain ⟨s1, s2, _, k1, k2, _⟩ := key hdig
    exact ⟨s1, s2, k1, k2⟩

theorem exRuleA_reaches_nothing (i : GoString) :
    ¬ ReachesInput (indexOf exClient exTargets) exRuleA i := by
  intro h
  cases h with
  | direct h => exact absurd h (List.not_mem_nil _)
  | step h _ _ _ _ => exact absurd h (List.not_mem_nil _)

/-- C7 on the sample query result: rule `B` depends on rule `A` and on the
source file `s1`, rule `A` has no inputs, and the digest of `s1` changes from
`[7]` to `[8]`; the entry of `A` stays the same. -/
theorem rule_digest_ignores_unreachable_sources_witness :
    WellFormedQuery exClient exTargets ∧ Acyclic (indexOf exClient exTargets) exRank ∧
    (∀ b, InGraph (indexOf exClient exTargets) b → exRank b.GetName < 2) ∧
    (∀ i, ReachesInput (indexOf exClient exTargets) exRuleA i →
      getDigestForSourceTargetName i (exTable [7]) =
        getDigestForSourceTargetName i (exTable [8])) ∧
    (∀ snap1 snap2, hashAllTargets sha256 exClient 2 none (exTable [7]) =
        .ret (some snap1) none →
      hashAllTargets sha256 exClient 2 none (exTable [8]) = .ret (some snap2) none →
      snap1.get exNameA = snap2.get exNameA ∧ snap1.get exNameA ≠ none) ∧
    (¬ SomeDigestFails exClient exTargets →
      ∃ snap1 snap2, hashAllTargets sha256 exClient 2 none (exTable [7]) =
          .ret (some snap1) none ∧
        hashAllTargets sha256 exClient 2 none (exTable [8]) = .ret (some snap2) none) :=
  ⟨exClient_wellFormed, exIndex_acyclic, exIndex_depth,
    fun i h => absurd h (exRuleA_reaches_nothing i),
    rule_digest_ignores_unreachable_sources sha256 exClient 2 none (exTable [7]) (exTable [8])
      exTargets exRank exClient_wellFormed exIndex_acyclic exIndex_depth
      ⟨some ⟨exNameA, [1]⟩, none, none⟩ (by decide) ⟨exNameA, [1]⟩ exRuleA rfl (by decide) rfl
      (fun i h => absurd h (exRuleA_reaches_nothing i))⟩

/-! ## C9: a rule without inputs and a source file, with an empty seed -/

theorem NewBazelSourceFileTarget_noWorkingDirectory (Sum256 : Bytes → Bytes) (host : Host)
    (name : GoString) (digest : Bytes) (filesystem : FS) :
    NewBazelSourceFileTarget Sum256 host name digest filesystem [] =
      .ret (some ⟨name, Sum256 (digest ++ name)⟩) none := by
  simp [NewBazelSourceFileTarget]

set_option maxRecDepth 100000 in
/-- C9 as stated fails for the source file: on the sample query result, with
SHA-256, an empty seed and `s1` built by `NewBazelSourceFileTarget` from the
declared digest `[7]` without a working directory, the snapshot entry of `s1`
is not the hex string of the hash of `[7]`. -/
theorem sourceFile_entry_not_single_hash :
    NewBazelSourceFileTarget sha256 exHost exNameS [7] exClient.filesystem [] =
      .ret (some ⟨exNameS, sha256 ([7] ++ exNameS)⟩) none ∧
    ∃ snap, hashAllTargets sha256 exClient 2 (some []) exBuiltTable = .ret (some snap) none ∧
      snap.get exNameS ≠ some (convertByteArrayToString (sha256 [7])) :=
  ⟨by decide!,
    (match hashAllTargets sha256 exClient 2 (some []) exBuiltTable with
      | .ret (some snap) _ => snap
      | _ => GoMap.empty),
    by decide!, by decide!⟩

/-- C9, amended. With an empty seed, on a well-formed, acyclic query result
whose declared digests are available, a rule target `A` with declared digest
`dA` and no rule inputs holds the hex string of the hash of `dA`; a source-file
target `s1` whose table entry was built by `NewBazelSourceFileTarget` from the
declared digest `d1` without a working directory holds the hex string of the
hash of the hash of `d1` followed by the name of `s1`. -/
theorem no_input_rule_and_source_entries (Sum256 : Bytes → Bytes) (host : Host) (filesystem : FS)
    (t : targetHashingClient) (depth : Nat) (seed : Option Bytes)
    (table : GoMap BazelSourceFileTarget) (targets : List Target) (rank : GoString → Nat)
    (hwf : WellFormedQuery t targets) (hacyc : Acyclic (indexOf t targets) rank)
    (hdepth : ∀ b, InGraph (indexOf t targets) b → rank b.GetName < depth)
    (hdig : ¬ SomeDigestFails t targets) (hseed : seed.getD [] = [])
    (ruleTarget : Target) (hrt : ruleTarget ∈ targets) (rA : Rule) (bA : BazelRule) (dA : Bytes)
    (hrA : ruleTarget.Rule = some rA) (hrn : rA.Name ≠ [])
    (hbA : t.ruleProvider.GetRule (some rA) = some bA) (hdA : bA.GetDigest = (dA, none))
    (hin : bA.GetRuleInputList = [])
    (sourceTarget : Target) (hst : sourceTarget ∈ targets) (sf : SourceFile) (d1 : Bytes)
    (src : BazelSourceFileTarget) (hsf : sourceTarget.SourceFile = some sf)
    (hsn : sf.Name ≠ [])
    (hsrc : NewBazelSourceFileTarget Sum256 host sf.Name d1 filesystem [] =
      .ret (some src) none)
    (htable : table.get sf.Name = some src) :
    ∃ snap, hashAllTargets Sum256 t depth seed table = .ret (some snap) none ∧
      snap.get rA.Name = some (convertByteArrayToString (Sum256 dA)) ∧
      snap.get sf.Name =
        some (convertByteArrayToString (Sum256 (Sum256 (d1 ++ sf.Name)))) := by
  obtain ⟨snap, hs, f1, f2, _⟩ := hashAllTargets_snapshot Sum256 t depth seed table targets rank
    hwf hacyc hdepth hdig
  refine ⟨snap, hs, ?_, ?_⟩
  · rw [f1 ruleTarget hrt rA bA hrA hrn hbA]
    have hat := hwf.indexInv.2.2 ruleTarget hrt rA hrA hrn
    rw [hbA] at hat
    have hpos := hdepth bA ⟨rA.Name, hat⟩
    obtain ⟨n, hn⟩ : ∃ n, depth = n + 1 := ⟨depth - 1, by omega⟩
    rw [hn]
    unfold refDigest
    rw [refPreimage_succ, hdA, hin, hseed]
    simp
  · rw [f2 sourceTarget hst sf hsf hsn]
    rw [NewBazelSourceFileTarget_noWorkingDirectory] at hsrc
    simp only [Exec.ret.injEq, Option.some.injEq, and_true] at hsrc
    have hsc : sourceContribution table sf.Name = Sum256 (d1 ++ sf.Name) := by
      unfold sourceContribution
      rw [htable, ← hsrc]
    rw [hsc, hseed, List.append_nil]

/-- C9, amended, on the sample query result. -/
theorem no_input_rule_and_source_entries_witness :
    WellFormedQuery exClient exTargets ∧ Acyclic (indexOf exClient exTargets) exRank ∧
    (∀ b, InGraph (indexOf exClient exTargets) b → exRank b.GetName < 2) ∧
    ¬ SomeDigestFails exClient exTargets ∧
    NewBazelSourceFileTarget sha256 exHost exNameS [7] exClient.filesystem [] =
      .ret (some ⟨exNameS, sha256 ([7] ++ exNameS)⟩) none ∧
    exBuiltTable.get exNameS = some ⟨exNameS, sha256 ([7] ++ exNameS)⟩ ∧
    ∃ snap, hashAllTargets sha256 exClient 2 (some []) exBuiltTable = .ret (some snap) none ∧
      snap.get exNameA = some (convertByteArrayToString (sha256 [1])) ∧
      snap.get exNameS =
        some (convertByteArrayToString (sha256 (sha256 ([7] ++ exNameS)))) :=
  have hdig : ¬ SomeDigestFails exClient exTargets := by
    rintro ⟨target, htg, r, b, hr, _, hb, hfail⟩
    apply hfail
    simp only [exClient, exProvider, Option.map_some', Option.some.injEq] at hb
    rw [← hb]
  ⟨exClient_wellFormed, exIndex_acyclic, exIndex_depth, hdig,
    NewBazelSourceFileTarget_noWorkingDirectory _ _ _ _ _, rfl,
    no_input_rule_and_source_entries sha256 exHost exClient.filesystem exClient 2 (some [])
      exBuiltTable exTargets exRank exClient_wellFormed exIndex_acyclic exIndex_depth hdig rfl
      ⟨some ⟨exNameA, [1]⟩, none, none⟩ (by decide) ⟨exNameA, [1]⟩ exRuleA [1] rfl (by decide)
      rfl rfl rfl ⟨none, some ⟨exNameS⟩, none⟩ (by decide) ⟨exNameS⟩ [7]
      ⟨exNameS, sha256 ([7] ++ exNameS)⟩ rfl (by decide)
      (NewBazelSourceFileTarget_noWorkingDirectory _ _ _ _ _) rfl⟩

/-! ## The digest of a rule that need not be a rule of the graph -/

/-- From the empty cache, the digest of any rule whose declared digest is
available and whose inputs resolve to rules of rank below the depth budget is
the hash of its reference byte string. -/
theorem createDigestForRule_fresh (Sum256 : Bytes → Bytes) (idx : GoMap (Option BazelRule))
    (table : GoMap BazelSourceFileTarget) (seed : Option Bytes) (rank : GoString → Nat)
    (hacyc : Acyclic idx rank) (hnamed : NamedIndex idx) (hdig : DigestsKnown idx) (n : Nat)
    (R : BazelRule) (hgd : R.GetDigest.2 = none)
    (hin : ∀ i ∈ R.GetRuleInputList, ∀ r2, ruleAt idx i = some r2 → r2.GetName ≠ [] →
      r2.GetName ≠ R.GetName → rank r2.GetName < n) :
    ∃ c2, createDigestForRule Sum256 idx table seed (n + 1) (some R) GoMap.empty =
      (.ret (some (Sum256 (refPreimage Sum256 idx table seed (n + 1) R))) none, c2) := by
  rcases hrd : R.GetDigest with ⟨rd, err⟩
  rw [hrd] at hgd
  simp only at hgd
  subst hgd
  obtain ⟨c2, _, h1⟩ := foldRuleInputs_ref Sum256 idx table seed rank n
    (fun r c hr hlt hc => createDigestForRule_total Sum256 idx table seed rank hacyc hnamed n r c
      hr hlt hc)
    R.GetName R.GetRuleInputList hin (writeIfNotNil ([] ++ rd) seed) GoMap.empty
    (cacheSound_empty _ _ _ _ _)
  have hpre : writeIfNotNil ([] ++ rd) seed ++ (R.GetRuleInputList.map (fun i =>
        i ++ refContribution (refDigest Sum256 idx table seed n) idx table
          R.GetName i)).flatten = refPreimage Sum256 idx table seed (n + 1) R := by
    rw [refPreimage_succ, writeIfNotNil_eq, hrd]
    simp only [List.nil_append]
  rw [hpre] at h1
  rcases h1 with h1 | ⟨e, h1⟩
  · refine ⟨c2.set R.GetName (Sum256 (refPreimage Sum256 idx table seed (n + 1) R)), ?_⟩
    simp only [createDigestForRule, GoMap.get_empty, hrd, h1]
  · exfalso
    have hg := (foldRuleInputs_general idx table (createDigestForRule Sum256 idx table seed n)
      (fun r2 c3 h2 =>
        ⟨(createDigestForRule_general Sum256 idx table seed n r2 c3 h2).1,
          (createDigestForRule_general Sum256 idx table seed n r2 c3 h2).2.1,
          (createDigestForRule_general Sum256 idx table seed n r2 c3 h2).2.2.1⟩)
      R.GetName R.GetRuleInputList (writeIfNotNil ([] ++ rd) seed) GoMap.empty).2.2
      (.ret none (some e)) (by rw [h1])
    obtain ⟨b, hb, hbe⟩ := (hg.2 none e rfl).2
    have := hdig b hb
    rw [hbe] at this
    exact absurd this (by simp)

/-! ## C4: a self-referential input -/

set_option maxRecDepth 100000 in
/-- C4 as stated fails: on the sample graph, with SHA-256, rule `B` lists
itself, and its digest is not the digest of the rule of the same name and
declared digest whose input list is that of `B` without the self-reference. -/
theorem selfReference_changes_digest :
    exNameB ∈ exRuleB.GetRuleInputList ∧
    (createDigestForRule sha256 (indexOf exClient exTargets) (exTable [7]) none 2
        (some exRuleB) GoMap.empty).1 =
      .ret (some (refDigest sha256 (indexOf exClient exTargets) (exTable [7]) none 2 exRuleB))
        none ∧
    (createDigestForRule sha256 (indexOf exClient exTargets) (exTable [7]) none 2
        (some ⟨exNameB, ([2], none), [exNameA, exNameS]⟩) GoMap.empty).1 =
      .ret (some (refDigest sha256 (indexOf exClient exTargets) (exTable [7]) none 2
        ⟨exNameB, ([2], none), [exNameA, exNameS]⟩)) none ∧
    refDigest sha256 (indexOf exClient exTargets) (exTable [7]) none 2 exRuleB ≠
      refDigest sha256 (indexOf exClient exTargets) (exTable [7]) none 2
        ⟨exNameB, ([2], none), [exNameA, exNameS]⟩ := by
  decide!

/-- C4, amended. For every rule `R` of an acyclic, uniquely named graph whose
declared digests are available, `createDigestForRule` hashes for `R` the
declared digest, the seed and one block of bytes per input, and for the rule
of the same name and declared digest without the self-references it hashes
the same blocks without those of the self-references; the block of a
self-reference is its name bytes followed by its source-table digest (empty
when the name is not in the source table), and is not recursed into. -/
theorem selfReference_adds_name_bytes (Sum256 : Bytes → Bytes)
    (idx : GoMap (Option BazelRule)) (table : GoMap BazelSourceFileTarget)
    (seed : Option Bytes) (rank : GoString → Nat) (hacyc : Acyclic idx rank)
    (hnamed : NamedIndex idx) (hdig : DigestsKnown idx) (n : Nat) (R : BazelRule)
    (hR : InGraph idx R) (hdepth : rank R.GetName ≤ n) :
    ∃ c1 c2,
      createDigestForRule Sum256 idx table seed (n + 1) (some R) GoMap.empty =
        (.ret (some (Sum256 (R.GetDigest.1 ++ seed.getD [] ++
          (R.GetRuleInputList.map (fun i =>
            i ++ refContribution (refDigest Sum256 idx table seed n) idx table
              R.GetName i)).flatten))) none, c1) ∧
      createDigestForRule Sum256 idx table seed (n + 1)
          (some ⟨R.GetName, R.GetDigest,
            R.GetRuleInputList.filter (fun i => decide (i ≠ R.GetName))⟩) GoMap.empty =
        (.ret (some (Sum256 (R.GetDigest.1 ++ seed.getD [] ++
          ((R.GetRuleInputList.filter (fun i => decide (i ≠ R.GetName))).map (fun i =>
            i ++ refContribution (refDigest Sum256 idx table seed n) idx table
              R.GetName i)).flatten))) none, c2) ∧
      R.GetName ++ refContribution (refDigest Sum256 idx table seed n) idx table
          R.GetName R.GetName =
        R.GetName ++ sourceContribution table R.GetName := by
  have hin : ∀ i ∈ R.GetRuleInputList, ∀ r2, ruleAt idx i = some r2 → r2.GetName ≠ [] →
      r2.GetName ≠ R.GetName → rank r2.GetName < n := by
    intro i hi r2 h2 hne hself
    have := hacyc R hR i hi r2 h2 hne hself
    omega
  obtain ⟨c1, h1⟩ := createDigestForRule_fresh Sum256 idx table seed rank hacyc hnamed hdig n R
    (hdig R hR) hin
  obtain ⟨c2, h2⟩ := createDigestForRule_fresh Sum256 idx table seed rank hacyc hnamed hdig n
    ⟨R.GetName, R.GetDigest, R.GetRuleInputList.filter (fun i => decide (i ≠ R.GetName))⟩
    (hdig R hR) (fun i hi => hin i (List.mem_of_mem_filter hi))
  refine ⟨c1, c2, h1, h2, ?_⟩
  unfold refContribution
  rw [hnamed R hR]
  simp

/-- C4, amended, on the sample graph: rule `B`, which lists itself. -/
theorem selfReference_adds_name_bytes_witness :
    Acyclic (indexOf exClient exTargets) exRank ∧ NamedIndex (indexOf exClient exTargets) ∧
    DigestsKnown (indexOf exClient exTargets) ∧ InGraph (indexOf exClient exTargets) exRuleB ∧
    exRank exRuleB.GetName ≤ 1 ∧
    ∃ c1 c2,
      createDigestForRule sha256 (indexOf exClient exTargets) (exTable [7]) none (1 + 1)
          (some exRuleB) GoMap.empty =
        (.ret (some (sha256 (exRuleB.GetDigest.1 ++ (none : Option Bytes).getD [] ++
          (exRuleB.GetRuleInputList.map (fun i =>
            i ++ refContribution (refDigest sha256 (indexOf exClient exTargets) (exTable [7])
              none 1) (indexOf exClient exTargets) (exTable [7])
              exRuleB.GetName i)).flatten))) none, c1) ∧
      createDigestForRule sha256 (indexOf exClient exTargets) (exTable [7]) none (1 + 1)
          (some ⟨exRuleB.GetName, exRuleB.GetDigest,
            exRuleB.GetRuleInputList.filter (fun i => decide (i ≠ exRuleB.GetName))⟩)
          GoMap.empty =
        (.ret (some (sha256 (exRuleB.GetDigest.1 ++ (none : Option Bytes).getD [] ++
          ((exRuleB.GetRuleInputList.filter (fun i => decide (i ≠ exRuleB.GetName))).map
            (fun i =>
              i ++ refContribution (refDigest sha256 (indexOf exClient exTargets)
                (exTable [7]) none 1) (indexOf exClient exTargets) (exTable [7])
                exRuleB.GetName i)).flatten))) none, c2) ∧
      exRuleB.GetName ++ refContribution (refDigest sha256 (indexOf exClient exTargets)
          (exTable [7]) none 1) (indexOf exClient exTargets) (exTable [7])
          exRuleB.GetName exRuleB.GetName =
        exRuleB.GetName ++ sourceContribution (exTable [7]) exRuleB.GetName :=
  ⟨exIndex_acyclic, exIndex_named, exIndex_known, exIndex_inGraphB, by decide,
    selfReference_adds_name_bytes sha256 (indexOf exClient exTargets) (exTable [7]) none exRank
      exIndex_acyclic exIndex_named exIndex_known 1 exRuleB exIndex_inGraphB (by decide)⟩

/-! ## C5: the order of the inputs -/

set_option maxRecDepth 100000 in
/-- C5 as stated fails: the rules `exRuleX1` and `exRuleX2` have the same
declared digest and the same inputs in different orders, the inputs resolve to
neither a rule nor a source file, and with SHA-256 `createDigestForRule`
returns one and the same digest for both, because the name bytes `a`, `aa` and
`aa`, `a` concatenate to the same byte string. -/
theorem reordered_inputs_same_digest :
    exRuleX1.GetDigest = exRuleX2.GetDigest ∧
    exRuleX1.GetRuleInputList.Perm exRuleX2.GetRuleInputList ∧
    exRuleX1.GetRuleInputList ≠ exRuleX2.GetRuleInputList ∧
    (createDigestForRule sha256 GoMap.empty GoMap.empty none 1 (some exRuleX1) GoMap.empty).1 =
      .ret (some (sha256 [1, 97, 97, 97])) none ∧
    (createDigestForRule sha256 GoMap.empty GoMap.empty none 1 (some exRuleX2) GoMap.empty).1 =
      .ret (some (sha256 [1, 97, 97, 97])) none := by
  decide!

theorem hasPrefix_append (p t : GoString) : hasPrefix (p ++ t) p = true := by
  induction p with
  | nil => cases t <;> rfl
  | cons a p ih => simp [hasPrefix, ih]

/-- Blocks that start with their name are told apart by names none of which
extends another: two name lists of one length with the same concatenated
blocks are equal. -/
theorem blocks_injective (c : GoString → Bytes) (names : List GoString)
    (hpf : ∀ a ∈ names, ∀ b ∈ names, hasPrefix b a = true → a = b) :
    ∀ l1 l2 : List GoString, (∀ a ∈ l1, a ∈ names) → (∀ b ∈ l2, b ∈ names) →
      l1.length = l2.length →
      (l1.map (fun i => i ++ c i)).flatten = (l2.map (fun i => i ++ c i)).flatten →
      l1 = l2 := by
  intro l1
  induction l1 with
  | nil =>
    intro l2 _ _ hlen _
    cases l2 with
    | nil => rfl
    | cons b t => simp at hlen
  | cons a t1 ih =>
    intro l2 h1 h2 hlen heq
    cases l2 with
    | nil => simp at hlen
    | cons b t2 =>
      have ha := h1 a (List.mem_cons_self _ _)
      have hb := h2 b (List.mem_cons_self _ _)
      simp only [List.map_cons, List.flatten_cons, List.append_assoc] at heq
      have hab : a = b := by
        rcases List.append_eq_append_iff.1 heq with ⟨t, h, _⟩ | ⟨t, h, _⟩
        · exact hpf a ha b hb (by rw [h]; exact hasPrefix_append a t)
        · exact (hpf b hb a ha (by rw [h]; exact hasPrefix_append b t)).symm
      subst hab
      have htail := List.append_cancel_left (List.append_cancel_left heq)
      rw [ih t2 (fun x hx => h1 x (List.mem_cons_of_mem _ hx))
        (fun x hx => h2 x (List.mem_cons_of_mem _ hx)) (by simpa using hlen) htail]

/-- C5, amended. Let two rules have the same declared digest and list the same
inputs in different orders, over an acyclic, uniquely named graph with the
same index, source table and seed. If no input name extends another input
name, and the two rules have the same name or no input resolves to a rule
named like one of them, then the byte strings `createDigestForRule` hashes for
the two rules differ, and so do the digests when the hash is collision-free. -/
theorem reordered_inputs_differ (Sum256 : Bytes → Bytes) (idx : GoMap (Option BazelRule))
    (table : GoMap BazelSourceFileTarget) (seed : Option Bytes) (rank : GoString → Nat)
    (hacyc : Acyclic idx rank) (hnamed : NamedIndex idx) (hdig : DigestsKnown idx) (n : Nat)
    (R1 R2 : BazelRule) (hgd1 : R1.GetDigest.2 = none) (hsame : R1.GetDigest = R2.GetDigest)
    (hin1 : ∀ i ∈ R1.GetRuleInputList, ∀ r2, ruleAt idx i = some r2 → r2.GetName ≠ [] →
      r2.GetName ≠ R1.GetName → rank r2.GetName < n)
    (hin2 : ∀ i ∈ R2.GetRuleInputList, ∀ r2, ruleAt idx i = some r2 → r2.GetName ≠ [] →
      r2.GetName ≠ R2.GetName → rank r2.GetName < n)
    (hperm : R1.GetRuleInputList.Perm R2.GetRuleInputList)
    (horder : R1.GetRuleInputList ≠ R2.GetRuleInputList)
    (hpf : ∀ a ∈ R1.GetRuleInputList, ∀ b ∈ R1.GetRuleInputList, hasPrefix b a = true → a = b)
    (hctx : R1.GetName = R2.GetName ∨
      ∀ i ∈ R1.GetRuleInputList, ∀ r2, ruleAt idx i = some r2 →
        r2.GetName ≠ R1.GetName ∧ r2.GetName ≠ R2.GetName) :
    ∃ c1 c2,
      createDigestForRule Sum256 idx table seed (n + 1) (some R1) GoMap.empty =
        (.ret (some (Sum256 (refPreimage Sum256 idx table seed (n + 1) R1))) none, c1) ∧
      createDigestForRule Sum256 idx table seed (n + 1) (some R2) GoMap.empty =
        (.ret (some (Sum256 (refPreimage Sum256 idx table seed (n + 1) R2))) none, c2) ∧
      refPreimage Sum256 idx table seed (n + 1) R1 ≠
        refPreimage Sum256 idx table seed (n + 1) R2 ∧
      (Function.Injective Sum256 →
        Sum256 (refPreimage Sum256 idx table seed (n + 1) R1) ≠
          Sum256 (refPreimage Sum256 idx table seed (n + 1) R2)) := by
  obtain ⟨c1, h1⟩ := createDigestForRule_fresh Sum256 idx table seed rank hacyc hnamed hdig n R1
    hgd1 hin1
  obtain ⟨c2, h2⟩ := createDigestForRule_fresh Sum256 idx table seed rank hacyc hnamed hdig n R2
    (hsame ▸ hgd1) hin2
  have hblock : ∀ i ∈ R2.GetRuleInputList,
      refContribution (refDigest Sum256 idx table seed n) idx table R2.GetName i =
        refContribution (refDigest Sum256 idx table seed n) idx table R1.GetName i := by
    intro i hi
    rcases hctx with hname | hno
    · rw [hname]
    · unfold refContribution
      cases hat : ruleAt idx i with
      | none => rfl
      | some r2 =>
        obtain ⟨n1, n2⟩ := hno i (hperm.mem_iff.2 hi) r2 hat
        simp [n1, n2]
  have hne : refPreimage Sum256 idx table seed (n + 1) R1 ≠
      refPreimage Sum256 idx table seed (n + 1) R2 := by
    intro heq
    rw [refPreimage_succ, refPreimage_succ, ← hsame] at heq
    have heq2 := List.append_cancel_left heq
    have hmap : R2.GetRuleInputList.map (fun i =>
          i ++ refContribution (refDigest Sum256 idx table seed n) idx table R2.GetName i) =
        R2.GetRuleInputList.map (fun i =>
          i ++ refContribution (refDigest Sum256 idx table seed n) idx table R1.GetName i) :=
      List.map_congr_left (fun i hi => by rw [hblock i hi])
    rw [hmap] at heq2
    exact horder (blocks_injective
      (refContribution (refDigest Sum256 idx table seed n) idx table R1.GetName)
      R1.GetRuleInputList hpf R1.GetRuleInputList R2.GetRuleInputList (fun _ h => h)
      (fun b hb => hperm.mem_iff.2 hb) hperm.length_eq heq2)
  exact ⟨c1, c2, h1, h2, hne, fun hinj h => hne (hinj h)⟩

theorem exRuleY_inputs_below (l : List GoString) (name : GoString)
    (h : ∀ i ∈ l, ∀ r2 ∈ ruleAt (indexOf exClient exTargets) i, r2.GetName ≠ [] →
      r2.GetName ≠ name → exRank r2.GetName < 1) :
    ∀ i ∈ l, ∀ r2, ruleAt (indexOf exClient exTargets) i = some r2 → r2.GetName ≠ [] →
      r2.GetName ≠ name → exRank r2.GetName < 1 :=
  fun i hi r2 h2 => h i hi r2 (Option.mem_def.2 h2)

theorem exRuleY_unrelated :
    ∀ i ∈ exRuleY1.GetRuleInputList, ∀ r2, ruleAt (indexOf exClient exTargets) i = some r2 →
      r2.GetName ≠ exRuleY1.GetName ∧ r2.GetName ≠ exRuleY2.GetName := by
  have h : ∀ i ∈ exRuleY1.GetRuleInputList, ∀ r2 ∈ ruleAt (indexOf exClient exTargets) i,
      r2.GetName ≠ exRuleY1.GetName ∧ r2.GetName ≠ exRuleY2.GetName := by
    rw [exIndex_eq]
    decide
  exact fun i hi r2 h2 => h i hi r2 (Option.mem_def.2 h2)

/-- C5, amended, on the sample graph: the inputs `A`, `s1` and `s1`, `A`. -/
theorem reordered_inputs_differ_witness :
    Acyclic (indexOf exClient exTargets) exRank ∧ NamedIndex (indexOf exClient exTargets) ∧
    DigestsKnown (indexOf exClient exTargets) ∧ exRuleY1.GetDigest.2 = none ∧
    exRuleY1.GetDigest = exRuleY2.GetDigest ∧
    exRuleY1.GetRuleInputList.Perm exRuleY2.GetRuleInputList ∧
    exRuleY1.GetRuleInputList ≠ exRuleY2.GetRuleInputList ∧
    (∀ a ∈ exRuleY1.GetRuleInputList, ∀ b ∈ exRuleY1.GetRuleInputList,
      hasPrefix b a = true → a = b) ∧
    ∃ c1 c2,
      createDigestForRule sha256 (indexOf exClient exTargets) (exTable [7]) none (1 + 1)
          (some exRuleY1) GoMap.empty =
        (.ret (some (sha256 (refPreimage sha256 (indexOf exClient exTargets) (exTable [7]) none
          (1 + 1) exRuleY1))) none, c1) ∧
      createDigestForRule sha256 (indexOf exClient exTargets) (exTable [7]) none (1 + 1)
          (some exRuleY2) GoMap.empty =
        (.ret (some (sha256 (refPreimage sha256 (indexOf exClient exTargets) (exTable [7]) none
          (1 + 1) exRuleY2))) none, c2) ∧
      refPreimage sha256 (indexOf exClient exTargets) (exTable [7]) none (1 + 1) exRuleY1 ≠
        refPreimage sha256 (indexOf exClient exTargets) (exTable [7]) none (1 + 1) exRuleY2 ∧
      (Function.Injective sha256 →
        sha256 (refPreimage sha256 (indexOf exClient exTargets) (exTable [7]) none (1 + 1)
            exRuleY1) ≠
          sha256 (refPreimage sha256 (indexOf exClient exTargets) (exTable [7]) none (1 + 1)
            exRuleY2)) :=
  ⟨exIndex_acyclic, exIndex_named, exIndex_known, rfl, rfl, by decide, by decide, by decide,
    reordered_inputs_differ sha256 (indexOf exClient exTargets) (exTable [7]) none exRank
      exIndex_acyclic exIndex_named exIndex_known 1 exRuleY1 exRuleY2 rfl rfl
      (exRuleY_inputs_below _ _ (by rw [exIndex_eq]; decide))
      (exRuleY_inputs_below _ _ (by rw [exIndex_eq]; decide))
      (by decide) (by decide) (by decide) (Or.inr exRuleY_unrelated)⟩

/-! ## The hex encoding is injective -/

set_option maxRecDepth 100000 in
theorem hexPair_decode : ∀ b : Byte,
    16 * HexArray.indexOf (HexArray.getD ((b.val &&& 0xFF) >>> 4) 0) +
      HexArray.indexOf (HexArray.getD ((b.val &&& 0xFF) &&& 0x0F) 0) = b.val := by
  decide!

theorem convertByteArrayToString_injective :
    ∀ a b : Bytes, convertByteArrayToString a = convertByteArrayToString b → a = b := by
  intro a
  induction a with
  | nil =>
    intro b h
    cases b with
    | nil => rfl
    | cons y ys => simp [convertByteArrayToString] at h
  | cons x xs ih =>
    intro b h
    cases b with
    | nil => simp [convertByteArrayToString] at h
    | cons y ys =>
      simp only [convertByteArrayToString, List.cons.injEq] at h
      obtain ⟨h1, h2, h3⟩ := h
      have hx := hexPair_decode x
      have hy := hexPair_decode y
      rw [h1, h2, hy] at hx
      rw [Fin.ext hx.symm, ih ys h3]

/-! ## The seed -/

theorem readSeedFiles_ok (filesys : FS) :
    ∀ (paths : List GoString) (buffer : Bytes), (∀ q ∈ paths, (filesys.ReadFile q).2 = none) →
      readSeedFiles filesys paths buffer = .running (buffer ++ seedPreimage filesys paths) := by
  intro paths
  induction paths with
  | nil =>
    intro buffer _
    simp [readSeedFiles, seedPreimage]
  | cons q rest ih =>
    intro buffer h
    rcases hq : filesys.ReadFile q with ⟨data, err⟩
    have herr : err = none := by
      have := h q (List.mem_cons_self _ _)
      rw [hq] at this
      exact this
    subst herr
    simp only [readSeedFiles, hq]
    rw [ih _ (fun x hx => h x (List.mem_cons_of_mem _ hx))]
    simp [seedPreimage, hq]

theorem createSeedForFilepaths_ok (Sum256 : Bytes → Bytes) (filesys : FS)
    (paths : List GoString) (hne : paths ≠ [])
    (h : ∀ q ∈ paths, (filesys.ReadFile q).2 = none) :
    createSeedForFilepaths Sum256 filesys paths =
      .ret (some (Sum256 (seedPreimage filesys paths))) none := by
  have hlen : ¬ paths.length = 0 := fun h0 => hne (List.length_eq_zero.1 h0)
  simp only [createSeedForFilepaths, if_neg hlen, readSeedFiles_ok filesys paths [] h,
    List.nil_append]

theorem seedPreimage_length (fs1 fs2 : FS) (p : GoString) :
    ∀ paths : List GoString,
      (∀ q ∈ paths, q ≠ p → (fs1.ReadFile q).1 = (fs2.ReadFile q).1) →
      (seedPreimage fs1 paths).length + paths.count p * (fs2.ReadFile p).1.length =
        (seedPreimage fs2 paths).length + paths.count p * (fs1.ReadFile p).1.length := by
  intro paths
  induction paths with
  | nil => intro _; simp [seedPreimage]
  | cons q rest ih =>
    intro h
    have ih2 := ih (fun x hx => h x (List.mem_cons_of_mem _ hx))
    simp only [seedPreimage, List.map_cons, List.flatten_cons, List.length_append] at ih2 ⊢
    by_cases hq : q = p
    · subst hq
      rw [List.count_cons_self, Nat.succ_mul, Nat.succ_mul]
      omega
    · rw [List.count_cons_of_ne (fun e => hq e.symm), h q (List.mem_cons_self _ _) hq]
      omega

theorem seedPreimage_ne_of_length (fs1 fs2 : FS) (p : GoString)
    (hlen : (fs1.ReadFile p).1.length = (fs2.ReadFile p).1.length)
    (hdiff : (fs1.ReadFile p).1 ≠ (fs2.ReadFile p).1) :
    ∀ paths : List GoString, p ∈ paths →
      (∀ q ∈ paths, q ≠ p → (fs1.ReadFile q).1 = (fs2.ReadFile q).1) →
      seedPreimage fs1 paths ≠ seedPreimage fs2 paths := by
  intro paths
  induction paths with
  | nil => intro h; exact absurd h (List.not_mem_nil _)
  | cons q rest ih =>
    intro hp h heq
    simp only [seedPreimage, List.map_cons, List.flatten_cons] at heq
    by_cases hq : q = p
    · subst hq
      exact hdiff (List.append_inj heq hlen).1
    · rw [h q (List.mem_cons_self _ _) hq] at heq
      have hp2 : p ∈ rest := by
        rcases List.mem_cons.1 hp with e | e
        · exact absurd e.symm hq
        · exact e
      exact ih hp2 (fun x hx => h x (List.mem_cons_of_mem _ hx)) (List.append_cancel_left heq)

/-- The seed byte strings of two filesystems that differ in the content of
exactly one seeded file differ. -/
theorem seedPreimage_ne (fs1 fs2 : FS) (p : GoString) (paths : List GoString) (hp : p ∈ paths)
    (hsame : ∀ q ∈ paths, q ≠ p → (fs1.ReadFile q).1 = (fs2.ReadFile q).1)
    (hdiff : (fs1.ReadFile p).1 ≠ (fs2.ReadFile p).1) :
    seedPreimage fs1 paths ≠ seedPreimage fs2 paths := by
  by_cases hlen : (fs1.ReadFile p).1.length = (fs2.ReadFile p).1.length
  · exact seedPreimage_ne_of_length fs1 fs2 p hlen hdiff paths hp hsame
  · intro heq
    have h := seedPreimage_length fs1 fs2 p paths hsame
    rw [heq] at h
    have hc : 0 < paths.count p := List.count_pos_iff.2 hp
    have h2 : paths.count p * (fs2.ReadFile p).1.length =
        paths.count p * (fs1.ReadFile p).1.length := by omega
    exact hlen (Nat.eq_of_mul_eq_mul_left hc h2).symm

theorem append_mid_ne (a x y X Y : Bytes) (hlen : x.length = y.length) (hne : x ≠ y) :
    a ++ x ++ X ≠ a ++ y ++ Y := by
  intro h
  rw [List.append_assoc, List.append_assoc] at h
  exact hne (List.append_inj (List.append_cancel_left h) hlen).1

/-! ## C6: the seed is folded into every digest -/

theorem SameKeys.set {V W : Type} {m1 : GoMap V} {m2 : GoMap W} (h : SameKeys m1 m2)
    (k : GoString) (v : V) (w : W) : SameKeys (m1.set k v) (m2.set k w) := by
  intro k2
  rw [GoMap.get_set, GoMap.get_set]
  by_cases e : k = k2
  · simp [e]
  · simp only [if_neg e]
    exact h k2

theorem SameKeys.some {V W : Type} {m1 : GoMap V} {m2 : GoMap W} (h : SameKeys m1 m2)
    {k : GoString} {v : V} (hv : m1.get k = some v) : ∃ w, m2.get k = some w := by
  cases hw : m2.get k with
  | some w => exact ⟨w, rfl⟩
  | none =>
    rw [(h k).2 hw] at hv
    exact absurd hv (by simp)

section SeedShape

variable (Sum256 : Bytes → Bytes) (idx : GoMap (Option BazelRule))
  (table : GoMap BazelSourceFileTarget)

theorem foldRuleInputs_sameShape
    (recur1 recur2 : Option BazelRule → GoMap Bytes → Exec (Option Bytes) × GoMap Bytes)
    (hrec : ∀ r c1 c2, SameKeys c1 c2 →
      SameKeys (recur1 (some r) c1).2 (recur2 (some r) c2).2 ∧
        SameShape (recur1 (some r) c1).1 (recur2 (some r) c2).1)
    (ruleName : GoString) :
    ∀ (inputs : List GoString) (buf1 buf2 : Bytes) (c1 c2 : GoMap Bytes), SameKeys c1 c2 →
      SameKeys (foldRuleInputs recur1 idx table ruleName inputs buf1 c1).2
          (foldRuleInputs recur2 idx table ruleName inputs buf2 c2).2 ∧
        SameFlow (foldRuleInputs recur1 idx table ruleName inputs buf1 c1).1
          (foldRuleInputs recur2 idx table ruleName inputs buf2 c2).1 := by
  intro inputs
  induction inputs with
  | nil =>
    intro buf1 buf2 c1 c2 h
    exact ⟨h, trivial⟩
  | cons i rest ihl =>
    intro buf1 buf2 c1 c2 h
    rcases hsd : getDigestForSourceTargetName i table with ⟨sd, err⟩
    have herr : err = none := by
      have := getDigestForSourceTargetName_snd i table
      rw [hsd] at this
      exact this
    subst herr
    cases hidx : ruleAt idx i with
    | none =>
      simp only [foldRuleInputs, hsd, hidx]
      exact ihl _ _ c1 c2 h
    | some r =>
      by_cases hcond : r.GetName ≠ [] ∧ ¬ (r.GetName = ruleName)
      · simp only [foldRuleInputs, hsd, hidx, if_pos hcond]
        have hr := hrec r c1 c2 h
        rcases h1 : recur1 (some r) c1 with ⟨res1, d1⟩
        rcases h2 : recur2 (some r) c2 with ⟨res2, d2⟩
        rw [h1, h2] at hr
        obtain ⟨hk, hs⟩ := hr
        cases res1 with
        | ret v e =>
          cases res2 with
          | ret w f =>
            simp only [SameShape] at hs
            obtain ⟨_, hef⟩ := hs
            subst hef
            cases e with
            | some err => exact ⟨hk, by simp [SameFlow, SameShape]⟩
            | none => exact ihl _ _ d1 d2 hk
          | panic => simp [SameShape] at hs
          | timeout => simp [SameShape] at hs
        | panic =>
          cases res2 with
          | ret w f => simp [SameShape] at hs
          | panic => exact ⟨hk, by simp [SameFlow, SameShape]⟩
          | timeout => simp [SameShape] at hs
        | timeout =>
          cases res2 with
          | ret w f => simp [SameShape] at hs
          | panic => simp [SameShape] at hs
          | timeout => exact ⟨hk, by simp [SameFlow, SameShape]⟩
      · simp only [foldRuleInputs, hsd, hidx, if_neg hcond]
        exact ihl _ _ c1 c2 h

/-- Whether `createDigestForRule` returns a digest, which error it returns and
under which keys the cache holds entries does not depend on the seed. -/
theorem createDigestForRule_sameShape (seed1 seed2 : Option Bytes) :
    ∀ (depth : Nat) (o : Option BazelRule) (c1 c2 : GoMap Bytes), SameKeys c1 c2 →
      SameKeys (createDigestForRule Sum256 idx table seed1 depth o c1).2
          (createDigestForRule Sum256 idx table seed2 depth o c2).2 ∧
        SameShape (createDigestForRule Sum256 idx table seed1 depth o c1).1
          (createDigestForRule Sum256 idx table seed2 depth o c2).1 := by
  intro depth
  induction depth with
  | zero =>
    intro o c1 c2 h
    exact ⟨h, trivial⟩
  | succ n ih =>
    intro o c1 c2 h
    cases o with
    | none => exact ⟨h, trivial⟩
    | some r =>
      cases hget : c1.get r.GetName with
      | some d =>
        obtain ⟨d2, hget2⟩ := h.some hget
        simp only [createDigestForRule, hget, hget2]
        exact ⟨h, by simp [SameShape]⟩
      | none =>
        have hget2 := (h r.GetName).1 hget
        rcases hgd : r.GetDigest with ⟨rd, err⟩
        cases err with
        | some e =>
          simp only [createDigestForRule, hget, hget2, hgd]
          exact ⟨h, by simp [SameShape]⟩
        | none =>
          have hf := foldRuleInputs_sameShape idx table
            (createDigestForRule Sum256 idx table seed1 n)
            (createDigestForRule Sum256 idx table seed2 n)
            (fun r2 d1 d2 hd => ih (some r2) d1 d2 hd)
            r.GetName r.GetRuleInputList (writeIfNotNil ([] ++ rd) seed1)
            (writeIfNotNil ([] ++ rd) seed2) c1 c2 h
          rcases hf1 : foldRuleInputs (createDigestForRule Sum256 idx table seed1 n) idx table
            r.GetName r.GetRuleInputList (writeIfNotNil ([] ++ rd) seed1) c1 with ⟨fl1, d1⟩
          rcases hf2 : foldRuleInputs (createDigestForRule Sum256 idx table seed2 n) idx table
            r.GetName r.GetRuleInputList (writeIfNotNil ([] ++ rd) seed2) c2 with ⟨fl2, d2⟩
          rw [hf1, hf2] at hf
          obtain ⟨hk, hs⟩ := hf
          simp only [createDigestForRule, hget, hget2, hgd, hf1, hf2]
          cases fl1 with
          | returned x =>
            cases fl2 with
            | returned y => exact ⟨hk, hs⟩
            | running b => simp [SameFlow] at hs
          | running b =>
            cases fl2 with
            | returned y => simp [SameFlow] at hs
            | running b2 => exact ⟨hk.set _ _ _, by simp [SameShape]⟩

theorem createDigestForTarget_sameShape (t : targetHashingClient) (depth : Nat)
    (seed1 seed2 : Option Bytes) (target : Target) (c1 c2 : GoMap Bytes) (h : SameKeys c1 c2) :
    SameKeys (createDigestForTarget Sum256 t depth target idx table c1 seed1).2
        (createDigestForTarget Sum256 t depth target idx table c2 seed2).2 ∧
      SameShape (createDigestForTarget Sum256 t depth target idx table c1 seed1).1
        (createDigestForTarget Sum256 t depth target idx table c2 seed2).1 := by
  unfold createDigestForTarget
  by_cases hcond : target.SourceFile ≠ none ∧ getNameForTarget target ≠ []
  · simp only [if_pos hcond]
    rcases hsd : getDigestForSourceTargetName (getNameForTarget target) table with ⟨sd, err⟩
    cases err with
    | some e => exact ⟨h, by simp [SameShape]⟩
    | none => exact ⟨h, by simp [SameShape]⟩
  · simp only [if_neg hcond]
    cases hG : target.GeneratedFile with
    | some g =>
      simp only
      cases hget : c1.get g.GeneratingRule with
      | none =>
        rw [(h g.GeneratingRule).1 hget]
        exact ⟨h, by simp [SameShape]⟩
      | some d =>
        obtain ⟨d2, hget2⟩ := h.some hget
        rw [hget2]
        exact createDigestForRule_sameShape Sum256 idx table seed1 seed2 depth _ c1 c2 h
    | none =>
      exact createDigestForRule_sameShape Sum256 idx table seed1 seed2 depth _ c1 c2 h

theorem digestTargets_sameRun (t : targetHashingClient) (depth : Nat)
    (seed1 seed2 : Option Bytes) :
    ∀ (todo : List Target) (s1 s2 : GoMap GoString) (c1 c2 : GoMap Bytes),
      SameKeys s1 s2 → SameKeys c1 c2 →
      SameRun (digestTargets Sum256 t depth idx table seed1 todo (s1, c1))
        (digestTargets Sum256 t depth idx table seed2 todo (s2, c2)) := by
  intro todo
  induction todo with
  | nil =>
    intro s1 s2 c1 c2 hs hc
    rw [digestTargets_nil, digestTargets_nil]
    exact ⟨hs, hc⟩
  | cons target rest ih =>
    intro s1 s2 c1 c2 hs hc
    by_cases hn : getNameForTarget target = []
    · rw [digestTargets_skip Sum256 t idx table seed1 depth target rest _ hn,
        digestTargets_skip Sum256 t idx table seed2 depth target rest _ hn]
      exact ih s1 s2 c1 c2 hs hc
    · have hr := createDigestForTarget_sameShape Sum256 idx table t depth seed1 seed2 target
        c1 c2 hc
      rcases h1 : createDigestForTarget Sum256 t depth target idx table c1 seed1 with ⟨res1, d1⟩
      rcases h2 : createDigestForTarget Sum256 t depth target idx table c2 seed2 with ⟨res2, d2⟩
      rw [h1, h2] at hr
      obtain ⟨hk, hsh⟩ := hr
      cases res1 with
      | ret v e =>
        cases res2 with
        | ret w f =>
          simp only [SameShape] at hsh
          obtain ⟨hvw, hef⟩ := hsh
          subst hef
          cases e with
          | some err =>
            rw [digestTargets_err Sum256 t idx table seed1 depth target rest s1 c1 d1 v err hn h1,
              digestTargets_err Sum256 t idx table seed2 depth target rest s2 c2 d2 w err hn h2]
            exact ⟨rfl, by simp⟩
          | none =>
            rw [digestTargets_ok Sum256 t idx table seed1 depth target rest s1 c1 d1 v hn h1,
              digestTargets_ok Sum256 t idx table seed2 depth target rest s2 c2 d2 w hn h2]
            apply ih _ _ d1 d2 _ hk
            cases v with
            | none =>
              rw [hvw.1 rfl]
              exact hs
            | some x =>
              cases w with
              | none => exact absurd (hvw.2 rfl) (by simp)
              | some y => exact hs.set _ _ _
        | panic => simp [SameShape] at hsh
        | timeout => simp [SameShape] at hsh
      | panic =>
        cases res2 with
        | ret w f => simp [SameShape] at hsh
        | panic =>
          rw [digestTargets_panic Sum256 t idx table seed1 depth target rest s1 c1 d1 hn h1,
            digestTargets_panic Sum256 t idx table seed2 depth target rest s2 c2 d2 hn h2]
          exact ⟨rfl, by simp⟩
        | timeout => simp [SameShape] at hsh
      | timeout =>
        cases res2 with
        | ret w f => simp [SameShape] at hsh
        | panic => simp [SameShape] at hsh
        | timeout =>
          rw [digestTargets_timeout Sum256 t idx table seed1 depth target rest s1 c1 d1 hn h1,
            digestTargets_timeout Sum256 t idx table seed2 depth target rest s2 c2 d2 hn h2]
          exact ⟨rfl, by simp⟩

/-- Two snapshots of one query result, computed with two seeds, hold entries
under the same names. -/
theorem hashAllTargets_sameKeys (t : targetHashingClient) (depth : Nat)
    (seed1 seed2 : Option Bytes) (snap1 snap2 : GoMap GoString)
    (h1 : hashAllTargets Sum256 t depth seed1 table = .ret (some snap1) none)
    (h2 : hashAllTargets Sum256 t depth seed2 table = .ret (some snap2) none) :
    SameKeys snap1 snap2 := by
  rcases hq : t.bazelClient.QueryAllTargets with ⟨targets, err⟩
  cases err with
  | some e => simp [hashAllTargets, hq] at h1
  | none =>
    rw [hashAllTargets_eq Sum256 t depth _ table targets hq] at h1 h2
    have hrun := digestTargets_sameRun Sum256 (indexOf t targets) table t depth seed1 seed2
      targets GoMap.empty GoMap.empty GoMap.empty GoMap.empty (fun _ => Iff.rfl)
      (fun _ => Iff.rfl)
    rcases hd1 : digestTargets Sum256 t depth (indexOf t targets) table seed1 targets
      (GoMap.empty, GoMap.empty) with x | ⟨a1, b1⟩
    · rcases hd2 : digestTargets Sum256 t depth (indexOf t targets) table seed2 targets
        (GoMap.empty, GoMap.empty) with y | ⟨a2, b2⟩
      · rw [hd1, hd2] at hrun
        rw [hd1] at h1
        exact absurd h1 (hrun.2 snap1 none)
      · rw [hd1, hd2] at hrun
        exact absurd hrun (by simp [SameRun])
    · rcases hd2 : digestTargets Sum256 t depth (indexOf t targets) table seed2 targets
        (GoMap.empty, GoMap.empty) with y | ⟨a2, b2⟩
      · rw [hd1, hd2] at hrun
        exact absurd hrun (by simp [SameRun])
      · rw [hd1, hd2] at hrun
        rw [hd1] at h1
        rw [hd2] at h2
        simp only [Exec.ret.injEq, Option.some.injEq, and_true] at h1 h2
        rw [← h1, ← h2]
        exact hrun.1

end SeedShape

/-- C6. Fix a well-formed, acyclic query result whose declared digests are
available, a source table and a non-empty ordered list of readable seed paths,
and let two filesystems differ in the byte content of exactly one seeded file.
Then the byte strings `createSeedForFilepaths` hashes differ. With the hash
treated as collision-free on the pairs of byte strings of the two runs (the
two seed strings, the two strings of each rule, the two strings of each source
file) and of one output length on the two seed strings, the byte strings
hashed for every rule differ, the two snapshots of `hashAllTargets` run on the
two seed digests hold entries under the same names, every rule target and
every source-file target has an entry, and every target that has an entry, a
generated file included, has different entries in the two snapshots. -/
theorem seed_change_changes_every_entry (Sum256 : Bytes → Bytes)
    (t : targetHashingClient) (depth : Nat)
    (table : GoMap BazelSourceFileTarget) (targets : List Target) (rank : GoString → Nat)
    (hwf : WellFormedQuery t targets) (hacyc : Acyclic (indexOf t targets) rank)
    (hdepth : ∀ b, InGraph (indexOf t targets) b → rank b.GetName < depth)
    (hdig : ¬ SomeDigestFails t targets) (fs1 fs2 : FS) (paths : List GoString)
    (p : GoString) (hp : p ∈ paths) (hread1 : ∀ q ∈ paths, (fs1.ReadFile q).2 = none)
    (hread2 : ∀ q ∈ paths, (fs2.ReadFile q).2 = none)
    (hsame : ∀ q ∈ paths, q ≠ p → (fs1.ReadFile q).1 = (fs2.ReadFile q).1)
    (hdiff : (fs1.ReadFile p).1 ≠ (fs2.ReadFile p).1)
    (hlen : (Sum256 (seedPreimage fs1 paths)).length =
      (Sum256 (seedPreimage fs2 paths)).length)
    (hcfSeed : seedPreimage fs1 paths ≠ seedPreimage fs2 paths →
      Sum256 (seedPreimage fs1 paths) ≠ Sum256 (seedPreimage fs2 paths))
    (hcfRule : ∀ b, InGraph (indexOf t targets) b →
      refPreimage Sum256 (indexOf t targets) table (some (Sum256 (seedPreimage fs1 paths)))
          depth b ≠
        refPreimage Sum256 (indexOf t targets) table (some (Sum256 (seedPreimage fs2 paths)))
          depth b →
      Sum256 (refPreimage Sum256 (indexOf t targets) table
          (some (Sum256 (seedPreimage fs1 paths))) depth b) ≠
        Sum256 (refPreimage Sum256 (indexOf t targets) table
          (some (Sum256 (seedPreimage fs2 paths))) depth b))
    (hcfSource : ∀ target ∈ targets, ∀ sf ∈ target.SourceFile,
      sourceContribution table sf.Name ++ Sum256 (seedPreimage fs1 paths) ≠
        sourceContribution table sf.Name ++ Sum256 (seedPreimage fs2 paths) →
      Sum256 (sourceContribution table sf.Name ++ Sum256 (seedPreimage fs1 paths)) ≠
        Sum256 (sourceContribution table sf.Name ++ Sum256 (seedPreimage fs2 paths))) :
    seedPreimage fs1 paths ≠ seedPreimage fs2 paths ∧
    createSeedForFilepaths Sum256 fs1 paths =
      .ret (some (Sum256 (seedPreimage fs1 paths))) none ∧
    createSeedForFilepaths Sum256 fs2 paths =
      .ret (some (Sum256 (seedPreimage fs2 paths))) none ∧
    (∀ b, InGraph (indexOf t targets) b →
      refPreimage Sum256 (indexOf t targets) table (some (Sum256 (seedPreimage fs1 paths)))
          depth b ≠
        refPreimage Sum256 (indexOf t targets) table (some (Sum256 (seedPreimage fs2 paths)))
          depth b) ∧
    ∃ snap1 snap2,
      hashAllTargets Sum256 t depth (some (Sum256 (seedPreimage fs1 paths))) table =
        .ret (some snap1) none ∧
      hashAllTargets Sum256 t depth (some (Sum256 (seedPreimage fs2 paths))) table =
        .ret (some snap2) none ∧
      (∀ target ∈ targets, ∀ r, target.Rule = some r → r.Name ≠ [] →
        ∃ e1 e2, snap1.get r.Name = some e1 ∧ snap2.get r.Name = some e2 ∧ e1 ≠ e2) ∧
      (∀ target ∈ targets, ∀ sf, target.SourceFile = some sf → sf.Name ≠ [] →
        ∃ e1 e2, snap1.get sf.Name = some e1 ∧ snap2.get sf.Name = some e2 ∧ e1 ≠ e2) ∧
      (∀ n, snap1.get n = none ↔ snap2.get n = none) ∧
      ∀ n e1, snap1.get n = some e1 → ∃ e2, snap2.get n = some e2 ∧ e1 ≠ e2 := by
  have hpre := seedPreimage_ne fs1 fs2 p paths hp hsame hdiff
  have hne : paths ≠ [] := List.ne_nil_of_mem hp
  have hseed : Sum256 (seedPreimage fs1 paths) ≠ Sum256 (seedPreimage fs2 paths) := hcfSeed hpre
  have hpreRule : ∀ b, InGraph (indexOf t targets) b →
      refPreimage Sum256 (indexOf t targets) table (some (Sum256 (seedPreimage fs1 paths)))
          depth b ≠
        refPreimage Sum256 (indexOf t targets) table (some (Sum256 (seedPreimage fs2 paths)))
          depth b := by
    intro b hb h
    obtain ⟨m, hm⟩ : ∃ m, depth = m + 1 := ⟨depth - 1, by have := hdepth b hb; omega⟩
    rw [hm, refPreimage_succ, refPreimage_succ] at h
    exact append_mid_ne _ _ _ _ _ hlen hseed h
  have hrule : ∀ b, InGraph (indexOf t targets) b →
      convertByteArrayToString (refDigest Sum256 (indexOf t targets) table
        (some (Sum256 (seedPreimage fs1 paths))) depth b) ≠
      convertByteArrayToString (refDigest Sum256 (indexOf t targets) table
        (some (Sum256 (seedPreimage fs2 paths))) depth b) := by
    intro b hb h
    exact hcfRule b hb (hpreRule b hb) (convertByteArrayToString_injective _ _ h)
  have hsource : ∀ target ∈ targets, ∀ sf, target.SourceFile = some sf →
      convertByteArrayToString (Sum256 (sourceContribution table sf.Name ++
          (some (Sum256 (seedPreimage fs1 paths))).getD [])) ≠
        convertByteArrayToString (Sum256 (sourceContribution table sf.Name ++
          (some (Sum256 (seedPreimage fs2 paths))).getD [])) := by
    intro target htg sf hS h
    exact hcfSource target htg sf (Option.mem_def.2 hS)
      (fun e => hseed (List.append_cancel_left e)) (convertByteArrayToString_injective _ _ h)
  refine ⟨hpre, createSeedForFilepaths_ok Sum256 fs1 paths hne hread1,
    createSeedForFilepaths_ok Sum256 fs2 paths hne hread2, hpreRule, ?_⟩
  obtain ⟨snap1, hs1, r1, s1, g1, o1⟩ := hashAllTargets_snapshot Sum256 t depth
    (some (Sum256 (seedPreimage fs1 paths))) table targets rank hwf hacyc hdepth hdig
  obtain ⟨snap2, hs2, r2, s2, g2, _⟩ := hashAllTargets_snapshot Sum256 t depth
    (some (Sum256 (seedPreimage fs2 paths))) table targets rank hwf hacyc hdepth hdig
  have hruleT : ∀ target ∈ targets, ∀ r, target.Rule = some r → r.Name ≠ [] →
      ∃ e1 e2, snap1.get r.Name = some e1 ∧ snap2.get r.Name = some e2 ∧ e1 ≠ e2 := by
    intro target htg r hR hrn
    obtain ⟨b, hb, _⟩ := hwf.2.1 r
    have hat := hwf.indexInv.2.2 target htg r hR hrn
    rw [hb] at hat
    exact ⟨_, _, r1 target htg r b hR hrn hb, r2 target htg r b hR hrn hb,
      hrule b ⟨r.Name, hat⟩⟩
  have hsourceT : ∀ target ∈ targets, ∀ sf, target.SourceFile = some sf → sf.Name ≠ [] →
      ∃ e1 e2, snap1.get sf.Name = some e1 ∧ snap2.get sf.Name = some e2 ∧ e1 ≠ e2 := by
    intro target htg sf hS hsn
    exact ⟨_, _, s1 target htg sf hS hsn, s2 target htg sf hS hsn, hsource target htg sf hS⟩
  have hkeys := hashAllTargets_sameKeys Sum256 table t depth _ _ snap1 snap2 hs1 hs2
  refine ⟨snap1, snap2, hs1, hs2, hruleT, hsourceT, hkeys, ?_⟩
  intro n e1 h1
  obtain ⟨e2, h2⟩ := SameKeys.some hkeys h1
  refine ⟨e2, h2, ?_⟩
  intro he
  by_cases hn : n ∈ targetNames targets
  · obtain ⟨hnn, target, htg, hname⟩ := mem_targetNames.1 hn
    have hsv := hwf.2.2.1 target htg
    rcases variant_cases (hname ▸ hnn) with ⟨r, hR⟩ | ⟨sf, hS⟩ | ⟨g, hG⟩
    · have hrn : r.Name = n := by rw [← getNameForTarget_rule hR, hname]
      obtain ⟨x1, x2, k1, k2, hx⟩ := hruleT target htg r hR (hrn ▸ hnn)
      rw [hrn, h1] at k1
      rw [hrn, h2] at k2
      exact hx (by rw [← Option.some.inj k1, ← Option.some.inj k2, he])
    · have hsn : sf.Name = n := by rw [← (getNameForTarget_source hS hsv).2.2, hname]
      obtain ⟨x1, x2, k1, k2, hx⟩ := hsourceT target htg sf hS (hsn ▸ hnn)
      rw [hsn, h1] at k1
      rw [hsn, h2] at k2
      exact hx (by rw [← Option.some.inj k1, ← Option.some.inj k2, he])
    · have hgn : g.Name = n := by rw [← (getNameForTarget_generated hG hsv).2.2, hname]
      rcases g1 target htg g hG (hgn ▸ hnn) with k1 | ⟨b1, hb1, _, k1⟩
      · rw [hgn, h1] at k1
        exact absurd k1 (by simp)
      · rcases g2 target htg g hG (hgn ▸ hnn) with k2 | ⟨b2, hb2, _, k2⟩
        · rw [hgn, h2] at k2
          exact absurd k2 (by simp)
        · rw [hb1] at hb2
          rw [← Option.some.inj hb2] at k2
          rw [hgn, h1] at k1
          rw [hgn, h2] at k2
          apply hrule b1 ⟨g.GeneratingRule, hb1⟩
          rw [← Option.some.inj k1, ← Option.some.inj k2, he]
  · rw [o1 n hn] at h1
    exact absurd h1 (by simp)

theorem exClient_digests : ¬ SomeDigestFails exClient exTargets := by
  rintro ⟨target, htg, r, b, hr, _, hb, hfail⟩
  apply hfail
  simp only [exClient, exProvider, Option.map_some', Option.some.injEq] at hb
  rw [← hb]

set_option maxRecDepth 100000 in
theorem exIndex_seedCollisionFree : ∀ b, InGraph (indexOf exClient exTargets) b →
    refPreimage sha256 (indexOf exClient exTargets) (exTable [7])
        (some (sha256 (seedPreimage exFS1 [[113], [112]]))) 2 b ≠
      refPreimage sha256 (indexOf exClient exTargets) (exTable [7])
        (some (sha256 (seedPreimage exFS2 [[113], [112]]))) 2 b →
    sha256 (refPreimage sha256 (indexOf exClient exTargets) (exTable [7])
        (some (sha256 (seedPreimage exFS1 [[113], [112]]))) 2 b) ≠
      sha256 (refPreimage sha256 (indexOf exClient exTargets) (exTable [7])
        (some (sha256 (seedPreimage exFS2 [[113], [112]]))) 2 b) := by
  intro b hb
  have h : ∀ r ∈ graphRules (indexOf exClient exTargets),
      refPreimage sha256 (indexOf exClient exTargets) (exTable [7])
          (some (sha256 (seedPreimage exFS1 [[113], [112]]))) 2 r ≠
        refPreimage sha256 (indexOf exClient exTargets) (exTable [7])
          (some (sha256 (seedPreimage exFS2 [[113], [112]]))) 2 r →
      sha256 (refPreimage sha256 (indexOf exClient exTargets) (exTable [7])
          (some (sha256 (seedPreimage exFS1 [[113], [112]]))) 2 r) ≠
        sha256 (refPreimage sha256 (indexOf exClient exTargets) (exTable [7])
          (some (sha256 (seedPreimage exFS2 [[113], [112]]))) 2 r) := by
    decide!
  exact h b (inGraph_graphRules hb)

set_option maxRecDepth 100000 in
/-- C6 on the sample query result with SHA-256: the seeded files `q` and `p`,
of which `p` changes from `[1]` to `[2]`. -/
theorem seed_change_changes_every_entry_witness :
    WellFormedQuery exClient exTargets ∧
    Acyclic (indexOf exClient exTargets) exRank ∧
    (∀ b, InGraph (indexOf exClient exTargets) b → exRank b.GetName < 2) ∧
    ¬ SomeDigestFails exClient exTargets ∧
    [112] ∈ [[113], [112]] ∧
    (∀ q ∈ [[113], [112]], (exFS1.ReadFile q).2 = none) ∧
    (∀ q ∈ [[113], [112]], (exFS2.ReadFile q).2 = none) ∧
    (∀ q ∈ [[113], [112]], q ≠ [112] → (exFS1.ReadFile q).1 = (exFS2.ReadFile q).1) ∧
    (exFS1.ReadFile [112]).1 ≠ (exFS2.ReadFile [112]).1 ∧
    sha256 (seedPreimage exFS1 [[113], [112]]) ≠ sha256 (seedPreimage exFS2 [[113], [112]]) ∧
    seedPreimage exFS1 [[113], [112]] ≠ seedPreimage exFS2 [[113], [112]] ∧
    createSeedForFilepaths sha256 exFS1 [[113], [112]] =
      .ret (some (sha256 (seedPreimage exFS1 [[113], [112]]))) none ∧
    createSeedForFilepaths sha256 exFS2 [[113], [112]] =
      .ret (some (sha256 (seedPreimage exFS2 [[113], [112]]))) none ∧
    (∀ b, InGraph (indexOf exClient exTargets) b →
      refPreimage sha256 (indexOf exClient exTargets) (exTable [7])
          (some (sha256 (seedPreimage exFS1 [[113], [112]]))) 2 b ≠
        refPreimage sha256 (indexOf exClient exTargets) (exTable [7])
          (some (sha256 (seedPreimage exFS2 [[113], [112]]))) 2 b) ∧
    ∃ snap1 snap2,
      hashAllTargets sha256 exClient 2 (some (sha256 (seedPreimage exFS1 [[113], [112]])))
        (exTable [7]) = .ret (some snap1) none ∧
      hashAllTargets sha256 exClient 2 (some (sha256 (seedPreimage exFS2 [[113], [112]])))
        (exTable [7]) = .ret (some snap2) none ∧
      (∀ target ∈ exTargets, ∀ r, target.Rule = some r → r.Name ≠ [] →
        ∃ e1 e2, snap1.get r.Name = some e1 ∧ snap2.get r.Name = some e2 ∧ e1 ≠ e2) ∧
      (∀ target ∈ exTargets, ∀ sf, target.SourceFile = some sf → sf.Name ≠ [] →
        ∃ e1 e2, snap1.get sf.Name = some e1 ∧ snap2.get sf.Name = some e2 ∧ e1 ≠ e2) ∧
      (∀ n, snap1.get n = none ↔ snap2.get n = none) ∧
      ∀ n e1, snap1.get n = some e1 → ∃ e2, snap2.get n = some e2 ∧ e1 ≠ e2 :=
  ⟨exClient_wellFormed, exIndex_acyclic, exIndex_depth, exClient_digests, by decide,
    by decide, by decide, by decide, by decide, by decide!,
    seed_change_changes_every_entry sha256 exClient 2 (exTable [7])
      exTargets exRank exClient_wellFormed exIndex_acyclic exIndex_depth exClient_digests
      exFS1 exFS2 [[113], [112]] [112] (by decide) (by decide) (by decide) (by decide)
      (by decide) (by decide!) (by decide!) exIndex_seedCollisionFree (by decide!)⟩

/-! ## Source files are not indexed -/

theorem indexTarget_keys (t : targetHashingClient) (m : GoMap (Option BazelRule))
    (target : Target) (k : GoString) (h : (indexTarget t m target).get k ≠ none) :
    m.get k ≠ none ∨ (getNameForTarget target = k ∧ k ≠ [] ∧
      (target.Rule ≠ none ∨ target.GeneratedFile ≠ none)) := by
  by_cases hn : getNameForTarget target = []
  · left
    simpa [indexTarget, hn] using h
  · by_cases hk : getNameForTarget target = k
    · by_cases hc : target.Rule ≠ none ∨ target.GeneratedFile ≠ none
      · exact Or.inr ⟨hk, hk ▸ hn, hc⟩
      · left
        have hR : target.Rule = none := by
          by_contra h2
          exact hc (Or.inl h2)
        have hG : target.GeneratedFile = none := by
          by_contra h2
          exact hc (Or.inr h2)
        simpa only [indexTarget, hn, if_false, hR, hG] using h
    · left
      unfold indexTarget at h
      rw [if_neg hn] at h
      cases hR : target.Rule <;> cases hG : target.GeneratedFile <;>
        simp only [hR, hG] at h <;>
        first
          | exact h
          | (rw [GoMap.get_set_ne _ _ hk] at h; exact h)
          | (rw [GoMap.get_set_ne _ _ hk, GoMap.get_set_ne _ _ hk] at h; exact h)

theorem indexTargets_keys (t : targetHashingClient) :
    ∀ (targets : List Target) (m : GoMap (Option BazelRule)) (k : GoString),
      (indexTargets t targets m).get k ≠ none →
      m.get k ≠ none ∨ ∃ target ∈ targets, getNameForTarget target = k ∧ k ≠ [] ∧
        (target.Rule ≠ none ∨ target.GeneratedFile ≠ none) := by
  intro targets
  induction targets with
  | nil =>
    intro m k h
    exact Or.inl h
  | cons target rest ih =>
    intro m k h
    have h2 : (indexTargets t rest (indexTarget t m target)).get k ≠ none := h
    rcases ih _ k h2 with h3 | ⟨tg, htg, h3⟩
    · rcases indexTarget_keys t m target k h3 with h4 | h4
      · exact Or.inl h4
      · exact Or.inr ⟨target, List.mem_cons_self _ _, h4⟩
    · exact Or.inr ⟨tg, List.mem_cons_of_mem _ htg, h3⟩

/-- Two targets of a query result with unique names that carry the same
non-empty name are one target. -/
theorem target_unique_of_name :
    ∀ (targets : List Target), UniqueNames targets → ∀ t1 ∈ targets, ∀ t2 ∈ targets,
      getNameForTarget t1 ≠ [] → getNameForTarget t1 = getNameForTarget t2 → t1 = t2 := by
  intro targets
  induction targets with
  | nil => intro _ t1 h1; exact absurd h1 (List.not_mem_nil _)
  | cons target rest ih =>
    intro hu t1 h1 t2 h2 hne heq
    obtain ⟨hnd, hfresh⟩ := nodup_targetNames_cons hu
    rcases List.mem_cons.1 h1 with e1 | e1 <;> rcases List.mem_cons.1 h2 with e2 | e2
    · rw [e1, e2]
    · subst e1
      exact absurd (mem_targetNames.2 ⟨hne, t2, e2, heq.symm⟩) (hfresh hne)
    · subst e2
      exact absurd (mem_targetNames.2 ⟨heq ▸ hne, t1, e1, heq⟩) (hfresh (heq ▸ hne))
    · exact ih hnd t1 e1 t2 e2 hne heq

/-- In a well-formed query result the name of a source-file target resolves
to no rule. -/
theorem ruleAt_source (t : targetHashingClient) (targets : List Target)
    (hwf : WellFormedQuery t targets) (target : Target) (htg : target ∈ targets)
    (sf : SourceFile) (hsf : target.SourceFile = some sf) (hn : sf.Name ≠ []) :
    ruleAt (indexOf t targets) sf.Name = none := by
  have hsv := hwf.2.2.1 target htg
  obtain ⟨hR, hG, hname⟩ := getNameForTarget_source hsf hsv
  cases hget : (indexOf t targets).get sf.Name with
  | none => simp [ruleAt, hget]
  | some v =>
    exfalso
    rcases indexTargets_keys t targets GoMap.empty sf.Name (by
      have : (indexTargets t targets GoMap.empty).get sf.Name = some v := hget
      rw [this]
      simp) with h | ⟨tg, htg2, hname2, _, hv⟩
    · exact h (GoMap.get_empty _)
    · have heq := target_unique_of_name targets hwf.2.2.2 tg htg2 target htg
        (hname2 ▸ hn) (hname2.trans hname.symm)
      subst heq
      rcases hv with hv | hv
      · exact hv hR
      · exact hv hG

/-! ## C8: a changed source digest reaches every dependent -/

theorem flatten_ne_of_block {α : Type} (f g : α → Bytes) :
    ∀ (l : List α), (∀ i ∈ l, (f i).length = (g i).length) → ∀ i0 ∈ l, f i0 ≠ g i0 →
      (l.map f).flatten ≠ (l.map g).flatten := by
  intro l
  induction l with
  | nil => intro _ i0 h; exact absurd h (List.not_mem_nil _)
  | cons a rest ih =>
    intro hlen i0 hi0 hne heq
    simp only [List.map_cons, List.flatten_cons] at heq
    obtain ⟨h1, h2⟩ := List.append_inj heq (hlen a (List.mem_cons_self _ _))
    rcases List.mem_cons.1 hi0 with e | e
    · subst e
      exact hne h1
    · exact ih (fun i hi => hlen i (List.mem_cons_of_mem _ hi)) i0 e hne h2

/-- When the digest of the source file `s` changes and the hash has one
output length and no collision between the two byte strings of any rule, the
byte strings hashed for every rule that reaches `s` differ. -/
theorem refPreimage_ne_of_reaches (Sum256 : Bytes → Bytes)
    (hlenH : ∀ x y, (Sum256 x).length = (Sum256 y).length) (idx : GoMap (Option BazelRule))
    (T1 T2 : GoMap BazelSourceFileTarget) (seed : Option Bytes) (rank : GoString → Nat)
    (hacyc : Acyclic idx rank) (s : GoString) (hs : ruleAt idx s = none)
    (hagree : ∀ k, k ≠ s → sourceContribution T1 k = sourceContribution T2 k)
    (hslen : (sourceContribution T1 s).length = (sourceContribution T2 s).length)
    (hsne : sourceContribution T1 s ≠ sourceContribution T2 s)
    (hcf : ∀ b, InGraph idx b →
      refPreimage Sum256 idx T1 seed (rank b.GetName + 1) b ≠
        refPreimage Sum256 idx T2 seed (rank b.GetName + 1) b →
      Sum256 (refPreimage Sum256 idx T1 seed (rank b.GetName + 1) b) ≠
        Sum256 (refPreimage Sum256 idx T2 seed (rank b.GetName + 1) b)) :
    ∀ (n : Nat) (b : BazelRule), InGraph idx b → rank b.GetName < n → ReachesInput idx b s →
      refPreimage Sum256 idx T1 seed n b ≠ refPreimage Sum256 idx T2 seed n b := by
  intro n
  induction n with
  | zero => intro b _ h; exact absurd h (Nat.not_lt_zero _)
  | succ m ih =>
    intro b hb hlt hreach heq
    rw [refPreimage_succ, refPreimage_succ] at heq
    have heq2 := List.append_cancel_left heq
    have hlen : ∀ i ∈ b.GetRuleInputList,
        (i ++ refContribution (refDigest Sum256 idx T1 seed m) idx T1 b.GetName i).length =
          (i ++ refContribution (refDigest Sum256 idx T2 seed m) idx T2 b.GetName i).length := by
      intro i _
      rw [List.length_append, List.length_append]
      congr 1
      have hsrc : (sourceContribution T1 i).length = (sourceContribution T2 i).length := by
        by_cases e : i = s
        · rw [e]
          exact hslen
        · rw [hagree i e]
      unfold refContribution
      cases hat : ruleAt idx i with
      | none => exact hsrc
      | some r2 =>
        simp only
        by_cases hc : r2.GetName ≠ [] ∧ r2.GetName ≠ b.GetName
        · rw [if_pos hc, if_pos hc]
          exact hlenH _ _
        · rw [if_neg hc, if_neg hc]
          exact hsrc
    cases hreach with
    | direct hin =>
      refine flatten_ne_of_block _ _ b.GetRuleInputList hlen s hin ?_ heq2
      intro h
      have h2 := List.append_cancel_left h
      unfold refContribution at h2
      rw [hs] at h2
      exact hsne h2
    | step hin hat hne hself hrest =>
      rename_i r2 i
      refine flatten_ne_of_block _ _ b.GetRuleInputList hlen i hin ?_ heq2
      intro h
      have h2 := List.append_cancel_left h
      unfold refContribution at h2
      rw [hat] at h2
      simp only [if_pos (And.intro hne hself)] at h2
      have hr2 : InGraph idx r2 := ⟨i, hat⟩
      have hlt2 : rank r2.GetName < m := by
        have := hacyc b hb i hin r2 hat hne hself
        omega
      have hpre := ih r2 hr2 hlt2 hrest
      rw [refPreimage_stable Sum256 idx T1 seed rank hacyc m (rank r2.GetName + 1) r2 hr2 hlt2
          (by omega),
        refPreimage_stable Sum256 idx T2 seed rank hacyc m (rank r2.GetName + 1) r2 hr2 hlt2
          (by omega)] at hpre
      have hdig := hcf r2 hr2 hpre
      unfold refDigest at h2
      rw [refPreimage_stable Sum256 idx T1 seed rank hacyc m (rank r2.GetName + 1) r2 hr2 hlt2
          (by omega),
        refPreimage_stable Sum256 idx T2 seed rank hacyc m (rank r2.GetName + 1) r2 hr2 hlt2
          (by omega)] at h2
      exact hdig h2

/-- C8. On a well-formed, acyclic query result whose declared digests are
available, let two source tables differ only in the digest of the source-file
target `s1`, the two digests having one length. With a hash of one output
length that does not collide on the two byte strings of `s1` nor on the two
byte strings of any rule, the two runs of `hashAllTargets` return snapshots in
which the entries of `s1` differ, and for every rule target that reaches `s1`
through a chain of rule inputs the hashed byte strings differ and the entries
differ. -/
theorem source_change_propagates (Sum256 : Bytes → Bytes)
    (hlenH : ∀ x y, (Sum256 x).length = (Sum256 y).length) (t : targetHashingClient)
    (depth : Nat) (seed : Option Bytes) (T1 T2 : GoMap BazelSourceFileTarget)
    (targets : List Target) (rank : GoString → Nat) (hwf : WellFormedQuery t targets)
    (hacyc : Acyclic (indexOf t targets) rank)
    (hdepth : ∀ b, InGraph (indexOf t targets) b → rank b.GetName < depth)
    (hdig : ¬ SomeDigestFails t targets)
    (sourceTarget : Target) (hst : sourceTarget ∈ targets) (sf : SourceFile)
    (hsf : sourceTarget.SourceFile = some sf) (hsn : sf.Name ≠ [])
    (src1 src2 : BazelSourceFileTarget) (h1 : T1.get sf.Name = some src1)
    (h2 : T2.get sf.Name = some src2) (hlen : src1.digest.length = src2.digest.length)
    (hne : src1.digest ≠ src2.digest)
    (hagree : ∀ k, k ≠ sf.Name →
      getDigestForSourceTargetName k T1 = getDigestForSourceTargetName k T2)
    (hcfs : Sum256 (src1.digest ++ seed.getD []) ≠ Sum256 (src2.digest ++ seed.getD []))
    (hcf : ∀ b, InGraph (indexOf t targets) b →
      refPreimage Sum256 (indexOf t targets) T1 seed (rank b.GetName + 1) b ≠
        refPreimage Sum256 (indexOf t targets) T2 seed (rank b.GetName + 1) b →
      Sum256 (refPreimage Sum256 (indexOf t targets) T1 seed (rank b.GetName + 1) b) ≠
        Sum256 (refPreimage Sum256 (indexOf t targets) T2 seed (rank b.GetName + 1) b)) :
    ∃ snap1 snap2,
      hashAllTargets Sum256 t depth seed T1 = .ret (some snap1) none ∧
      hashAllTargets Sum256 t depth seed T2 = .ret (some snap2) none ∧
      (∃ e1 e2, snap1.get sf.Name = some e1 ∧ snap2.get sf.Name = some e2 ∧ e1 ≠ e2) ∧
      ∀ target ∈ targets, ∀ r b, target.Rule = some r → r.Name ≠ [] →
        t.ruleProvider.GetRule (some r) = some b →
        ReachesInput (indexOf t targets) b sf.Name →
        refPreimage Sum256 (indexOf t targets) T1 seed depth b ≠
          refPreimage Sum256 (indexOf t targets) T2 seed depth b ∧
        ∃ e1 e2, snap1.get r.Name = some e1 ∧ snap2.get r.Name = some e2 ∧ e1 ≠ e2 := by
  obtain ⟨snap1, hs1, r1, s1, _, _⟩ := hashAllTargets_snapshot Sum256 t depth seed T1 targets
    rank hwf hacyc hdepth hdig
  obtain ⟨snap2, hs2, r2, s2, _, _⟩ := hashAllTargets_snapshot Sum256 t depth seed T2 targets
    rank hwf hacyc hdepth hdig
  have hc1 : sourceContribution T1 sf.Name = src1.digest := by
    unfold sourceContribution
    rw [h1]
  have hc2 : sourceContribution T2 sf.Name = src2.digest := by
    unfold sourceContribution
    rw [h2]
  refine ⟨snap1, snap2, hs1, hs2, ?_, ?_⟩
  · refine ⟨_, _, s1 sourceTarget hst sf hsf hsn, s2 sourceTarget hst sf hsf hsn, ?_⟩
    rw [hc1, hc2]
    exact fun h => hcfs (convertByteArrayToString_injective _ _ h)
  · intro target htg r b hr hrn hb hreach
    have hat := hwf.indexInv.2.2 target htg r hr hrn
    rw [hb] at hat
    have hbg : InGraph (indexOf t targets) b := ⟨r.Name, hat⟩
    have hpre := refPreimage_ne_of_reaches Sum256 hlenH (indexOf t targets) T1 T2 seed rank hacyc
      sf.Name (ruleAt_source t targets hwf sourceTarget hst sf hsf hsn)
      (fun k hk => sourceContribution_congr (hagree k hk)) (by rw [hc1, hc2]; exact hlen)
      (by rw [hc1, hc2]; exact hne) hcf depth b hbg (hdepth b hbg) hreach
    refine ⟨hpre, _, _, r1 target htg r b hr hrn hb, r2 target htg r b hr hrn hb, ?_⟩
    intro h
    have h3 := convertByteArrayToString_injective _ _ h
    unfold refDigest at h3
    rw [refPreimage_stable Sum256 _ T1 seed rank hacyc depth (rank b.GetName + 1) b hbg
        (hdepth b hbg) (by omega),
      refPreimage_stable Sum256 _ T2 seed rank hacyc depth (rank b.GetName + 1) b hbg
        (hdepth b hbg) (by omega)] at h3 hpre
    exact hcf b hbg hpre h3

theorem sha256_length (x y : Bytes) : (sha256 x).length = (sha256 y).length := by
  simp [sha256, SHA256.sum, SHA256.wordBytes]

theorem scIndex_eq : indexOf scClient scTargets =
    ⟨[(exNameB, some scRuleB), (exNameA, some exRuleA)]⟩ := by
  decide

theorem scClient_wellFormed : WellFormedQuery scClient scTargets :=
  ⟨rfl, fun r => ⟨_, rfl, rfl⟩, by decide, by decide⟩

theorem scIndex_acyclic : Acyclic (indexOf scClient scTargets) exRank := by
  rw [scIndex_eq]
  exact acyclic_of_graphRules (by decide)

theorem scIndex_depth : ∀ b, InGraph (indexOf scClient scTargets) b → exRank b.GetName < 2 := by
  intro b hb
  have h : ∀ r ∈ graphRules (indexOf scClient scTargets), exRank r.GetName < 2 := by
    rw [scIndex_eq]
    decide
  exact h b (inGraph_graphRules hb)

theorem scClient_digests : ¬ SomeDigestFails scClient scTargets := by
  rintro ⟨target, htg, r, b, hr, _, hb, hfail⟩
  apply hfail
  simp only [scClient, scProvider, Option.map_some', Option.some.injEq] at hb
  rw [← hb]

set_option maxRecDepth 100000 in
theorem scIndex_collisionFree : ∀ b, InGraph (indexOf scClient scTargets) b →
    refPreimage sha256 (indexOf scClient scTargets) (scTable 7) none (exRank b.GetName + 1) b ≠
      refPreimage sha256 (indexOf scClient scTargets) (scTable 8) none
        (exRank b.GetName + 1) b →
    sha256 (refPreimage sha256 (indexOf scClient scTargets) (scTable 7) none
        (exRank b.GetName + 1) b) ≠
      sha256 (refPreimage sha256 (indexOf scClient scTargets) (scTable 8) none
        (exRank b.GetName + 1) b) := by
  intro b hb
  have h : ∀ r ∈ graphRules (indexOf scClient scTargets),
      refPreimage sha256 (indexOf scClient scTargets) (scTable 7) none
          (exRank r.GetName + 1) r ≠
        refPreimage sha256 (indexOf scClient scTargets) (scTable 8) none
          (exRank r.GetName + 1) r →
      sha256 (refPreimage sha256 (indexOf scClient scTargets) (scTable 7) none
          (exRank r.GetName + 1) r) ≠
        sha256 (refPreimage sha256 (indexOf scClient scTargets) (scTable 8) none
          (exRank r.GetName + 1) r) := by
    decide!
  exact h b (inGraph_graphRules hb)

set_option maxRecDepth 100000 in
/-- C8 on the scenario of the specification, with SHA-256: the targets `A`,
`B`, `s1`, rule `B` lists `A` and `s1`, and the 32-byte digest of `s1`
changes. -/
theorem source_change_propagates_witness :
    (∀ x y, (sha256 x).length = (sha256 y).length) ∧ WellFormedQuery scClient scTargets ∧
    Acyclic (indexOf scClient scTargets) exRank ∧
    (∀ b, InGraph (indexOf scClient scTargets) b → exRank b.GetName < 2) ∧
    ¬ SomeDigestFails scClient scTargets ∧
    (scTable 7).get exNameS = some ⟨exNameS, List.replicate 32 7⟩ ∧
    (scTable 8).get exNameS = some ⟨exNameS, List.replicate 32 8⟩ ∧
    (∀ k, k ≠ exNameS →
      getDigestForSourceTargetName k (scTable 7) = getDigestForSourceTargetName k (scTable 8)) ∧
    sha256 (List.replicate 32 7 ++ (none : Option Bytes).getD []) ≠
      sha256 (List.replicate 32 8 ++ (none : Option Bytes).getD []) ∧
    ReachesInput (indexOf scClient scTargets) scRuleB exNameS ∧
    ∃ snap1 snap2,
      hashAllTargets sha256 scClient 2 none (scTable 7) = .ret (some snap1) none ∧
      hashAllTargets sha256 scClient 2 none (scTable 8) = .ret (some snap2) none ∧
      (∃ e1 e2, snap1.get exNameS = some e1 ∧ snap2.get exNameS = some e2 ∧ e1 ≠ e2) ∧
      ∀ target ∈ scTargets, ∀ r b, target.Rule = some r → r.Name ≠ [] →
        scClient.ruleProvider.GetRule (some r) = some b →
        ReachesInput (indexOf scClient scTargets) b exNameS →
        refPreimage sha256 (indexOf scClient scTargets) (scTable 7) none 2 b ≠
          refPreimage sha256 (indexOf scClient scTargets) (scTable 8) none 2 b ∧
        ∃ e1 e2, snap1.get r.Name = some e1 ∧ snap2.get r.Name = some e2 ∧ e1 ≠ e2 :=
  have hagree : ∀ k, k ≠ exNameS →
      getDigestForSourceTargetName k (scTable 7) =
        getDigestForSourceTargetName k (scTable 8) := by
    intro k hk
    have hg : ∀ v, (scTable v).get k = none := by
      intro v
      rw [scTable, GoMap.get_cons, if_neg (fun e => hk e.symm)]
      rfl
    simp [getDigestForSourceTargetName, hg]
  ⟨sha256_length, scClient_wellFormed, scIndex_acyclic, scIndex_depth, scClient_digests, rfl,
    rfl, hagree, by decide!, .direct (by decide),
    source_change_propagates sha256 sha256_length scClient 2 none (scTable 7) (scTable 8)
      scTargets exRank scClient_wellFormed scIndex_acyclic scIndex_depth scClient_digests
      ⟨none, some ⟨exNameS⟩, none⟩ (by decide) ⟨exNameS⟩ rfl (by decide)
      ⟨exNameS, List.replicate 32 7⟩ ⟨exNameS, List.replicate 32 8⟩ rfl rfl (by decide)
      (by decide) hagree (by decide!) scIndex_collisionFree⟩

/-! ## C11: the hex encoding -/

set_option maxRecDepth 100000 in
theorem hexArray_digits : ∀ b : Byte,
    HexArray.getD ((b.val &&& 0xFF) >>> 4) 0 = hexDigit (b.val / 16) ∧
    HexArray.getD ((b.val &&& 0xFF) &&& 0x0F) 0 = hexDigit (b.val % 16) := by
  decide!

theorem convertByteArrayToString_length (b : Bytes) :
    (convertByteArrayToString b).length = 2 * b.length := by
  induction b with
  | nil => rfl
  | cons x xs ih =>
    simp only [convertByteArrayToString, List.length_cons, ih]
    omega

theorem convertByteArrayToString_digits :
    ∀ (b : Bytes) (i : Nat),
      (convertByteArrayToString b)[2 * i]? = b[i]?.map (fun x => hexDigit (x.val / 16)) ∧
      (convertByteArrayToString b)[2 * i + 1]? = b[i]?.map (fun x => hexDigit (x.val % 16)) := by
  intro b
  induction b with
  | nil => intro i; simp [convertByteArrayToString]
  | cons x xs ih =>
    intro i
    cases i with
    | zero =>
      simp only [convertByteArrayToString, Nat.mul_zero, List.getElem?_cons_zero, Option.map_some',
        Nat.zero_add, List.getElem?_cons_succ, (hexArray_digits x).1, (hexArray_digits x).2,
        and_self]
    | succ n =>
      have h1 : 2 * (n + 1) = (2 * n + 1) + 1 := by omega
      rw [h1]
      simp only [convertByteArrayToString, List.getElem?_cons_succ]
      exact ih n

theorem sha256_length_32 (b : Bytes) : (sha256 b).length = 32 := by
  simp [sha256, SHA256.sum, SHA256.wordBytes]

/-- C11. For every byte sequence `b`, `convertByteArrayToString b` has length
`2 * len(b)`; its characters at the positions `2i` and `2i+1` are the lowercase
hexadecimal digits of the high nibble `b[i] / 16` and of the low nibble
`b[i] % 16` (past the end of `b` there is no character); the digit of a nibble
is its entry in the table `0123456789abcdef`; the function is injective; a
32-byte sequence, such as a SHA-256 digest, is mapped to a string of 64
characters. -/
theorem convertByteArrayToString_hex :
    (∀ b : Bytes, (convertByteArrayToString b).length = 2 * b.length ∧
      ∀ i : Nat,
        (convertByteArrayToString b)[2 * i]? = b[i]?.map (fun x => hexDigit (x.val / 16)) ∧
        (convertByteArrayToString b)[2 * i + 1]? =
          b[i]?.map (fun x => hexDigit (x.val % 16))) ∧
    (∀ n, n < 16 → hexDigit n = HexArray.getD n 0) ∧
    Function.Injective convertByteArrayToString ∧
    (∀ d : Bytes, d.length = 32 → (convertByteArrayToString d).length = 64) ∧
    (∀ b : Bytes, (sha256 b).length = 32 ∧ (convertByteArrayToString (sha256 b)).length = 64) := by
  refine ⟨fun b => ⟨convertByteArrayToString_length b, convertByteArrayToString_digits b⟩,
    by decide, fun a b h => convertByteArrayToString_injective a b h, fun d hd => ?_,
    fun b => ⟨sha256_length_32 b, ?_⟩⟩
  · rw [convertByteArrayToString_length, hd]
  · rw [convertByteArrayToString_length, sha256_length_32]

/-! ## C17: the diff of a snapshot with itself -/

theorem foldl_markImpacted_same (s : GoMap GoString) :
    ∀ (l : List (GoString × GoString)) (acc : GoMap Bool),
      (∀ e ∈ l, s.get e.1 = some e.2) → l.foldl (markImpacted s) acc = acc := by
  intro l
  induction l with
  | nil => intro acc _; rfl
  | cons e rest ih =>
    intro acc h
    have he := h e (List.mem_cons_self _ _)
    have hstep : markImpacted s acc e = acc := by
      simp [markImpacted, he]
    rw [List.foldl_cons, hstep]
    exact ih acc (fun x hx => h x (List.mem_cons_of_mem _ hx))

/-- C17. For every snapshot `S`, `GetImpactedTargets` on the pair `(S, S)`
returns the empty map and no error. -/
theorem GetImpactedTargets_self (S : GoMap GoString) :
    GetImpactedTargets S S = .ret GoMap.empty none := by
  unfold GetImpactedTargets
  rw [foldl_markImpacted_same S S.range GoMap.empty
    (fun e he => (GoMap.mem_range S e.1 e.2).1 he)]

/-! ## C16: the seed digest -/

theorem readSeedFiles_fails (filesys : FS) (q : GoString) (post : List GoString)
    (err : GoError) (hq : (filesys.ReadFile q).2 = some err) :
    ∀ (pre : List GoString) (buffer : Bytes), (∀ p ∈ pre, (filesys.ReadFile p).2 = none) →
      readSeedFiles filesys (pre ++ q :: post) buffer = .returned (.ret (some []) (some err)) := by
  intro pre
  induction pre with
  | nil =>
    intro buffer _
    rcases hr : filesys.ReadFile q with ⟨data, e⟩
    rw [hr] at hq
    simp only at hq
    subst hq
    simp only [List.nil_append, readSeedFiles, hr]
  | cons p rest ih =>
    intro buffer h
    rcases hp : filesys.ReadFile p with ⟨data, e⟩
    have he : e = none := by
      have := h p (List.mem_cons_self _ _)
      rw [hp] at this
      exact this
    subst he
    simp only [List.cons_append, readSeedFiles, hp]
    exact ih _ (fun x hx => h x (List.mem_cons_of_mem _ hx))

/-- C16. `createSeedForFilepaths` returns the empty byte sequence and no error
for the empty path list; for a non-empty list whose files are all readable it
returns the hash of the concatenation of the contents of the files in list
order, which has 32 bytes with SHA-256; when the read of the file `q` fails
after the files before it were read, it returns the error of that read
together with the empty byte sequence. -/
theorem createSeedForFilepaths_contract (Sum256 : Bytes → Bytes) (filesys : FS) :
    createSeedForFilepaths Sum256 filesys [] = .ret (some []) none ∧
    (∀ paths : List GoString, paths ≠ [] → (∀ q ∈ paths, (filesys.ReadFile q).2 = none) →
      createSeedForFilepaths Sum256 filesys paths =
        .ret (some (Sum256 (paths.map (fun p => (filesys.ReadFile p).1)).flatten)) none) ∧
    (∀ paths : List GoString,
      (sha256 (paths.map (fun p => (filesys.ReadFile p).1)).flatten).length = 32) ∧
    (∀ (pre : List GoString) (q : GoString) (post : List GoString) (err : GoError),
      (∀ p ∈ pre, (filesys.ReadFile p).2 = none) → (filesys.ReadFile q).2 = some err →
      createSeedForFilepaths Sum256 filesys (pre ++ q :: post) = .ret (some []) (some err)) := by
  refine ⟨rfl, fun paths hne h => createSeedForFilepaths_ok Sum256 filesys paths hne h,
    fun paths => sha256_length_32 _, ?_⟩
  intro pre q post err hpre hq
  have hlen : ¬ (pre ++ q :: post).length = 0 := by simp
  simp only [createSeedForFilepaths, if_neg hlen,
    readSeedFiles_fails filesys q post err hq pre [] hpre]

/-- C16 on sample filesystems: two readable files, and a list whose second
file cannot be read. -/
theorem createSeedForFilepaths_contract_witness :
    createSeedForFilepaths sha256 exFS2 [[112], [114]] = .ret (some (sha256 ([2] ++ [1]))) none ∧
    createSeedForFilepaths sha256 exFS3 [[112], [113], [114]] = .ret (some []) (some ⟨5⟩) :=
  ⟨(createSeedForFilepaths_contract sha256 exFS2).2.1 [[112], [114]] (by decide) (by decide),
    (createSeedForFilepaths_contract sha256 exFS3).2.2.2 [[112]] [113] [[114]] ⟨5⟩ (by decide)
      (by decide)⟩

/-! ## C14 and C15: the digest of a source-file target -/

theorem NewBazelSourceFileTarget_noPath (Sum256 : Bytes → Bytes) (host : Host)
    (name digest : Bytes) (filesystem : FS) (workingDirectory : GoString)
    (h : derivedPath host workingDirectory name = none) :
    NewBazelSourceFileTarget Sum256 host name digest filesystem workingDirectory =
      .ret (some ⟨name, Sum256 (digest ++ name)⟩) none := by
  unfold derivedPath at h
  by_cases hc : workingDirectory ≠ [] ∧ hasPrefix name [47, 47] = true
  · rw [if_pos hc] at h
    exact absurd h (by simp)
  · simp only [NewBazelSourceFileTarget, if_neg hc, List.nil_append]

theorem NewBazelSourceFileTarget_path (Sum256 : Bytes → Bytes) (host : Host)
    (name digest : Bytes) (filesystem : FS) (workingDirectory p : GoString)
    (h : derivedPath host workingDirectory name = some p) :
    NewBazelSourceFileTarget Sum256 host name digest filesystem workingDirectory =
      if fileExists host p = true then
        match host.ReadFile p with
        | (_, some err) => .ret none (some err)
        | (contents, none) => .ret (some ⟨name, Sum256 (contents ++ digest ++ name)⟩) none
      else .ret (some ⟨name, Sum256 (digest ++ name)⟩) none := by
  unfold derivedPath at h
  by_cases hc : workingDirectory ≠ [] ∧ hasPrefix name [47, 47] = true
  · rw [if_pos hc] at h
    have hp := Option.some.inj h
    simp only [NewBazelSourceFileTarget, if_pos hc, hp, fileExists, List.nil_append]
  · rw [if_neg hc] at h
    exact absurd h (by simp)

theorem fileExists_iff (host : Host) (p : GoString) :
    fileExists host p = true ↔ host.Stat p ≠ some ErrNotExist := by
  simp [fileExists, isNotExist]

theorem fileExists_false_iff (host : Host) (p : GoString) :
    fileExists host p = false ↔ host.Stat p = some ErrNotExist := by
  simp [fileExists, isNotExist]

/-- C14 as stated fails where no file exists at the derived path and
`os.Stat` fails with an error other than `os.ErrNotExist`: on a host on which
a component of the path `/w/p/f` is not a directory, `os.Stat` finds no file
and fails with `ENOTDIR`, the read is attempted and fails, and
`NewBazelSourceFileTarget` returns that error and no target instead of the
target with the SHA-256 hash of the declared digest and the name. -/
theorem stat_error_reads_missing_file :
    derivedPath exHostNotDir exWorkDir exNameLabel = some [47, 119, 47, 112, 47, 102] ∧
    statFindsFile exHostNotDir [47, 119, 47, 112, 47, 102] = false ∧
    NewBazelSourceFileTarget sha256 exHostNotDir exNameLabel [7] exFS1 exWorkDir =
      .ret none (some ErrNotDir) ∧
    NewBazelSourceFileTarget sha256 exHostNotDir exNameLabel [7] exFS1 exWorkDir ≠
      .ret (some ⟨exNameLabel, sha256 ([7] ++ exNameLabel)⟩) none :=
  ⟨by decide, by decide, by decide, by decide⟩

/-- C14, amended. For every name, declared digest, working directory and
state of the host filesystem: when a path is derived, `os.Stat` on it does not
report `os.ErrNotExist` (it succeeds, or fails with another error) and the
file is read with the content `content`, `NewBazelSourceFileTarget` returns a
target with the digest `Sum256 (content ++ declared ++ name)`; when no path is
derived, or `os.Stat` reports `os.ErrNotExist` for the derived path, the digest
is `Sum256 (declared ++ name)`; when `os.Stat` does not report
`os.ErrNotExist` and the read fails, the function returns the error of the
read and no target. The returned target carries the name. -/
theorem NewBazelSourceFileTarget_digest (Sum256 : Bytes → Bytes) (host : Host)
    (name digest : Bytes) (filesystem : FS) (workingDirectory : GoString) :
    (∀ p content, derivedPath host workingDirectory name = some p →
      host.Stat p ≠ some ErrNotExist → host.ReadFile p = (content, none) →
      NewBazelSourceFileTarget Sum256 host name digest filesystem workingDirectory =
        .ret (some ⟨name, Sum256 (content ++ digest ++ name)⟩) none) ∧
    (derivedPath host workingDirectory name = none →
      NewBazelSourceFileTarget Sum256 host name digest filesystem workingDirectory =
        .ret (some ⟨name, Sum256 (digest ++ name)⟩) none) ∧
    (∀ p, derivedPath host workingDirectory name = some p → host.Stat p = some ErrNotExist →
      NewBazelSourceFileTarget Sum256 host name digest filesystem workingDirectory =
        .ret (some ⟨name, Sum256 (digest ++ name)⟩) none) ∧
    (∀ p content err, derivedPath host workingDirectory name = some p →
      host.Stat p ≠ some ErrNotExist → host.ReadFile p = (content, some err) →
      NewBazelSourceFileTarget Sum256 host name digest filesystem workingDirectory =
        .ret none (some err)) := by
  refine ⟨?_, NewBazelSourceFileTarget_noPath Sum256 host name digest filesystem _, ?_, ?_⟩
  · intro p content hp hex hread
    rw [NewBazelSourceFileTarget_path Sum256 host name digest filesystem _ p hp,
      if_pos ((fileExists_iff host p).2 hex), hread]
  · intro p hp hex
    rw [NewBazelSourceFileTarget_path Sum256 host name digest filesystem _ p hp,
      (fileExists_false_iff host p).2 hex]
    simp
  · intro p content err hp hex hread
    rw [NewBazelSourceFileTarget_path Sum256 host name digest filesystem _ p hp,
      if_pos ((fileExists_iff host p).2 hex), hread]

/-- C14, amended, on sample hosts, for the label `//p:f` under the working
directory `/w`, whose derived path is `/w/p/f`: a readable file, a path that
`os.Stat` reports missing, a file that cannot be read, a path on which
`os.Stat` fails with `ENOTDIR`, and no working directory. -/
theorem NewBazelSourceFileTarget_digest_witness :
    derivedPath exHostFile exWorkDir exNameLabel = some [47, 119, 47, 112, 47, 102] ∧
    NewBazelSourceFileTarget sha256 exHostFile exNameLabel [7] exFS1 exWorkDir =
      .ret (some ⟨exNameLabel, sha256 ([1] ++ [7] ++ exNameLabel)⟩) none ∧
    NewBazelSourceFileTarget sha256 exHost exNameLabel [7] exFS1 exWorkDir =
      .ret (some ⟨exNameLabel, sha256 ([7] ++ exNameLabel)⟩) none ∧
    NewBazelSourceFileTarget sha256 exHostDenied exNameLabel [7] exFS1 exWorkDir =
      .ret none (some ⟨13⟩) ∧
    NewBazelSourceFileTarget sha256 exHostNotDir exNameLabel [7] exFS1 exWorkDir =
      .ret none (some ErrNotDir) ∧
    NewBazelSourceFileTarget sha256 exHostFile exNameLabel [7] exFS1 [] =
      .ret (some ⟨exNameLabel, sha256 ([7] ++ exNameLabel)⟩) none :=
  ⟨by decide,
    (NewBazelSourceFileTarget_digest sha256 exHostFile exNameLabel [7] exFS1 exWorkDir).1
      [47, 119, 47, 112, 47, 102] [1] (by decide) (by decide) rfl,
    (NewBazelSourceFileTarget_digest sha256 exHost exNameLabel [7] exFS1 exWorkDir).2.2.1
      [47, 119, 47, 112, 47, 102] (by decide) (by decide),
    (NewBazelSourceFileTarget_digest sha256 exHostDenied exNameLabel [7] exFS1 exWorkDir).2.2.2
      [47, 119, 47, 112, 47, 102] [] ⟨13⟩ (by decide) (by decide) rfl,
    (NewBazelSourceFileTarget_digest sha256 exHostNotDir exNameLabel [7] exFS1 exWorkDir).2.2.2
      [47, 119, 47, 112, 47, 102] [] ErrNotDir (by decide) (by decide) rfl,
    (NewBazelSourceFileTarget_digest sha256 exHostFile exNameLabel [7] exFS1 []).2.1
      (by decide)⟩

theorem replaceFirstColon_noColon :
    ∀ s : GoString, (58 : Byte) ∉ s → replaceFirstColon s = s := by
  intro s
  induction s with
  | nil => intro _; rfl
  | cons c rest ih =>
    intro h
    have hc : c ≠ 58 := fun e => h (by rw [e]; exact List.mem_cons_self _ _)
    have hr : (58 : Byte) ∉ rest := fun e => h (List.mem_cons_of_mem _ e)
    simp only [replaceFirstColon, if_neg hc, ih hr]

set_option maxRecDepth 100000 in
/-- C15 as stated fails for a name that starts with `//` and has no colon:
under the working directory `/w` the name `//foo` is looked up on the host.
When a file is there, its content `[1]` enters the digest, which then is not
the SHA-256 hash of the declared digest and the name; when the file cannot be
read, the function fails. -/
theorem noColon_name_reads_file :
    (58 : Byte) ∉ exNameFoo ∧
    NewBazelSourceFileTarget sha256 exHostFile exNameFoo [7] exFS1 exWorkDir =
      .ret (some ⟨exNameFoo, sha256 ([1] ++ [7] ++ exNameFoo)⟩) none ∧
    sha256 ([1] ++ [7] ++ exNameFoo) ≠ sha256 ([7] ++ exNameFoo) ∧
    NewBazelSourceFileTarget sha256 exHostDenied exNameFoo [7] exFS1 exWorkDir =
      .ret none (some ⟨13⟩) :=
  ⟨by decide, by decide!, by decide!, by decide!⟩

/-- C15, amended. If the working directory is empty or the name does not
start with `//`, `NewBazelSourceFileTarget` returns, on every host, a target
with the digest `Sum256 (declared ++ name)` and no error. A name that starts
with `//` is looked up under a non-empty working directory also when it has no
colon: the path is the working directory joined with the name after the
marker; when `os.Stat` does not report `os.ErrNotExist` there, the file is
read, its content is put in front of the declared digest, and a failing read
makes the function return the error of the read and no target; when `os.Stat`
reports `os.ErrNotExist`, the digest is `Sum256 (declared ++ name)`. -/
theorem no_lookup_without_root_or_marker (Sum256 : Bytes → Bytes) (name digest : Bytes)
    (filesystem : FS) (workingDirectory : GoString)
    (h : workingDirectory = [] ∨ hasPrefix name [47, 47] = false) :
    (∀ host : Host,
      NewBazelSourceFileTarget Sum256 host name digest filesystem workingDirectory =
        .ret (some ⟨name, Sum256 (digest ++ name)⟩) none) ∧
    (∀ (host : Host) (wd name2 : Bytes), wd ≠ [] → hasPrefix name2 [47, 47] = true →
      (58 : Byte) ∉ name2 →
      derivedPath host wd name2 = some (host.Join wd (name2.drop 2)) ∧
      (host.Stat (host.Join wd (name2.drop 2)) ≠ some ErrNotExist →
        (∀ content, host.ReadFile (host.Join wd (name2.drop 2)) = (content, none) →
          NewBazelSourceFileTarget Sum256 host name2 digest filesystem wd =
            .ret (some ⟨name2, Sum256 (content ++ digest ++ name2)⟩) none) ∧
        (∀ content err, host.ReadFile (host.Join wd (name2.drop 2)) = (content, some err) →
          NewBazelSourceFileTarget Sum256 host name2 digest filesystem wd =
            .ret none (some err))) ∧
      (host.Stat (host.Join wd (name2.drop 2)) = some ErrNotExist →
        NewBazelSourceFileTarget Sum256 host name2 digest filesystem wd =
          .ret (some ⟨name2, Sum256 (digest ++ name2)⟩) none)) := by
  constructor
  · intro host
    apply NewBazelSourceFileTarget_noPath
    unfold derivedPath
    rw [if_neg]
    rintro ⟨h1, h2⟩
    rcases h with h | h
    · exact h1 h
    · rw [h] at h2
      exact absurd h2 (by simp)
  · intro host wd name2 hwd hpre hcolon
    have hdrop : (58 : Byte) ∉ name2.drop 2 := fun e => hcolon (List.mem_of_mem_drop e)
    have hp : derivedPath host wd name2 = some (host.Join wd (name2.drop 2)) := by
      unfold derivedPath
      rw [if_pos ⟨hwd, hpre⟩, replaceFirstColon_noColon _ hdrop]
    refine ⟨hp, fun hex => ⟨fun content hread => ?_, fun content err hread => ?_⟩, fun hex => ?_⟩
    · rw [NewBazelSourceFileTarget_path Sum256 host name2 digest filesystem wd _ hp,
        if_pos ((fileExists_iff host _).2 hex), hread]
    · rw [NewBazelSourceFileTarget_path Sum256 host name2 digest filesystem wd _ hp,
        if_pos ((fileExists_iff host _).2 hex), hread]
    · rw [NewBazelSourceFileTarget_path Sum256 host name2 digest filesystem wd _ hp,
        (fileExists_false_iff host _).2 hex]
      simp

/-- C15, amended, on the name `s1`, which does not start with `//`, under
the working directory `/w`, and on the name `//foo` on three hosts: a readable
file, a file that cannot be read, and no file. -/
theorem no_lookup_without_root_or_marker_witness :
    (exWorkDir = [] ∨ hasPrefix exNameS [47, 47] = false) ∧
    (∀ host : Host,
      NewBazelSourceFileTarget sha256 host exNameS [7] exFS1 exWorkDir =
        .ret (some ⟨exNameS, sha256 ([7] ++ exNameS)⟩) none) ∧
    NewBazelSourceFileTarget sha256 exHostFile exNameFoo [7] exFS1 exWorkDir =
      .ret (some ⟨exNameFoo, sha256 ([1] ++ [7] ++ exNameFoo)⟩) none ∧
    NewBazelSourceFileTarget sha256 exHostDenied exNameFoo [7] exFS1 exWorkDir =
      .ret none (some ⟨13⟩) ∧
    NewBazelSourceFileTarget sha256 exHost exNameFoo [7] exFS1 exWorkDir =
      .ret (some ⟨exNameFoo, sha256 ([7] ++ exNameFoo)⟩) none :=
  have h := no_lookup_without_root_or_marker sha256 exNameS [7] exFS1 exWorkDir
    (Or.inr (by decide))
  ⟨Or.inr (by decide), h.1,
    ((h.2 exHostFile exWorkDir exNameFoo (by decide) (by decide) (by decide)).2.1
      (by decide)).1 [1] rfl,
    ((h.2 exHostDenied exWorkDir exNameFoo (by decide) (by decide) (by decide)).2.1
      (by decide)).2 [] ⟨13⟩ rfl,
    (h.2 exHost exWorkDir exNameFoo (by decide) (by decide) (by decide)).2.2 (by decide)⟩

/-! ## C12: a rule digest is computed once -/

section Once

variable (Sum256 : Bytes → Bytes) (idx : GoMap (Option BazelRule))
  (table : GoMap BazelSourceFileTarget) (seed : Option Bytes) (rank : GoString → Nat)

theorem foldRuleInputs_newKeys
    (recur : Option BazelRule → GoMap Bytes → Exec (Option Bytes) × GoMap Bytes) (n : Nat)
    (hrec : ∀ r2 c, InGraph idx r2 → rank r2.GetName < n →
      ∀ k, (recur (some r2) c).2.get k ≠ none → c.get k ≠ none ∨ rank k < n)
    (ruleName : GoString) :
    ∀ (inputs : List GoString),
      (∀ i ∈ inputs, ∀ r2, ruleAt idx i = some r2 → r2.GetName ≠ [] → r2.GetName ≠ ruleName →
        rank r2.GetName < n) →
      ∀ (buf : Bytes) (c : GoMap Bytes) (k : GoString),
        (foldRuleInputs recur idx table ruleName inputs buf c).2.get k ≠ none →
          c.get k ≠ none ∨ rank k < n := by
  intro inputs
  induction inputs with
  | nil =>
    intro _ buf c k h
    exact Or.inl (by simpa [foldRuleInputs] using h)
  | cons i rest ihl =>
    intro hsub buf c k
    have hrest : ∀ j ∈ rest, ∀ r2, ruleAt idx j = some r2 → r2.GetName ≠ [] →
        r2.GetName ≠ ruleName → rank r2.GetName < n :=
      fun j hj => hsub j (List.mem_cons_of_mem _ hj)
    rcases hsd : getDigestForSourceTargetName i table with ⟨sd, err⟩
    have herr : err = none := by
      have := getDigestForSourceTargetName_snd i table
      rw [hsd] at this
      exact this
    subst herr
    cases hidx : ruleAt idx i with
    | none =>
      simp only [foldRuleInputs, hsd, hidx]
      exact ihl hrest _ c k
    | some r =>
      by_cases hcond : r.GetName ≠ [] ∧ ¬ (r.GetName = ruleName)
      · simp only [foldRuleInputs, hsd, hidx, if_pos hcond]
        have hr := hrec r c ⟨i, hidx⟩ (hsub i (List.mem_cons_self _ _) r hidx hcond.1 hcond.2) k
        rcases hres : recur (some r) c with ⟨res, c1⟩
        rw [hres] at hr
        cases res with
        | ret v e =>
          cases e with
          | some err => exact hr
          | none =>
            simp only
            intro h
            rcases ihl hrest (writeIfNotNil (buf ++ i) v) c1 k h with h2 | h2
            · exact hr h2
            · exact Or.inr h2
        | panic => exact hr
        | timeout => exact hr
      · simp only [foldRuleInputs, hsd, hidx, if_neg hcond]
        exact ihl hrest _ c k

/-- On a graph that is acyclic apart from self-loops, a call of
`createDigestForRule` for a rule of the graph adds cache keys only under names
whose rank is at most the rank of the rule. -/
theorem createDigestForRule_newKeys (hacyc : Acyclic idx rank) :
    ∀ (depth : Nat) (r : BazelRule) (c : GoMap Bytes), InGraph idx r → ∀ k,
      (createDigestForRule Sum256 idx table seed depth (some r) c).2.get k ≠ none →
        c.get k ≠ none ∨ rank k ≤ rank r.GetName := by
  intro depth
  induction depth with
  | zero =>
    intro r c _ k h
    exact Or.inl (by simpa [createDigestForRule] using h)
  | succ n ih =>
    intro r c hr k
    cases hget : c.get r.GetName with
    | some d =>
      simp only [createDigestForRule, hget]
      exact Or.inl
    | none =>
      rcases hgd : r.GetDigest with ⟨rd, err⟩
      cases err with
      | some e =>
        simp only [createDigestForRule, hget, hgd]
        exact Or.inl
      | none =>
        have hf := foldRuleInputs_newKeys idx table rank
          (createDigestForRule Sum256 idx table seed n) (rank r.GetName)
          (fun r2 c2 h2 hlt k2 hk2 => by
            rcases ih r2 c2 h2 k2 hk2 with h3 | h3
            · exact Or.inl h3
            · exact Or.inr (by omega))
          r.GetName r.GetRuleInputList (hacyc r hr) (writeIfNotNil ([] ++ rd) seed) c k
        rcases hfold : foldRuleInputs (createDigestForRule Sum256 idx table seed n) idx table
          r.GetName r.GetRuleInputList (writeIfNotNil ([] ++ rd) seed) c with ⟨flow, c1⟩
        rw [hfold] at hf
        cases flow with
        | returned x =>
          simp only [createDigestForRule, hget, hgd, hfold]
          intro h
          rcases hf h with h2 | h2
          · exact Or.inl h2
          · exact Or.inr (by omega)
        | running buf =>
          simp only [createDigestForRule, hget, hgd, hfold]
          intro h
          by_cases e : r.GetName = k
          · exact Or.inr (by rw [e])
          · rw [GoMap.get_set_ne _ _ e] at h
            rcases hf h with h2 | h2
            · exact Or.inl h2
            · exact Or.inr (by omega)

/-- The one write of a call that computes a digest goes to a key the cache
does not hold yet. -/
theorem createDigestForRule_write_fresh (hacyc : Acyclic idx rank) (depth : Nat) (r : BazelRule)
    (hr : InGraph idx r) (c : GoMap Bytes) (hmiss : c.get r.GetName = none) (v : Option Bytes)
    (c2 : GoMap Bytes)
    (hres : createDigestForRule Sum256 idx table seed depth (some r) c = (.ret v none, c2)) :
    ∃ d c1, v = some d ∧ c2 = c1.set r.GetName d ∧ c1.get r.GetName = none ∧
      CacheKeeps c c1 := by
  cases depth with
  | zero => simp [createDigestForRule] at hres
  | succ n =>
    rcases hgd : r.GetDigest with ⟨rd, err⟩
    cases err with
    | some e => simp [createDigestForRule, hmiss, hgd] at hres
    | none =>
      have hkeep := foldRuleInputs_general idx table
        (createDigestForRule Sum256 idx table seed n)
        (fun r2 c2 h2 => ⟨(createDigestForRule_general Sum256 idx table seed n r2 c2 h2).1,
          (createDigestForRule_general Sum256 idx table seed n r2 c2 h2).2.1,
          (createDigestForRule_general Sum256 idx table seed n r2 c2 h2).2.2.1⟩)
        r.GetName r.GetRuleInputList (writeIfNotNil ([] ++ rd) seed) c
      have hnew := foldRuleInputs_newKeys idx table rank
        (createDigestForRule Sum256 idx table seed n) (rank r.GetName)
        (fun r2 c2 h2 hlt k2 hk2 => by
          rcases createDigestForRule_newKeys Sum256 idx table seed rank hacyc n r2 c2 h2 k2 hk2
            with h3 | h3
          · exact Or.inl h3
          · exact Or.inr (by omega))
        r.GetName r.GetRuleInputList (hacyc r hr) (writeIfNotNil ([] ++ rd) seed) c r.GetName
      rcases hfold : foldRuleInputs (createDigestForRule Sum256 idx table seed n) idx table
        r.GetName r.GetRuleInputList (writeIfNotNil ([] ++ rd) seed) c with ⟨flow, c1⟩
      rw [hfold] at hkeep hnew
      cases flow with
      | returned x =>
        simp only [createDigestForRule, hmiss, hgd, hfold, Prod.mk.injEq] at hres
        exact absurd hres.1 ((hkeep.2.2 x rfl).1 v)
      | running buf =>
        simp only [createDigestForRule, hmiss, hgd, hfold, Prod.mk.injEq, Exec.ret.injEq,
          and_true] at hres
        refine ⟨Sum256 buf, c1, hres.1.symm, hres.2.symm, ?_, hkeep.1⟩
        by_contra hne
        rcases hnew hne with h | h
        · exact h hmiss
        · exact absurd h (Nat.lt_irrefl _)

end Once

/-- C12. On a rule graph that is acyclic apart from direct self-loops, for
every rule `r` of the graph, every cache and every depth budget: once the
cache holds an entry under the name of `r`, a call of `createDigestForRule`
for any rule value of that name returns that entry and the cache as it was,
whatever the hash function and whatever `GetDigest` of the rule would return;
every call keeps every entry the cache held; and a call that starts without
an entry for `r` and returns a digest has written it, after the nested calls,
under a key that the cache did not hold, so no entry is overwritten. -/
theorem createDigestForRule_computes_once (Sum256 : Bytes → Bytes)
    (idx : GoMap (Option BazelRule)) (table : GoMap BazelSourceFileTarget)
    (seed : Option Bytes) (rank : GoString → Nat) (hacyc : Acyclic idx rank) (depth : Nat)
    (r : BazelRule) (hr : InGraph idx r) (c : GoMap Bytes) :
    (∀ d, c.get r.GetName = some d →
      ∀ (Sum256b : Bytes → Bytes) (b : BazelRule), b.GetName = r.GetName →
        createDigestForRule Sum256b idx table seed (depth + 1) (some b) c =
          (.ret (some d) none, c)) ∧
    CacheKeeps c (createDigestForRule Sum256 idx table seed depth (some r) c).2 ∧
    (c.get r.GetName = none → ∀ v c2,
      createDigestForRule Sum256 idx table seed depth (some r) c = (.ret v none, c2) →
      ∃ d c1, v = some d ∧ c2 = c1.set r.GetName d ∧ c1.get r.GetName = none ∧
        CacheKeeps c c1) := by
  refine ⟨?_, (createDigestForRule_general Sum256 idx table seed depth r c hr).1, ?_⟩
  · intro d hd Sum256b b hb
    exact createDigestForRule_hit Sum256b idx table seed depth c b d (by rw [hb]; exact hd)
  · intro hmiss v c2 hres
    exact createDigestForRule_write_fresh Sum256 idx table seed rank hacyc depth r hr c hmiss v
      c2 hres

set_option maxRecDepth 100000 in
/-- C12 on the sample graph, for rule `B`: from the empty cache the call
writes the digests of `A` and of `B` once each, and a second call from the
cache it left returns the entry of `B` and leaves the cache as it is. -/
theorem createDigestForRule_computes_once_witness :
    Acyclic (indexOf exClient exTargets) exRank ∧ InGraph (indexOf exClient exTargets) exRuleB ∧
    (∃ d c1,
      some (sha256 ([2] ++ (exNameA ++ sha256 [1]) ++ (exNameS ++ [7]) ++ exNameB)) = some d ∧
      (⟨[(exNameB, sha256 ([2] ++ (exNameA ++ sha256 [1]) ++ (exNameS ++ [7]) ++ exNameB)),
          (exNameA, sha256 [1])]⟩ : GoMap Bytes) = c1.set exRuleB.GetName d ∧
      c1.get exRuleB.GetName = none ∧ CacheKeeps GoMap.empty c1) ∧
    (∀ (Sum256b : Bytes → Bytes) (b : BazelRule), b.GetName = exRuleB.GetName →
      createDigestForRule Sum256b (indexOf exClient exTargets) (exTable [7]) none (1 + 1) (some b)
          ⟨[(exNameB, [5])]⟩ = (.ret (some [5]) none, ⟨[(exNameB, [5])]⟩)) :=
  ⟨exIndex_acyclic, exIndex_inGraphB,
    (createDigestForRule_computes_once sha256 (indexOf exClient exTargets) (exTable [7]) none
      exRank exIndex_acyclic 2 exRuleB exIndex_inGraphB GoMap.empty).2.2 rfl _ _ (by decide!),
    (createDigestForRule_computes_once sha256 (indexOf exClient exTargets) (exTable [7]) none
      exRank exIndex_acyclic 1 exRuleB exIndex_inGraphB ⟨[(exNameB, [5])]⟩).1 [5] (by decide)⟩

/-! ## C13: the recursion terminates -/

section Termination

variable (Sum256 : Bytes → Bytes) (idx : GoMap (Option BazelRule))
  (table : GoMap BazelSourceFileTarget) (seed : Option Bytes)

theorem recursesInto_inGraph {r r2 : BazelRule} (h : RecursesInto idx r r2) : InGraph idx r2 := by
  obtain ⟨i, _, hat, _⟩ := h
  exact ⟨i, hat⟩

theorem graphRules_length : (graphRules idx).length ≤ idx.entries.length := by
  unfold graphRules
  exact List.length_filterMap_le _ _

theorem stack_inGraph : ∀ (l : List BazelRule) (a : BazelRule),
    List.Chain (CalledFrom idx) a l → ∀ x ∈ (a :: l).dropLast, InGraph idx x := by
  intro l
  induction l with
  | nil => intro a _ x hx; simp at hx
  | cons b rest ih =>
    intro a h x hx
    rw [List.chain_cons] at h
    rw [List.dropLast_cons₂, List.mem_cons] at hx
    rcases hx with e | e
    · rw [e]
      exact recursesInto_inGraph idx h.1
    · exact ih b h.2 x e

theorem stack_nodup (hno : OnlySelfLoops idx) (a : BazelRule) (l : List BazelRule)
    (h : List.Chain (CalledFrom idx) a l) : (a :: l).Nodup := by
  have h1 : List.Chain (Relation.TransGen (CalledFrom idx)) a l :=
    h.imp (fun _ _ hab => Relation.TransGen.single hab)
  have h2 := List.chain_iff_pairwise.1 h1
  refine h2.imp ?_
  intro x y hxy e
  subst e
  have : Relation.TransGen (RecursesInto idx) x x := by
    have := Relation.transGen_swap.1 hxy
    exact this
  exact hno x this

/-- The call stack of the recursion holds at most as many rules, below the
current one, as the index has entries. -/
theorem stack_length (hno : OnlySelfLoops idx) (a : BazelRule) (l : List BazelRule)
    (h : List.Chain (CalledFrom idx) a l) : l.length ≤ idx.entries.length := by
  have hnd : ((a :: l).dropLast).Nodup := (stack_nodup idx hno a l h).sublist (List.dropLast_sublist _)
  have hsub : (a :: l).dropLast ⊆ graphRules idx :=
    fun x hx => inGraph_graphRules (stack_inGraph idx l a h x hx)
  have := (List.subperm_of_subset hnd hsub).length_le
  have hl : ((a :: l).dropLast).length = l.length := by simp
  rw [hl] at this
  exact this.trans (graphRules_length idx)

theorem foldRuleInputs_returns
    (recur : Option BazelRule → GoMap Bytes → Exec (Option Bytes) × GoMap Bytes)
    (ruleName : GoString) :
    ∀ (inputs : List GoString),
      (∀ i ∈ inputs, ∀ r2, ruleAt idx i = some r2 → r2.GetName ≠ [] → r2.GetName ≠ ruleName →
        ∀ c, ∃ v e c2, recur (some r2) c = (.ret v e, c2)) →
      ∀ (buf : Bytes) (c : GoMap Bytes),
        (∃ b c2, foldRuleInputs recur idx table ruleName inputs buf c = (.running b, c2)) ∨
        (∃ v e c2, foldRuleInputs recur idx table ruleName inputs buf c =
          (.returned (.ret v e), c2)) := by
  intro inputs
  induction inputs with
  | nil =>
    intro _ buf c
    exact Or.inl ⟨buf, c, rfl⟩
  | cons i rest ihl =>
    intro hsub buf c
    have hrest : ∀ j ∈ rest, ∀ r2, ruleAt idx j = some r2 → r2.GetName ≠ [] →
        r2.GetName ≠ ruleName → ∀ c, ∃ v e c2, recur (some r2) c = (.ret v e, c2) :=
      fun j hj => hsub j (List.mem_cons_of_mem _ hj)
    rcases hsd : getDigestForSourceTargetName i table with ⟨sd, err⟩
    have herr : err = none := by
      have := getDigestForSourceTargetName_snd i table
      rw [hsd] at this
      exact this
    subst herr
    cases hidx : ruleAt idx i with
    | none =>
      simp only [foldRuleInputs, hsd, hidx]
      exact ihl hrest _ c
    | some r =>
      by_cases hcond : r.GetName ≠ [] ∧ ¬ (r.GetName = ruleName)
      · simp only [foldRuleInputs, hsd, hidx, if_pos hcond]
        obtain ⟨v, e, c1, hres⟩ := hsub i (List.mem_cons_self _ _) r hidx hcond.1 hcond.2 c
        rw [hres]
        cases e with
        | some err => exact Or.inr ⟨none, some err, c1, rfl⟩
        | none => exact ihl hrest _ c1
      · simp only [foldRuleInputs, hsd, hidx, if_neg hcond]
        exact ihl hrest _ c

/-- With a call stack `stack` below the rule `r` and a budget that covers the
rest of the index, the call for `r` returns. -/
theorem createDigestForRule_returns_stack (hno : OnlySelfLoops idx) :
    ∀ (depth : Nat) (r : BazelRule) (stack : List BazelRule) (c : GoMap Bytes),
      List.Chain (CalledFrom idx) r stack → idx.entries.length + 1 ≤ depth + stack.length →
      ∃ v e c2, createDigestForRule Sum256 idx table seed depth (some r) c = (.ret v e, c2) := by
  intro depth
  induction depth with
  | zero =>
    intro r stack c h hlen
    have := stack_length idx hno r stack h
    omega
  | succ n ih =>
    intro r stack c h hlen
    cases hget : c.get r.GetName with
    | some d => exact ⟨some d, none, c, by simp only [createDigestForRule, hget]⟩
    | none =>
      rcases hgd : r.GetDigest with ⟨rd, err⟩
      cases err with
      | some e => exact ⟨none, some e, c, by simp only [createDigestForRule, hget, hgd]⟩
      | none =>
        have hf := foldRuleInputs_returns idx table
          (createDigestForRule Sum256 idx table seed n) r.GetName r.GetRuleInputList
          (fun i hi r2 hat hne hself c2 =>
            ih r2 (r :: stack) c2 (List.Chain.cons ⟨i, hi, hat, hne, hself⟩ h)
              (by simp only [List.length_cons]; omega))
          (writeIfNotNil ([] ++ rd) seed) c
        rcases hf with ⟨b, c2, hfold⟩ | ⟨v, e, c2, hfold⟩
        · exact ⟨some (Sum256 b), none, c2.set r.GetName (Sum256 b),
            by simp only [createDigestForRule, hget, hgd, hfold]⟩
        · exact ⟨v, e, c2, by simp only [createDigestForRule, hget, hgd, hfold]⟩

theorem recursion_acc (hno : OnlySelfLoops idx) :
    ∀ (m : Nat) (r : BazelRule) (stack : List BazelRule),
      List.Chain (CalledFrom idx) r stack → idx.entries.length + 1 ≤ m + stack.length →
      Acc (CalledFrom idx) r := by
  intro m
  induction m with
  | zero =>
    intro r stack h hlen
    have := stack_length idx hno r stack h
    omega
  | succ n ih =>
    intro r stack h hlen
    refine Acc.intro r (fun r2 h2 => ?_)
    exact ih r2 (r :: stack) (List.Chain.cons h2 h) (by simp only [List.length_cons]; omega)

theorem foldRuleInputs_budget
    (recur1 recur2 : Option BazelRule → GoMap Bytes → Exec (Option Bytes) × GoMap Bytes)
    (hrec : ∀ r c, (recur1 (some r) c).1 ≠ .timeout → recur2 (some r) c = recur1 (some r) c)
    (ruleName : GoString) :
    ∀ (inputs : List GoString) (buf : Bytes) (c : GoMap Bytes),
      (foldRuleInputs recur1 idx table ruleName inputs buf c).1 ≠ .returned .timeout →
      foldRuleInputs recur2 idx table ruleName inputs buf c =
        foldRuleInputs recur1 idx table ruleName inputs buf c := by
  intro inputs
  induction inputs with
  | nil => intro buf c _; rfl
  | cons i rest ihl =>
    intro buf c
    rcases hsd : getDigestForSourceTargetName i table with ⟨sd, err⟩
    have herr : err = none := by
      have := getDigestForSourceTargetName_snd i table
      rw [hsd] at this
      exact this
    subst herr
    cases hidx : ruleAt idx i with
    | none =>
      simp only [foldRuleInputs, hsd, hidx]
      exact ihl _ c
    | some r =>
      by_cases hcond : r.GetName ≠ [] ∧ ¬ (r.GetName = ruleName)
      · simp only [foldRuleInputs, hsd, hidx, if_pos hcond]
        have h2 := hrec r c
        rcases hres : recur1 (some r) c with ⟨res, c1⟩
        rw [hres] at h2
        cases res with
        | ret v e =>
          rw [h2 (by simp)]
          cases e with
          | some err => intro _; rfl
          | none => exact ihl _ c1
        | panic =>
          rw [h2 (by simp)]
          intro _
          rfl
        | timeout =>
          intro h
          exact absurd rfl h
      · simp only [foldRuleInputs, hsd, hidx, if_neg hcond]
        exact ihl _ c

/-- A call that does not run out of budget gives the same result with a
larger budget. -/
theorem createDigestForRule_budget_succ :
    ∀ (depth : Nat) (r : BazelRule) (c : GoMap Bytes),
      (createDigestForRule Sum256 idx table seed depth (some r) c).1 ≠ .timeout →
      createDigestForRule Sum256 idx table seed (depth + 1) (some r) c =
        createDigestForRule Sum256 idx table seed depth (some r) c := by
  intro depth
  induction depth with
  | zero =>
    intro r c h
    exact absurd rfl h
  | succ n ih =>
    intro r c
    cases hget : c.get r.GetName with
    | some d =>
      intro _
      simp only [createDigestForRule, hget]
    | none =>
      rcases hgd : r.GetDigest with ⟨rd, err⟩
      cases err with
      | some e =>
        intro _
        simp only [createDigestForRule, hget, hgd]
      | none =>
        have hf := foldRuleInputs_budget idx table
          (createDigestForRule Sum256 idx table seed n)
          (createDigestForRule Sum256 idx table seed (n + 1)) ih
          r.GetName r.GetRuleInputList (writeIfNotNil ([] ++ rd) seed) c
        rcases hfold : foldRuleInputs (createDigestForRule Sum256 idx table seed n) idx table
          r.GetName r.GetRuleInputList (writeIfNotNil ([] ++ rd) seed) c with ⟨flow, c1⟩
        rw [hfold] at hf
        intro h
        have hne : flow ≠ .returned .timeout := by
          intro e
          subst e
          simp only [createDigestForRule, hget, hgd, hfold] at h
          exact h rfl
        have hf2 := hf hne
        rw [createDigestForRule, createDigestForRule]
        simp only [hget, hgd, hf2, hfold]

theorem createDigestForRule_budget (d1 : Nat) (r : BazelRule) (c : GoMap Bytes)
    (h : (createDigestForRule Sum256 idx table seed d1 (some r) c).1 ≠ .timeout) :
    ∀ d2, d1 ≤ d2 →
      createDigestForRule Sum256 idx table seed d2 (some r) c =
        createDigestForRule Sum256 idx table seed d1 (some r) c := by
  intro d2 hle
  induction d2 with
  | zero =>
    have : d1 = 0 := by omega
    rw [this]
  | succ n ih =>
    by_cases e : d1 = n + 1
    · rw [e]
    · have h2 := ih (by omega)
      rw [createDigestForRule_budget_succ Sum256 idx table seed n r c (by rw [h2]; exact h), h2]

end Termination

section Run

variable (Sum256 : Bytes → Bytes) (t : targetHashingClient) (idx : GoMap (Option BazelRule))
  (table : GoMap BazelSourceFileTarget) (seed : Option Bytes)

theorem createDigestForRule_budget_any (d1 : Nat) (o : Option BazelRule) (c : GoMap Bytes)
    (h : (createDigestForRule Sum256 idx table seed d1 o c).1 ≠ .timeout) (d2 : Nat)
    (hle : d1 ≤ d2) :
    createDigestForRule Sum256 idx table seed d2 o c =
      createDigestForRule Sum256 idx table seed d1 o c := by
  cases o with
  | some r => exact createDigestForRule_budget Sum256 idx table seed d1 r c h d2 hle
  | none =>
    cases d1 with
    | zero => exact absurd rfl h
    | succ n =>
      obtain ⟨m, hm⟩ : ∃ m, d2 = m + 1 := ⟨d2 - 1, by omega⟩
      rw [hm]
      rfl

theorem createDigestForTarget_budget (d1 : Nat) (target : Target) (c : GoMap Bytes)
    (h : (createDigestForTarget Sum256 t d1 target idx table c seed).1 ≠ .timeout) (d2 : Nat)
    (hle : d1 ≤ d2) :
    createDigestForTarget Sum256 t d2 target idx table c seed =
      createDigestForTarget Sum256 t d1 target idx table c seed := by
  unfold createDigestForTarget at h ⊢
  by_cases hcond : target.SourceFile ≠ none ∧ getNameForTarget target ≠ []
  · simp only [if_pos hcond]
  · simp only [if_neg hcond] at h ⊢
    cases hG : target.GeneratedFile with
    | some g =>
      simp only [hG] at h ⊢
      cases hget : c.get g.GeneratingRule with
      | none => rfl
      | some d =>
        simp only [hget] at h ⊢
        exact createDigestForRule_budget_any Sum256 idx table seed d1 _ c h d2 hle
    | none =>
      simp only [hG] at h ⊢
      exact createDigestForRule_budget_any Sum256 idx table seed d1 _ c h d2 hle

theorem digestTargets_budget (d1 d2 : Nat) (hle : d1 ≤ d2) :
    ∀ (todo : List Target) (st : GoMap GoString × GoMap Bytes),
      digestTargets Sum256 t d1 idx table seed todo st ≠ .returned .timeout →
      digestTargets Sum256 t d2 idx table seed todo st =
        digestTargets Sum256 t d1 idx table seed todo st := by
  intro todo
  induction todo with
  | nil => intro st _; simp only [digestTargets]
  | cons target rest ih =>
    rintro ⟨s, c⟩ h
    by_cases hn : getNameForTarget target = []
    · rw [digestTargets_skip Sum256 t idx table seed d1 target rest _ hn] at h ⊢
      rw [digestTargets_skip Sum256 t idx table seed d2 target rest _ hn]
      exact ih _ h
    · rcases hres : createDigestForTarget Sum256 t d1 target idx table c seed with ⟨res, c1⟩
      have hnt : res ≠ .timeout := by
        intro e
        subst e
        rw [digestTargets_timeout Sum256 t idx table seed d1 target rest s c c1 hn hres] at h
        exact h rfl
      have hres2 : createDigestForTarget Sum256 t d2 target idx table c seed = (res, c1) := by
        rw [createDigestForTarget_budget Sum256 t idx table seed d1 target c
          (by rw [hres]; exact hnt) d2 hle, hres]
      cases res with
      | ret v e =>
        cases e with
        | some err =>
          rw [digestTargets_err Sum256 t idx table seed d1 target rest s c c1 v err hn hres,
            digestTargets_err Sum256 t idx table seed d2 target rest s c c1 v err hn hres2]
        | none =>
          rw [digestTargets_ok Sum256 t idx table seed d1 target rest s c c1 v hn hres] at h ⊢
          rw [digestTargets_ok Sum256 t idx table seed d2 target rest s c c1 v hn hres2]
          exact ih _ h
      | panic =>
        rw [digestTargets_panic Sum256 t idx table seed d1 target rest s c c1 hn hres,
          digestTargets_panic Sum256 t idx table seed d2 target rest s c c1 hn hres2]
      | timeout => exact absurd rfl hnt

theorem createDigestForTarget_no_timeout (hno : OnlySelfLoops idx) (depth : Nat)
    (hdepth : idx.entries.length + 1 ≤ depth) (target : Target) (c : GoMap Bytes) :
    (createDigestForTarget Sum256 t depth target idx table c seed).1 ≠ .timeout := by
  have hrule : ∀ o : Option BazelRule,
      (createDigestForRule Sum256 idx table seed depth o c).1 ≠ .timeout := by
    intro o
    cases o with
    | none =>
      obtain ⟨m, hm⟩ : ∃ m, depth = m + 1 := ⟨depth - 1, by omega⟩
      rw [hm]
      simp [createDigestForRule]
    | some r =>
      obtain ⟨v, e, c2, h⟩ := createDigestForRule_returns_stack Sum256 idx table seed hno depth r
        [] c List.Chain.nil (by simpa using hdepth)
      rw [h]
      simp
  unfold createDigestForTarget
  by_cases hcond : target.SourceFile ≠ none ∧ getNameForTarget target ≠ []
  · simp only [if_pos hcond]
    rcases hsd : getDigestForSourceTargetName (getNameForTarget target) table with ⟨sd, err⟩
    cases err <;> simp
  · simp only [if_neg hcond]
    cases hG : target.GeneratedFile with
    | some g =>
      simp only
      cases hget : c.get g.GeneratingRule with
      | none => simp
      | some d => exact hrule _
    | none => exact hrule _

theorem digestTargets_no_timeout (hno : OnlySelfLoops idx) (depth : Nat)
    (hdepth : idx.entries.length + 1 ≤ depth) :
    ∀ (todo : List Target) (st : GoMap GoString × GoMap Bytes),
      digestTargets Sum256 t depth idx table seed todo st ≠ .returned .timeout := by
  intro todo
  induction todo with
  | nil => intro st; simp [digestTargets]
  | cons target rest ih =>
    rintro ⟨s, c⟩
    by_cases hn : getNameForTarget target = []
    · rw [digestTargets_skip Sum256 t idx table seed depth target rest _ hn]
      exact ih _
    · rcases hres : createDigestForTarget Sum256 t depth target idx table c seed with ⟨res, c1⟩
      have hnt := createDigestForTarget_no_timeout Sum256 t idx table seed hno depth hdepth
        target c
      rw [hres] at hnt
      cases res with
      | ret v e =>
        cases e with
        | some err =>
          rw [digestTargets_err Sum256 t idx table seed depth target rest s c c1 v err hn hres]
          simp
        | none =>
          rw [digestTargets_ok Sum256 t idx table seed depth target rest s c c1 v hn hres]
          exact ih _
      | panic =>
        rw [digestTargets_panic Sum256 t idx table seed depth target rest s c c1 hn hres]
        simp
      | timeout => exact absurd rfl hnt

theorem hashAllTargets_no_timeout (hidx : indexOf t t.bazelClient.QueryAllTargets.1 = idx)
    (hno : OnlySelfLoops idx) (depth : Nat) (hdepth : idx.entries.length + 1 ≤ depth) :
    hashAllTargets Sum256 t depth seed table ≠ .timeout ∧
    hashAllTargets Sum256 t depth seed table =
      hashAllTargets Sum256 t (idx.entries.length + 1) seed table := by
  rcases hq : t.bazelClient.QueryAllTargets with ⟨targets, err⟩
  rw [hq] at hidx
  simp only at hidx
  cases err with
  | some e => simp [hashAllTargets, hq]
  | none =>
    rw [hashAllTargets_eq Sum256 t depth seed table targets hq,
      hashAllTargets_eq Sum256 t _ seed table targets hq, hidx]
    have h1 := digestTargets_no_timeout Sum256 t idx table seed hno _ (Nat.le_refl _) targets
      (GoMap.empty, GoMap.empty)
    have h2 := digestTargets_budget Sum256 t idx table seed _ depth hdepth targets
      (GoMap.empty, GoMap.empty) h1
    rw [h2]
    refine ⟨?_, rfl⟩
    rcases hd : digestTargets Sum256 t (idx.entries.length + 1) idx table seed targets
      (GoMap.empty, GoMap.empty) with x | ⟨s, c⟩
    · rw [hd] at h1
      simp only
      intro e
      exact h1 (by rw [e])
    · simp

end Run

theorem onlySelfLoops_of_acyclic {idx : GoMap (Option BazelRule)} {rank : GoString → Nat}
    (hacyc : Acyclic idx rank) : OnlySelfLoops idx := by
  have key : ∀ a b, Relation.TransGen (RecursesInto idx) a b → InGraph idx a →
      InGraph idx b ∧ rank b.GetName < rank a.GetName := by
    intro a b h
    induction h with
    | single h1 =>
      intro ha
      obtain ⟨i, hi, hat, hne, hself⟩ := h1
      exact ⟨⟨i, hat⟩, hacyc a ha i hi _ hat hne hself⟩
    | tail _ h2 ih =>
      intro ha
      obtain ⟨hb, hlt⟩ := ih ha
      obtain ⟨i, hi, hat, hne, hself⟩ := h2
      exact ⟨⟨i, hat⟩, (hacyc _ hb i hi _ hat hne hself).trans hlt⟩
  intro r h
  have hr : InGraph idx r := by
    cases h with
    | single h1 => exact recursesInto_inGraph idx h1
    | tail _ h2 => exact recursesInto_inGraph idx h2
  exact absurd (key r r h hr).2 (Nat.lt_irrefl _)

/-- C13. On every index in which no rule reaches itself through one or more
recursion edges, that is, in which the only cycles among the rule-input edges
are direct self-loops: the call relation of `createDigestForRule` is
well-founded; with a depth budget above the number of entries of the index,
the call for every rule and from every cache returns, with a result that does
not depend on the budget; and `hashAllTargets` on a query result with that
index does not run out of budget either, again with a result that does not
depend on the budget. -/
theorem recursion_terminates (Sum256 : Bytes → Bytes) (idx : GoMap (Option BazelRule))
    (table : GoMap BazelSourceFileTarget) (seed : Option Bytes) (hno : OnlySelfLoops idx) :
    WellFounded (CalledFrom idx) ∧
    (∀ (depth : Nat) (r : BazelRule) (c : GoMap Bytes), idx.entries.length + 1 ≤ depth →
      ∃ v e c2, createDigestForRule Sum256 idx table seed depth (some r) c = (.ret v e, c2) ∧
        createDigestForRule Sum256 idx table seed (idx.entries.length + 1) (some r) c =
          (.ret v e, c2)) ∧
    (∀ t : targetHashingClient, indexOf t t.bazelClient.QueryAllTargets.1 = idx →
      ∀ depth, idx.entries.length + 1 ≤ depth →
        hashAllTargets Sum256 t depth seed table ≠ .timeout ∧
        hashAllTargets Sum256 t depth seed table =
          hashAllTargets Sum256 t (idx.entries.length + 1) seed table) := by
  refine ⟨⟨fun r => recursion_acc idx hno (idx.entries.length + 1) r [] List.Chain.nil
    (by simp)⟩, ?_, ?_⟩
  · intro depth r c hdepth
    obtain ⟨v, e, c2, h⟩ := createDigestForRule_returns_stack Sum256 idx table seed hno
      (idx.entries.length + 1) r [] c List.Chain.nil (by simp)
    refine ⟨v, e, c2, ?_, h⟩
    rw [createDigestForRule_budget Sum256 idx table seed _ r c (by rw [h]; simp) depth hdepth, h]
  · intro t hidx depth hdepth
    exact hashAllTargets_no_timeout Sum256 t idx table seed hidx hno depth hdepth

/-- C13 on the sample query result, in which rule `B` lists itself and
recurses into rule `A`. -/
theorem recursion_terminates_witness :
    OnlySelfLoops (indexOf exClient exTargets) ∧
    RecursesInto (indexOf exClient exTargets) exRuleB exRuleA ∧
    exRuleB.GetName ∈ exRuleB.GetRuleInputList ∧
    WellFounded (CalledFrom (indexOf exClient exTargets)) ∧
    (∃ v e c2, createDigestForRule sha256 (indexOf exClient exTargets) (exTable [7]) none 9
        (some exRuleB) GoMap.empty = (.ret v e, c2) ∧
      createDigestForRule sha256 (indexOf exClient exTargets) (exTable [7]) none
        ((indexOf exClient exTargets).entries.length + 1) (some exRuleB) GoMap.empty =
          (.ret v e, c2)) ∧
    hashAllTargets sha256 exClient 9 none (exTable [7]) ≠ .timeout ∧
    hashAllTargets sha256 exClient 9 none (exTable [7]) =
      hashAllTargets sha256 exClient ((indexOf exClient exTargets).entries.length + 1) none
        (exTable [7]) :=
  have h := recursion_terminates sha256 (indexOf exClient exTargets) (exTable [7]) none
    (onlySelfLoops_of_acyclic exIndex_acyclic)
  ⟨onlySelfLoops_of_acyclic exIndex_acyclic,
    ⟨exNameA, by decide, by rw [exIndex_eq]; decide, by decide, by decide⟩, by decide,
    h.1, h.2.1 9 exRuleB GoMap.empty (by decide), h.2.2 exClient rfl 9 (by decide)⟩

/-! ## C18: a generated file whose generating rule has no cache entry -/

theorem createDigestForTarget_miss (Sum256 : Bytes → Bytes) (t : targetHashingClient)
    (depth : Nat) (idx : GoMap (Option BazelRule)) (table : GoMap BazelSourceFileTarget)
    (seed : Option Bytes) (target : Target) (g : GeneratedFile)
    (hG : target.GeneratedFile = some g) (hS : target.SourceFile = none) (c : GoMap Bytes)
    (hmiss : c.get g.GeneratingRule = none) :
    createDigestForTarget Sum256 t depth target idx table c seed = (.ret none none, c) := by
  have hcond : ¬ (target.SourceFile ≠ none ∧ getNameForTarget target ≠ []) := by
    rw [hS]
    simp
  simp only [createDigestForTarget, if_neg hcond, hG, hmiss]

theorem digestTargets_miss (Sum256 : Bytes → Bytes) (t : targetHashingClient)
    (depth : Nat) (idx : GoMap (Option BazelRule)) (table : GoMap BazelSourceFileTarget)
    (seed : Option Bytes) (target : Target) (g : GeneratedFile)
    (hG : target.GeneratedFile = some g) (hS : target.SourceFile = none) (c : GoMap Bytes)
    (hmiss : c.get g.GeneratingRule = none) (rest : List Target) (s : GoMap GoString) :
    digestTargets Sum256 t depth idx table seed (target :: rest) (s, c) =
      digestTargets Sum256 t depth idx table seed rest (s, c) := by
  by_cases hn : getNameForTarget target = []
  · exact digestTargets_skip Sum256 t idx table seed depth target rest _ hn
  · rw [digestTargets_ok Sum256 t idx table seed depth target rest s c c none hn
      (createDigestForTarget_miss Sum256 t depth idx table seed target g hG hS c hmiss)]
    rfl

/-- C18. For a generated-file target (no source-file variant): while the
cache has no entry under the name of its generating rule, `createDigestForTarget`
returns no digest and no error and leaves the cache as it is, whatever the
index holds, and the second loop of `hashAllTargets` goes on with the same
snapshot and cache. When such a target with a non-empty name stands first in
a well-formed, acyclic query result whose declared digests are available,
`hashAllTargets` returns a snapshot without an entry under its name, while
every rule target after it, its generating rule included, has its entry. -/
theorem generatedFile_miss_no_entry (Sum256 : Bytes → Bytes) (t : targetHashingClient)
    (depth : Nat) (table : GoMap BazelSourceFileTarget) (seed : Option Bytes) (target : Target)
    (g : GeneratedFile) (hG : target.GeneratedFile = some g) (hS : target.SourceFile = none) :
    (∀ (idx : GoMap (Option BazelRule)) (c : GoMap Bytes), c.get g.GeneratingRule = none →
      createDigestForTarget Sum256 t depth target idx table c seed = (.ret none none, c) ∧
      ∀ (rest : List Target) (s : GoMap GoString),
        digestTargets Sum256 t depth idx table seed (target :: rest) (s, c) =
          digestTargets Sum256 t depth idx table seed rest (s, c)) ∧
    (∀ (rest : List Target) (rank : GoString → Nat), WellFormedQuery t (target :: rest) →
      Acyclic (indexOf t (target :: rest)) rank →
      (∀ b, InGraph (indexOf t (target :: rest)) b → rank b.GetName < depth) →
      ¬ SomeDigestFails t (target :: rest) → g.Name ≠ [] →
      ∃ snap, hashAllTargets Sum256 t depth seed table = .ret (some snap) none ∧
        snap.get g.Name = none ∧
        ∀ tr ∈ rest, ∀ r b, tr.Rule = some r → r.Name ≠ [] →
          t.ruleProvider.GetRule (some r) = some b →
          snap.get r.Name = some (convertByteArrayToString
            (refDigest Sum256 (indexOf t (target :: rest)) table seed depth b))) := by
  refine ⟨fun idx c hmiss =>
    ⟨createDigestForTarget_miss Sum256 t depth idx table seed target g hG hS c hmiss,
      digestTargets_miss Sum256 t depth idx table seed target g hG hS c hmiss⟩, ?_⟩
  intro rest rank hwf hacyc hdepth hdig hgn
  obtain ⟨snap, hs, f1, _, _, _⟩ := hashAllTargets_snapshot Sum256 t depth seed table
    (target :: rest) rank hwf hacyc hdepth hdig
  refine ⟨snap, hs, ?_, fun tr htr => f1 tr (List.mem_cons_of_mem _ htr)⟩
  have hsv := hwf.2.2.1 target (List.mem_cons_self _ _)
  obtain ⟨_, _, hname⟩ := getNameForTarget_generated hG hsv
  obtain ⟨hnd, hfresh⟩ := nodup_targetNames_cons hwf.2.2.2
  have hnot : g.Name ∉ targetNames rest := by
    rw [← hname]
    exact hfresh (by rw [hname]; exact hgn)
  rw [hashAllTargets_eq Sum256 t depth seed table (target :: rest) hwf.1,
    digestTargets_miss Sum256 t depth _ table seed target g hG hS GoMap.empty
      (GoMap.get_empty _) rest GoMap.empty] at hs
  have hgen := digestTargets_general Sum256 t (target :: rest) (indexOf t (target :: rest)) table
    seed depth hwf.2.1 hwf.indexInv rest GoMap.empty GoMap.empty
    (fun _ h => List.mem_cons_of_mem _ h)
    (fun tg h => hwf.2.2.1 tg (List.mem_cons_of_mem _ h)) hnd (KeysInGraph.init _)
  rcases hrun : digestTargets Sum256 t depth (indexOf t (target :: rest)) table seed rest
    (GoMap.empty, GoMap.empty) with x | ⟨s2, c2⟩
  · rw [hrun] at hs
    simp only at hs
    rcases hgen.2 x hrun with h | h | ⟨e, h, _⟩
    · rw [h] at hs
      exact absurd hs (by simp)
    · rw [h] at hs
      exact absurd hs (by simp)
    · rw [h] at hs
      exact absurd hs (by simp)
  · rw [hrun] at hs
    simp only [Exec.ret.injEq, Option.some.injEq, and_true] at hs
    obtain ⟨_, _, hfacts⟩ := hgen.1 s2 c2 hrun
    rw [← hs, hfacts.1 g.Name hnot]
    rfl

theorem exGenIndex_eq : indexOf exClientGen exTargetsGen =
    ⟨[([104], some exRuleA), (exNameA, some exRuleA), (exNameG, none)]⟩ := by
  decide

theorem exGenIndex_acyclic : Acyclic (indexOf exClientGen exTargetsGen) exRank := by
  rw [exGenIndex_eq]
  exact acyclic_of_graphRules (by decide)

theorem exGenIndex_depth :
    ∀ b, InGraph (indexOf exClientGen exTargetsGen) b → exRank b.GetName < 2 := by
  intro b hb
  have h : ∀ r ∈ graphRules (indexOf exClientGen exTargetsGen), exRank r.GetName < 2 := by
    rw [exGenIndex_eq]
    decide
  exact h b (inGraph_graphRules hb)

theorem exClientGen_wellFormed : WellFormedQuery exClientGen exTargetsGen :=
  ⟨rfl, fun r => ⟨_, rfl, rfl⟩, by decide, by decide⟩

theorem exClientGen_digests : ¬ SomeDigestFails exClientGen exTargetsGen := by
  rintro ⟨target, htg, r, b, hr, _, hb, hfail⟩
  apply hfail
  simp only [exClientGen, exProvider, Option.map_some', Option.some.injEq] at hb
  rw [← hb]

set_option maxRecDepth 100000 in
/-- C18 on the second sample query result `g`, `A`, `h` with SHA-256: `g`,
which stands before its generating rule `A`, has no entry; `A` has its entry,
and so has `h`, which stands after `A`. -/
theorem generatedFile_miss_no_entry_witness :
    WellFormedQuery exClientGen exTargetsGen ∧
    Acyclic (indexOf exClientGen exTargetsGen) exRank ∧
    (∀ b, InGraph (indexOf exClientGen exTargetsGen) b → exRank b.GetName < 2) ∧
    ¬ SomeDigestFails exClientGen exTargetsGen ∧
    (∀ (idx : GoMap (Option BazelRule)) (c : GoMap Bytes), c.get exNameA = none →
      createDigestForTarget sha256 exClientGen 2 ⟨none, none, some ⟨exNameG, exNameA⟩⟩ idx
        (exTable [7]) c none = (.ret none none, c)) ∧
    (∃ snap, hashAllTargets sha256 exClientGen 2 none (exTable [7]) = .ret (some snap) none ∧
      snap.get exNameG = none ∧
      ∀ tr ∈ exTargetsGen.tail, ∀ r b, tr.Rule = some r → r.Name ≠ [] →
        exClientGen.ruleProvider.GetRule (some r) = some b →
        snap.get r.Name = some (convertByteArrayToString
          (refDigest sha256 (indexOf exClientGen exTargetsGen) (exTable [7]) none 2 b))) ∧
    (∃ snap, hashAllTargets sha256 exClientGen 2 none (exTable [7]) = .ret (some snap) none ∧
      snap.get exNameG = none ∧
      snap.get exNameA = some (convertByteArrayToString (sha256 [1])) ∧
      snap.get [104] = some (convertByteArrayToString (sha256 [1]))) :=
  have h := generatedFile_miss_no_entry sha256 exClientGen 2 (exTable [7]) none
    ⟨none, none, some ⟨exNameG, exNameA⟩⟩ ⟨exNameG, exNameA⟩ rfl rfl
  ⟨exClientGen_wellFormed, exGenIndex_acyclic, exGenIndex_depth, exClientGen_digests,
    fun idx c hc => (h.1 idx c hc).1,
    h.2 exTargetsGen.tail exRank exClientGen_wellFormed exGenIndex_acyclic exGenIndex_depth
      exClientGen_digests (by decide),
    ⟨(match hashAllTargets sha256 exClientGen 2 none (exTable [7]) with
      | .ret (some snap) _ => snap
      | _ => GoMap.empty), by decide!, by decide!, by decide!, by decide!⟩⟩

/-! ## C19: the order of the rule targets -/

theorem refPreimage_congr_index (Sum256 : Bytes → Bytes) (idx1 idx2 : GoMap (Option BazelRule))
    (table : GoMap BazelSourceFileTarget) (seed : Option Bytes)
    (h : ∀ k, ruleAt idx1 k = ruleAt idx2 k) :
    ∀ (depth : Nat) (r : BazelRule),
      refPreimage Sum256 idx1 table seed depth r = refPreimage Sum256 idx2 table seed depth r := by
  intro depth
  induction depth with
  | zero => intro r; rfl
  | succ n ih =>
    intro r
    rw [refPreimage_succ, refPreimage_succ]
    congr 2
    apply List.map_congr_left
    intro i _
    unfold refContribution refDigest
    rw [h i]
    cases ruleAt idx2 i with
    | none => rfl
    | some r2 => simp only [ih r2]

theorem acyclic_congr_index {idx1 idx2 : GoMap (Option BazelRule)} {rank : GoString → Nat}
    (h : ∀ k, ruleAt idx1 k = ruleAt idx2 k) (hacyc : Acyclic idx1 rank) : Acyclic idx2 rank := by
  intro r hr i hi r2 h2
  obtain ⟨k, hk⟩ := hr
  exact hacyc r ⟨k, by rw [h k]; exact hk⟩ i hi r2 (by rw [h i]; exact h2)

/-- Without generated files, a name resolves in the index to the materialized
rule of the rule target of that name. -/
theorem ruleAt_index_sub (t1 t2 : targetHashingClient) (l1 l2 : List Target)
    (hwf1 : WellFormedQuery t1 l1) (hwf2 : WellFormedQuery t2 l2)
    (hprov : t2.ruleProvider = t1.ruleProvider) (hmem : ∀ tg, tg ∈ l1 → tg ∈ l2)
    (hnog : ∀ tg ∈ l1, tg.GeneratedFile = none) (k : GoString) (b : BazelRule)
    (h : ruleAt (indexOf t1 l1) k = some b) : ruleAt (indexOf t2 l2) k = some b := by
  rcases indexTargets_keys t1 l1 GoMap.empty k (ruleAt_some_get h) with h0 | ⟨tg, htg, hname, hk, hv⟩
  · exact absurd (GoMap.get_empty _) h0
  · rcases hv with hv | hv
    · obtain ⟨r, hr⟩ := Option.ne_none_iff_exists'.1 hv
      have hrn : r.Name = k := by rw [← getNameForTarget_rule hr, hname]
      have h1 := hwf1.indexInv.2.2 tg htg r hr (by rw [hrn]; exact hk)
      have h2 := hwf2.indexInv.2.2 tg (hmem tg htg) r hr (by rw [hrn]; exact hk)
      rw [hrn] at h1 h2
      rw [h2, hprov, ← h1, h]
    · exact absurd (hnog tg htg) hv

theorem wellFormedQuery_perm {t1 t2 : targetHashingClient} {l1 l2 : List Target}
    (hwf1 : WellFormedQuery t1 l1) (hq : t2.bazelClient.QueryAllTargets = (l2, none))
    (hprov : t2.ruleProvider = t1.ruleProvider) (hperm : l2.Perm l1) : WellFormedQuery t2 l2 := by
  refine ⟨hq, by rw [hprov]; exact hwf1.2.1, fun tg htg => hwf1.2.2.1 tg (hperm.mem_iff.1 htg), ?_⟩
  have : (targetNames l2).Perm (targetNames l1) := (hperm.map _).filter _
  exact this.nodup_iff.2 hwf1.2.2.2

set_option maxRecDepth 100000 in
/-- C19 as stated fails: with SHA-256, rule `B` listing rule `A` and the
source file `s1`, the query result `B`, `A` and the query result `A`, `B` give
snapshots with the same two entries. In the order `B`, `A` no digest is
missing, and the digest of `B` is the hash of its declared digest followed by
the name and the digest of `A` and the name and the digest of `s1`. -/
theorem dependent_rule_first_same_snapshot :
    ∃ snapBA snapAB,
      hashAllTargets sha256 roClientBA 2 none (exTable [7]) = .ret (some snapBA) none ∧
      hashAllTargets sha256 roClientAB 2 none (exTable [7]) = .ret (some snapAB) none ∧
      snapBA.get exNameA = some (convertByteArrayToString (sha256 [1])) ∧
      snapBA.get exNameB = some (convertByteArrayToString
        (sha256 ([2] ++ (exNameA ++ sha256 [1]) ++ (exNameS ++ [7])))) ∧
      snapAB.get exNameA = snapBA.get exNameA ∧ snapAB.get exNameB = snapBA.get exNameB ∧
      snapBA.range.length = 2 ∧ snapAB.range.length = 2 :=
  ⟨(match hashAllTargets sha256 roClientBA 2 none (exTable [7]) with
      | .ret (some snap) _ => snap
      | _ => GoMap.empty),
    (match hashAllTargets sha256 roClientAB 2 none (exTable [7]) with
      | .ret (some snap) _ => snap
      | _ => GoMap.empty),
    by decide!, by decide!, by decide!, by decide!, by decide!, by decide!, by decide!,
    by decide!⟩

/-- C19, amended. The snapshot of a query result of rule and source-file
targets does not depend on the order of the targets. For a well-formed,
acyclic query result without generated files whose declared digests are
available, and for every reordering of its target list, `hashAllTargets`
returns for both orders a snapshot and no error, the two snapshots hold the
same entry under every name, and every rule target holds the hex string of
its reference digest, which folds in the digest of every rule among its
inputs, wherever those rules stand in the list. -/
theorem rule_order_does_not_matter (Sum256 : Bytes → Bytes) (t1 t2 : targetHashingClient)
    (depth : Nat) (seed : Option Bytes) (table : GoMap BazelSourceFileTarget)
    (l1 l2 : List Target) (rank : GoString → Nat) (hwf1 : WellFormedQuery t1 l1)
    (hacyc : Acyclic (indexOf t1 l1) rank)
    (hdepth : ∀ b, InGraph (indexOf t1 l1) b → rank b.GetName < depth)
    (hdig : ¬ SomeDigestFails t1 l1) (hnog : ∀ tg ∈ l1, tg.GeneratedFile = none)
    (hq : t2.bazelClient.QueryAllTargets = (l2, none))
    (hprov : t2.ruleProvider = t1.ruleProvider) (hperm : l2.Perm l1) :
    ∃ snap1 snap2, hashAllTargets Sum256 t1 depth seed table = .ret (some snap1) none ∧
      hashAllTargets Sum256 t2 depth seed table = .ret (some snap2) none ∧
      (∀ k, snap1.get k = snap2.get k) ∧
      ∀ target ∈ l1, ∀ r b, target.Rule = some r → r.Name ≠ [] →
        t1.ruleProvider.GetRule (some r) = some b →
        snap2.get r.Name = some (convertByteArrayToString
          (refDigest Sum256 (indexOf t1 l1) table seed depth b)) := by
  have hwf2 := wellFormedQuery_perm hwf1 hq hprov hperm
  have hidx : ∀ k, ruleAt (indexOf t1 l1) k = ruleAt (indexOf t2 l2) k := by
    intro k
    cases h1 : ruleAt (indexOf t1 l1) k with
    | some b =>
      exact (ruleAt_index_sub t1 t2 l1 l2 hwf1 hwf2 hprov (fun tg h => hperm.mem_iff.2 h) hnog
        k b h1).symm
    | none =>
      cases h2 : ruleAt (indexOf t2 l2) k with
      | none => rfl
      | some b =>
        have := ruleAt_index_sub t2 t1 l2 l1 hwf2 hwf1 hprov.symm
          (fun tg h => hperm.mem_iff.1 h) (fun tg h => hnog tg (hperm.mem_iff.1 h)) k b h2
        rw [h1] at this
        exact absurd this (by simp)
  have hacyc2 : Acyclic (indexOf t2 l2) rank := acyclic_congr_index hidx hacyc
  have hdepth2 : ∀ b, InGraph (indexOf t2 l2) b → rank b.GetName < depth := by
    rintro b ⟨k, hk⟩
    exact hdepth b ⟨k, by rw [hidx k]; exact hk⟩
  have hdig2 : ¬ SomeDigestFails t2 l2 := by
    rintro ⟨tg, htg, r, b, hr, hrn, hb, hfail⟩
    exact hdig ⟨tg, hperm.mem_iff.1 htg, r, b, hr, hrn, by rw [← hprov]; exact hb, hfail⟩
  obtain ⟨snap1, hs1, f1, f2, _, f4⟩ := hashAllTargets_snapshot Sum256 t1 depth seed table l1 rank
    hwf1 hacyc hdepth hdig
  obtain ⟨snap2, hs2, g1, g2, _, g4⟩ := hashAllTargets_snapshot Sum256 t2 depth seed table l2 rank
    hwf2 hacyc2 hdepth2 hdig2
  have hrule : ∀ target ∈ l1, ∀ r b, target.Rule = some r → r.Name ≠ [] →
      t1.ruleProvider.GetRule (some r) = some b →
      snap2.get r.Name = some (convertByteArrayToString
        (refDigest Sum256 (indexOf t1 l1) table seed depth b)) := by
    intro target htg r b hr hrn hb
    rw [g1 target (hperm.mem_iff.2 htg) r b hr hrn (by rw [hprov]; exact hb)]
    unfold refDigest
    rw [refPreimage_congr_index Sum256 _ _ table seed hidx depth b]
  refine ⟨snap1, snap2, hs1, hs2, ?_, hrule⟩
  intro k
  by_cases hk : k ∈ targetNames l1
  · obtain ⟨hne, tg, htg, hname⟩ := mem_targetNames.1 hk
    have hsv := hwf1.2.2.1 tg htg
    rcases variant_cases (hname ▸ hne) with ⟨r, hR⟩ | ⟨sf, hS⟩ | ⟨g, hG⟩
    · obtain ⟨_, _, hn⟩ := getNameForTarget_ruleVariant hR hsv
      obtain ⟨b, hb, _⟩ := hwf1.2.1 r
      have hrk : r.Name = k := by rw [← hn, hname]
      have e1 := f1 tg htg r b hR (by rw [hrk]; exact hne) hb
      have e2 := hrule tg htg r b hR (by rw [hrk]; exact hne) hb
      rw [hrk] at e1 e2
      rw [e1, e2]
    · obtain ⟨_, _, hn⟩ := getNameForTarget_source hS hsv
      have hsk : sf.Name = k := by rw [← hn, hname]
      have e1 := f2 tg htg sf hS (by rw [hsk]; exact hne)
      have e2 := g2 tg (hperm.mem_iff.2 htg) sf hS (by rw [hsk]; exact hne)
      rw [hsk] at e1 e2
      rw [e1, e2]
    · rw [hnog tg htg] at hG
      exact absurd hG (by simp)
  · have hk2 : k ∉ targetNames l2 := by
      intro h
      obtain ⟨hne, tg, htg, hname⟩ := mem_targetNames.1 h
      exact hk (mem_targetNames.2 ⟨hne, tg, hperm.mem_iff.1 htg, hname⟩)
    rw [f4 k hk, g4 k hk2]

theorem roIndex_eq : indexOf roClientBA roTargetsBA =
    ⟨[(exNameA, some exRuleA), (exNameB, some scRuleB)]⟩ := by
  decide

theorem roClientBA_wellFormed : WellFormedQuery roClientBA roTargetsBA :=
  ⟨rfl, fun r => ⟨_, rfl, rfl⟩, by decide, by decide⟩

theorem roIndex_acyclic : Acyclic (indexOf roClientBA roTargetsBA) exRank := by
  rw [roIndex_eq]
  exact acyclic_of_graphRules (by decide)

theorem roIndex_depth : ∀ b, InGraph (indexOf roClientBA roTargetsBA) b → exRank b.GetName < 2 := by
  intro b hb
  have h : ∀ r ∈ graphRules (indexOf roClientBA roTargetsBA), exRank r.GetName < 2 := by
    rw [roIndex_eq]
    decide
  exact h b (inGraph_graphRules hb)

theorem roClientBA_digests : ¬ SomeDigestFails roClientBA roTargetsBA := by
  rintro ⟨target, htg, r, b, hr, _, hb, hfail⟩
  apply hfail
  simp only [roClientBA, scProvider, Option.map_some', Option.some.injEq] at hb
  rw [← hb]

/-- C19, amended, on the rules `B`, `A` of the scenario and their reordering
`A`, `B`. -/
theorem rule_order_does_not_matter_witness :
    WellFormedQuery roClientBA roTargetsBA ∧ Acyclic (indexOf roClientBA roTargetsBA) exRank ∧
    (∀ b, InGraph (indexOf roClientBA roTargetsBA) b → exRank b.GetName < 2) ∧
    ¬ SomeDigestFails roClientBA roTargetsBA ∧
    (∀ tg ∈ roTargetsBA, tg.GeneratedFile = none) ∧
    roClientAB.bazelClient.QueryAllTargets = (roTargetsAB, none) ∧
    roClientAB.ruleProvider = roClientBA.ruleProvider ∧ roTargetsAB.Perm roTargetsBA ∧
    ∃ snap1 snap2, hashAllTargets sha256 roClientBA 2 none (exTable [7]) = .ret (some snap1) none ∧
      hashAllTargets sha256 roClientAB 2 none (exTable [7]) = .ret (some snap2) none ∧
      (∀ k, snap1.get k = snap2.get k) ∧
      ∀ target ∈ roTargetsBA, ∀ r b, target.Rule = some r → r.Name ≠ [] →
        roClientBA.ruleProvider.GetRule (some r) = some b →
        snap2.get r.Name = some (convertByteArrayToString
          (refDigest sha256 (indexOf roClientBA roTargetsBA) (exTable [7]) none 2 b)) :=
  ⟨roClientBA_wellFormed, roIndex_acyclic, roIndex_depth, roClientBA_digests, by decide, rfl, rfl,
    List.Perm.swap _ _ _,
    rule_order_does_not_matter sha256 roClientBA roClientAB 2 none (exTable [7]) roTargetsBA
      roTargetsAB exRank roClientBA_wellFormed roIndex_acyclic roIndex_depth roClientBA_digests
      (by decide) rfl rfl (List.Perm.swap _ _ _)⟩

/-! ## C20: the index built by the first loop -/

theorem indexTargets_append (t : targetHashingClient) (l1 l2 : List Target)
    (m : GoMap (Option BazelRule)) :
    indexTargets t (l1 ++ l2) m = indexTargets t l2 (indexTargets t l1 m) := by
  unfold indexTargets
  rw [List.foldl_append]

theorem indexTargets_cons (t : targetHashingClient) (target : Target) (rest : List Target)
    (m : GoMap (Option BazelRule)) :
    indexTargets t (target :: rest) m = indexTargets t rest (indexTarget t m target) := rfl

theorem indexTarget_get_other (t : targetHashingClient) (m : GoMap (Option BazelRule))
    (target : Target) (k : GoString) (h : getNameForTarget target ≠ k) :
    (indexTarget t m target).get k = m.get k := by
  unfold indexTarget
  by_cases hn : getNameForTarget target = []
  · rw [if_pos hn]
  · rw [if_neg hn]
    cases hR : target.Rule <;> cases hG : target.GeneratedFile <;>
      simp only [GoMap.get_set_ne _ _ h]

/-- The first loop writes only under the names of the targets it visits. -/
theorem indexTargets_get_other (t : targetHashingClient) :
    ∀ (targets : List Target) (m : GoMap (Option BazelRule)) (k : GoString),
      (∀ tg ∈ targets, getNameForTarget tg ≠ k) → (indexTargets t targets m).get k = m.get k := by
  intro targets
  induction targets with
  | nil => intro m k _; rfl
  | cons target rest ih =>
    intro m k h
    rw [indexTargets_cons, ih _ k (fun tg htg => h tg (List.mem_cons_of_mem _ htg)),
      indexTarget_get_other t m target k (h target (List.mem_cons_self _ _))]

theorem uniqueNames_split {pre post : List Target} {target : Target}
    (h : UniqueNames (pre ++ target :: post)) (hn : getNameForTarget target ≠ []) :
    UniqueNames pre ∧ (∀ tg ∈ pre, getNameForTarget tg ≠ getNameForTarget target) ∧
      (∀ tg ∈ post, getNameForTarget tg ≠ getNameForTarget target) := by
  unfold UniqueNames at h ⊢
  rw [targetNames_append, targetNames_cons, if_neg hn] at h
  obtain ⟨h1, h2, h3⟩ := List.nodup_append.1 h
  refine ⟨h1, ?_, ?_⟩
  · intro tg htg e
    exact h3 (mem_targetNames.2 ⟨e ▸ hn, tg, htg, rfl⟩) (by rw [e]; exact List.mem_cons_self _ _) 
  · intro tg htg e
    exact (List.nodup_cons.1 h2).1 (mem_targetNames.2 ⟨hn, tg, htg, e⟩)

/-- The entry the first loop leaves under the name of a target of a list with
unique names is the entry written when the target was visited. -/
theorem indexOf_get_at (t : targetHashingClient) (pre post : List Target) (target : Target)
    (huniq : UniqueNames (pre ++ target :: post)) (hn : getNameForTarget target ≠ []) :
    (indexOf t (pre ++ target :: post)).get (getNameForTarget target) =
      (indexTarget t (indexOf t pre) target).get (getNameForTarget target) := by
  obtain ⟨_, _, hpost⟩ := uniqueNames_split huniq hn
  unfold indexOf
  rw [indexTargets_append, indexTargets_cons, indexTargets_get_other t post _ _ hpost]

theorem indexOf_rule (t : targetHashingClient) (targets : List Target)
    (huniq : UniqueNames targets) (hsv : ∀ target ∈ targets, SingleVariant target)
    (target : Target) (htg : target ∈ targets) (r : Rule) (hR : target.Rule = some r)
    (hrn : r.Name ≠ []) :
    (indexOf t targets).get r.Name = some (t.ruleProvider.GetRule (some r)) := by
  obtain ⟨pre, post, hsplit⟩ := List.append_of_mem htg
  obtain ⟨_, hG, hname⟩ := getNameForTarget_ruleVariant hR (hsv target htg)
  subst hsplit
  have := indexOf_get_at t pre post target huniq (by rw [hname]; exact hrn)
  rw [hname] at this
  rw [this]
  simp only [indexTarget, hname, if_neg hrn, hR, hG, GoMap.get_set_self]

theorem indexOf_noKey (t : targetHashingClient) (targets : List Target) (k : GoString)
    (h : ∀ tg ∈ targets, getNameForTarget tg = k → k ≠ [] →
      tg.Rule = none ∧ tg.GeneratedFile = none) :
    (indexOf t targets).get k = none := by
  by_contra hne
  rcases indexTargets_keys t targets GoMap.empty k hne with h0 | ⟨tg, htg, hname, hk, hv⟩
  · exact h0 (GoMap.get_empty _)
  · obtain ⟨h1, h2⟩ := h tg htg hname hk
    rcases hv with hv | hv
    · exact hv h1
    · exact hv h2

theorem foldRuleInputs_unresolved
    (recur : Option BazelRule → GoMap Bytes → Exec (Option Bytes) × GoMap Bytes)
    (idx : GoMap (Option BazelRule)) (table : GoMap BazelSourceFileTarget)
    (ruleName i : GoString) (rest : List GoString) (buf : Bytes) (c : GoMap Bytes)
    (h : ruleAt idx i = none) :
    foldRuleInputs recur idx table ruleName (i :: rest) buf c =
      foldRuleInputs recur idx table ruleName rest (buf ++ i ++ sourceContribution table i) c := by
  rcases hsd : getDigestForSourceTargetName i table with ⟨sd, err⟩
  have herr : err = none := by
    have := getDigestForSourceTargetName_snd i table
    rw [hsd] at this
    exact this
  subst herr
  have hsc : sd.getD [] = sourceContribution table i := by
    have := getDigestForSourceTargetName_fst i table
    rw [hsd] at this
    exact this
  simp only [foldRuleInputs, hsd, h, writeIfNotNil_eq, hsc]

/-- C20. For every target list with unique names, at most one variant per
target and generating rules that are rules, the index that the first loop of
`hashAllTargets` builds holds under the non-empty name of each rule target its
materialized rule; holds under the non-empty name of each generated-file
target `g` the materialized rule of the rule target named as its generating
rule when that target stands before `g` in the list, and nil when no such rule
target stands before `g`; and holds no entry under the name of a source-file
target. A rule that lists as an input a generated file held with nil folds in
the name bytes of that input followed by its source-table digest, if any, and
nothing else. -/
theorem index_of_first_pass (t : targetHashingClient) (targets : List Target)
    (huniq : UniqueNames targets) (hsv : ∀ target ∈ targets, SingleVariant target)
    (hgen : GeneratedByRules targets) :
    (∀ target ∈ targets, ∀ r, target.Rule = some r → r.Name ≠ [] →
      (indexOf t targets).get r.Name = some (t.ruleProvider.GetRule (some r))) ∧
    (∀ pre target post g, targets = pre ++ target :: post → target.GeneratedFile = some g →
      g.Name ≠ [] →
      (∀ tr ∈ pre, ∀ r, tr.Rule = some r → r.Name ≠ [] → r.Name = g.GeneratingRule →
        (indexOf t targets).get g.Name = some (t.ruleProvider.GetRule (some r))) ∧
      ((∀ tr ∈ pre, ∀ r, tr.Rule = some r → r.Name ≠ [] → r.Name ≠ g.GeneratingRule) →
        (indexOf t targets).get g.Name = some none ∧
        ∀ (recur : Option BazelRule → GoMap Bytes → Exec (Option Bytes) × GoMap Bytes)
          (table : GoMap BazelSourceFileTarget) (ruleName : GoString) (rest : List GoString)
          (buf : Bytes) (c : GoMap Bytes),
          foldRuleInputs recur (indexOf t targets) table ruleName (g.Name :: rest) buf c =
            foldRuleInputs recur (indexOf t targets) table ruleName rest
              (buf ++ g.Name ++ sourceContribution table g.Name) c)) ∧
    (∀ target ∈ targets, ∀ sf, target.SourceFile = some sf →
      (indexOf t targets).get sf.Name = none) := by
  refine ⟨indexOf_rule t targets huniq hsv, ?_, ?_⟩
  · intro pre target post g hsplit hG hgn
    subst hsplit
    have hsvt := hsv target (by simp)
    obtain ⟨hR, _, hname⟩ := getNameForTarget_generated hG hsvt
    have hn : getNameForTarget target ≠ [] := by rw [hname]; exact hgn
    obtain ⟨hupre, _, _⟩ := uniqueNames_split huniq hn
    have hget : (indexOf t (pre ++ target :: post)).get g.Name =
        some (ruleAt (indexOf t pre) g.GeneratingRule) := by
      have := indexOf_get_at t pre post target huniq hn
      rw [hname] at this
      rw [this]
      simp only [indexTarget, hname, if_neg hgn, hR, hG, GoMap.get_set_self]
    constructor
    · intro tr htr r hr hrn hrg
      rw [hget, ← hrg]
      have := indexOf_rule t pre hupre (fun tg h => hsv tg (List.mem_append_left _ h)) tr htr r
        hr hrn
      simp only [ruleAt, this, Option.join, Option.some_bind, id]
    · intro hnone
      have hk : (indexOf t pre).get g.GeneratingRule = none := by
        apply indexOf_noKey
        intro tg htg hnm hne
        have hsvg := hsv tg (List.mem_append_left _ htg)
        constructor
        · by_contra hr
          obtain ⟨r, hr⟩ := Option.ne_none_iff_exists'.1 hr
          have hrn : r.Name = g.GeneratingRule := by rw [← getNameForTarget_rule hr, hnm]
          exact hnone tg htg r hr (by rw [hrn]; exact hne) hrn
        · by_contra hg2
          obtain ⟨g2, hg2⟩ := Option.ne_none_iff_exists'.1 hg2
          obtain ⟨_, _, hn2⟩ := getNameForTarget_generated hg2 hsvg
          exact hgen target (by simp) tg (List.mem_append_left _ htg) g (Option.mem_def.2 hG) g2
            (Option.mem_def.2 hg2) (by rw [← hn2, hnm])
      have hnil : (indexOf t (pre ++ target :: post)).get g.Name = some none := by
        rw [hget]
        simp only [ruleAt, hk, Option.join, Option.none_bind]
      refine ⟨hnil, fun recur table ruleName rest buf c => ?_⟩
      exact foldRuleInputs_unresolved recur _ table ruleName g.Name rest buf c
        (by simp only [ruleAt, hnil, Option.join, Option.some_bind, id])
  · intro target htg sf hS
    apply indexOf_noKey
    intro tg htg2 hnm hne
    obtain ⟨hR, hG, hname⟩ := getNameForTarget_source hS (hsv target htg)
    have := target_unique_of_name targets huniq tg htg2 target htg (by rw [hnm]; exact hne)
      (by rw [hnm, hname])
    rw [this]
    exact ⟨hR, hG⟩

/-- C20 on the second sample query result `g`, `A`, `h`: the rule `A` is held
under its name; `g`, which stands before its generating rule `A`, is held with
nil and adds only its name bytes to a rule that lists it; `h`, which stands
after `A`, is held with the rule `A`. -/
theorem index_of_first_pass_witness :
    UniqueNames exTargetsGen ∧ (∀ target ∈ exTargetsGen, SingleVariant target) ∧
    GeneratedByRules exTargetsGen ∧
    (indexOf exClientGen exTargetsGen).get exNameA =
      some (exClientGen.ruleProvider.GetRule (some ⟨exNameA, [1]⟩)) ∧
    (indexOf exClientGen exTargetsGen).get exNameG = some none ∧
    (∀ (recur : Option BazelRule → GoMap Bytes → Exec (Option Bytes) × GoMap Bytes)
      (table : GoMap BazelSourceFileTarget) (ruleName : GoString) (rest : List GoString)
      (buf : Bytes) (c : GoMap Bytes),
      foldRuleInputs recur (indexOf exClientGen exTargetsGen) table ruleName (exNameG :: rest)
          buf c =
        foldRuleInputs recur (indexOf exClientGen exTargetsGen) table ruleName rest
          (buf ++ exNameG ++ sourceContribution table exNameG) c) ∧
    (indexOf exClientGen exTargetsGen).get [104] =
      some (exClientGen.ruleProvider.GetRule (some ⟨exNameA, [1]⟩)) :=
  have h := index_of_first_pass exClientGen exTargetsGen (by decide) (by decide) (by decide)
  have hg := (h.2.1 [] ⟨none, none, some ⟨exNameG, exNameA⟩⟩ (exTargetsGen.drop 1)
    ⟨exNameG, exNameA⟩ rfl rfl (by decide)).2 (by decide)
  ⟨by decide, by decide, by decide,
    h.1 ⟨some ⟨exNameA, [1]⟩, none, none⟩ (by decide) ⟨exNameA, [1]⟩ rfl (by decide),
    hg.1, hg.2,
    (h.2.1 (exTargetsGen.take 2) ⟨none, none, some ⟨[104], exNameA⟩⟩ []
      ⟨[104], exNameA⟩ rfl rfl (by decide)).1 ⟨some ⟨exNameA, [1]⟩, none, none⟩ (by decide)
      ⟨exNameA, [1]⟩ rfl (by decide) rfl⟩

end BazelDiffer
